import Mathlib

/-!
# libprimis: bounded interval hierarchy

A verification development for the BIH of libprimis: the packed tree node of
`engine/model/hitzone.h` and `engine/world/bih.h`, the ray queries of
`engine/world/bih.h` with the node hierarchy they descend, the hit zone bounds
of `engine/model/hitzone.h`, and the model registry, model commands, model
culling, model batches and map-model names of `engine/render/rendermodel.cpp`.

Machine integers are natural numbers; a `ushort` field holds a value below
`2^16` and a store into one reduces modulo `2^16`.  The ray queries, whose
bodies are outside the sources, are modelled from the spec over exact
rationals.  The `float` arithmetic of the hit zone bounds, of `mdlscale` and of
`cullmodel` is IEEE 754 binary32: every operation rounds to the nearest value
of the format.
-/

/-! ## Packed node (`skelbih::node`, same layout and members as `BIH::node`) -/

/-- Store into a `ushort`: the value is reduced modulo `2^16`. -/
def toushort (x : Nat) : Nat := x % 65536

namespace skelbih

/-- The tree node: `short split[2]; ushort child[2];`. -/
structure node where
  split0 : Int
  split1 : Int
  child0 : Nat
  child1 : Nat

/-- The fields of the node hold 16-bit values. -/
def node.valid (n : node) : Prop :=
  -32768 ≤ n.split0 ∧ n.split0 < 32768 ∧ -32768 ≤ n.split1 ∧ n.split1 < 32768 ∧
  n.child0 < 65536 ∧ n.child1 < 65536

instance (n : node) : Decidable n.valid := by
  unfold node.valid; infer_instance

/-- The array access `child[which]`, for `which` 0 or 1. -/
def node.child (n : node) (which : Nat) : Nat :=
  if which = 0 then n.child0 else n.child1

/-- The member `axis()`: `return child[0]>>14;`. -/
def node.axis (n : node) : Nat :=
  n.child 0 >>> 14

/-- The member `childindex(which)`: `return child[which]&0x3FFF;`. -/
def node.childindex (n : node) (which : Nat) : Nat :=
  n.child which &&& 0x3FFF

/-- The member `isleaf(which)`: `return (child[1]&(1<<(14+which)))!=0;`. -/
def node.isleaf (n : node) (which : Nat) : Bool :=
  (n.child 1 &&& (1 <<< (14 + which))) != 0

/-- The node whose packed fields are written as
`child[0] = (a<<14)|i0; child[1] = (l0<<14)|(l1<<15)|i1;`. -/
def node.pack (s0 s1 : Int) (a i0 : Nat) (l0 l1 : Bool) (i1 : Nat) : node :=
  { split0 := s0, split1 := s1,
    child0 := toushort ((a <<< 14) ||| i0),
    child1 := toushort ((l0.toNat <<< 14) ||| (l1.toNat <<< 15) ||| i1) }

end skelbih

/-! ## Vectors and transforms with exact coordinates -/

/-- The vector type `vec`, with exact rational coordinates. -/
structure vec where
  x : ℚ
  y : ℚ
  z : ℚ
deriving DecidableEq

namespace vec

/-- Componentwise sum. -/
def add (a b : vec) : vec := ⟨a.x + b.x, a.y + b.y, a.z + b.z⟩

/-- Componentwise difference. -/
def sub (a b : vec) : vec := ⟨a.x - b.x, a.y - b.y, a.z - b.z⟩

/-- Multiplication by a scalar. -/
def mul (a : vec) (k : ℚ) : vec := ⟨a.x * k, a.y * k, a.z * k⟩

/-- Dot product. -/
def dot (a b : vec) : ℚ := a.x * b.x + a.y * b.y + a.z * b.z

/-- Cross product. -/
def cross (a b : vec) : vec :=
  ⟨a.y * b.z - a.z * b.y, a.z * b.x - a.x * b.z, a.x * b.y - a.y * b.x⟩

/-- Componentwise minimum, as `std::min` on each coordinate. -/
def min (a b : vec) : vec := ⟨Min.min a.x b.x, Min.min a.y b.y, Min.min a.z b.z⟩

/-- Componentwise maximum, as `std::max` on each coordinate. -/
def max (a b : vec) : vec := ⟨Max.max a.x b.x, Max.max a.y b.y, Max.max a.z b.z⟩

/-- Componentwise order. -/
def le (a b : vec) : Prop := a.x ≤ b.x ∧ a.y ≤ b.y ∧ a.z ≤ b.z

instance (a b : vec) : Decidable (a.le b) := by
  unfold le; infer_instance

end vec

/-- Modelled from the spec: the 4x3 transform type `matrix4x3` of the mesh fields
`xform` and `invxform`, whose declaration is outside the sources: three column
vectors and a translation. -/
structure matrix4x3 where
  a : vec
  b : vec
  c : vec
  d : vec

namespace matrix4x3

/-- The identity transform. -/
def identity : matrix4x3 := ⟨⟨1, 0, 0⟩, ⟨0, 1, 0⟩, ⟨0, 0, 1⟩, ⟨0, 0, 0⟩⟩

/-- Modelled from the spec: the transform applied to a point. -/
def transform (m : matrix4x3) (v : vec) : vec :=
  (((m.a.mul v.x).add (m.b.mul v.y)).add (m.c.mul v.z)).add m.d

/-- Modelled from the spec: the transform applied to a direction (no translation). -/
def transformnormal (m : matrix4x3) (v : vec) : vec :=
  ((m.a.mul v.x).add (m.b.mul v.y)).add (m.c.mul v.z)

end matrix4x3

/-! ## The static-mesh BIH (`engine/world/bih.h`) -/

namespace BIH

/-- The node of the static-mesh BIH. `bih.h` declares it with the fields and the
member signatures of `skelbih::node`; the member bodies present in the sources
are those of `skelbih::node`. -/
abbrev node := skelbih.node

/-- The triangle `struct tri { ushort vert[3]; }`: three vertex indices. -/
structure tri where
  vert0 : Nat
  vert1 : Nat
  vert2 : Nat
deriving DecidableEq

/-- The flag `Mesh_Render = 1<<1`. -/
def Mesh_Render : Nat := 1 <<< 1
/-- The flag `Mesh_NoClip = 1<<2`. -/
def Mesh_NoClip : Nat := 1 <<< 2
/-- The flag `Mesh_Alpha = 1<<3`. -/
def Mesh_Alpha : Nat := 1 <<< 3
/-- The flag `Mesh_Collide = 1<<4`. -/
def Mesh_Collide : Nat := 1 <<< 4
/-- The flag `Mesh_CullFace = 1<<5`. -/
def Mesh_CullFace : Nat := 1 <<< 5

/-- The fields of `struct mesh` that a ray query reads: the transform and its
inverse, the triangle array (`tris`, `numtris`), the vertex buffer read by
`getpos` (`pos`, `posstride`), the flags and the bounding box. -/
structure mesh where
  xform : matrix4x3
  invxform : matrix4x3
  tris : List tri
  pos : Nat → vec
  flags : Nat
  bbmin : vec
  bbmax : vec

namespace mesh

/-- The constant `static constexpr int maxtriangles = 1<<14;`. -/
def maxtriangles : Nat := 1 <<< 14

/-- The field `numtris`: the length of the triangle array. -/
def numtris (m : mesh) : Nat := m.tris.length

/-- The member `getpos(i)`: vertex `i` of the vertex buffer. -/
def getpos (m : mesh) (i : Nat) : vec := m.pos i

end mesh

/-- Modelled from the spec: the query mode of `BIH::traverse`, whose bit values
are declared outside the sources, decoded into the three selections of the
spec: collidable-only (`collide = true`) or renderable-only triangles, whether
no-clip triangles are skipped, and whether the nearest hit or the first hit
found is wanted. -/
structure raymode where
  collide : Bool
  skipnoclip : Bool
  nearest : Bool
deriving DecidableEq

/-- Modelled from the spec: the filter of the mode on the flags of a mesh. The
mode selects collidable or renderable geometry and may exclude no-clip
geometry. -/
def modepasses (mode : raymode) (flags : Nat) : Bool :=
  (if mode.collide then flags &&& Mesh_Collide != 0 else flags &&& Mesh_Render != 0) &&
  !(mode.skipnoclip && flags &&& Mesh_NoClip != 0)

/-- Modelled from the spec: the ray-triangle test of section 4.3 on a triangle
`a b c` and a ray `mo + t * mray` in the space of the mesh: two edge vectors,
the determinant by cross and dot products, rejection when the determinant is
zero (with exact coordinates "near zero" is zero: the ray is parallel to the
plane or the triangle has no area), when `cull` is set and the determinant is
negative (the ray meets the back side), or when a barycentric coordinate leaves
`[0,1]` or their sum exceeds 1; the result is the ray parameter `t`. -/
def raytri (a b c mo mray : vec) (cull : Bool) : Option ℚ :=
  let e1 := b.sub a
  let e2 := c.sub a
  let p := mray.cross e2
  let det := e1.dot p
  if det = 0 then none
  else if cull = true ∧ det < 0 then none
  else
    let tvec := mo.sub a
    let u := tvec.dot p / det
    let q := tvec.cross e1
    let v := mray.dot q / det
    if u < 0 ∨ 1 < u ∨ v < 0 ∨ 1 < v ∨ 1 < u + v then none
    else some (e2.dot q / det)

/-- Modelled from the spec: the distance at which the ray hits triangle `t` of
mesh `m`, when the mesh passes the filters of the mode, the triangle test
accepts, and the ray parameter lies in `(0, maxdist]`. -/
def trihit (m : mesh) (t : tri) (mo mray : vec) (maxdist : ℚ) (mode : raymode) : Option ℚ :=
  if modepasses mode m.flags = true then
    match raytri (m.getpos t.vert0) (m.getpos t.vert1) (m.getpos t.vert2) mo mray
        (m.flags &&& Mesh_CullFace != 0) with
    | none => none
    | some d => if 0 < d ∧ d ≤ maxdist then some d else none
  else none

/-- Modelled from the spec: the update of the running result `(hit, dist)` by
one triangle test: a hit is taken when there is no earlier hit or it is closer
than the earlier one. -/
def closer (cur : Bool × ℚ) (h : Option ℚ) : Bool × ℚ :=
  match h with
  | none => cur
  | some d => if cur.1 = true ∧ cur.2 ≤ d then cur else (true, d)

/-- Modelled from the spec: `BIH::triintersect(m, tidx, mo, mray, maxdist, dist,
mode)`, declared in `bih.h` and defined outside the sources. The running result
`cur` is the flag of an earlier hit together with `dist`. -/
def triintersect (m : mesh) (tidx : Nat) (mo mray : vec) (maxdist : ℚ) (cur : Bool × ℚ)
    (mode : raymode) : Bool × ℚ :=
  match m.tris.get? tidx with
  | none => cur
  | some t => closer cur (trihit m t mo mray maxdist mode)

/-- Modelled from the spec: the private per-mesh `BIH::traverse(m, o, ray, ...)`,
defined outside the sources. The node hierarchy is an index over the triangles
whose pruning, by section 4.2, skips only subtrees that cannot hold a qualifying
closer hit; the model tests every triangle of the mesh in array order, and in
first-hit mode stops testing after the first hit. -/
def traversemesh (m : mesh) (mo mray : vec) (maxdist : ℚ) (cur : Bool × ℚ)
    (mode : raymode) : Bool × ℚ :=
  (List.range m.numtris).foldl
    (fun c tidx =>
      if mode.nearest = false ∧ c.1 = true then c
      else triintersect m tidx mo mray maxdist c mode) cur

/-- The vertex `i` of a mesh placed by the transform of the mesh. -/
def mesh.placed (m : mesh) (i : Nat) : vec := m.xform.transform (m.getpos i)

/-- The start values of a bounding box before any vertex is added, as in
`skelzonebounds` of `hitzone.h`: `bbmin(1e16f, ...)`, `bbmax(-1e16f, ...)`. -/
def emptybounds : vec × vec :=
  (⟨10 ^ 16, 10 ^ 16, 10 ^ 16⟩, ⟨-10 ^ 16, -10 ^ 16, -10 ^ 16⟩)

/-- Extension of a bounding box by a point, as `skelzonebounds::addvert`. -/
def addvert (bb : vec × vec) (p : vec) : vec × vec := (bb.1.min p, bb.2.max p)

/-- Modelled from the spec: the bounding box of the vertices of the triangles of
a mesh, placed by the transform of the mesh. -/
def mesh.calcbounds (m : mesh) : vec × vec :=
  m.tris.foldl
    (fun bb t => addvert (addvert (addvert bb (m.placed t.vert0)) (m.placed t.vert1))
      (m.placed t.vert2))
    emptybounds

/-- The mesh with its bounding box set from its vertices. -/
def mesh.withbounds (m : mesh) : mesh :=
  { m with bbmin := m.calcbounds.1, bbmax := m.calcbounds.2 }

/-- Modelled from the spec: the outcome of a failed build. -/
inductive builderror where
  | capacity
deriving DecidableEq

end BIH

/-- The fields of `class BIH` that a ray query reads: the meshes, the triangle
count and the bounding box shared by the meshes. -/
structure BIH where
  meshes : List BIH.mesh
  numtris : Nat
  bbmin : vec
  bbmax : vec

namespace BIH

/-- Modelled from the spec: the BIH that a successful build publishes: every
mesh with its bounding box, the total triangle count, and the union of the
bounding boxes of the meshes. -/
def built (buildmeshes : List mesh) : BIH :=
  let ms := buildmeshes.map mesh.withbounds
  { meshes := ms,
    numtris := (ms.map mesh.numtris).sum,
    bbmin := ms.foldl (fun bb m => bb.min m.bbmin) emptybounds.1,
    bbmax := ms.foldl (fun bb m => bb.max m.bbmax) emptybounds.2 }

/-- Modelled from the spec: the constructor `BIH::BIH(std::vector<mesh>&)`,
defined outside the sources. The build fails with the capacity error when a mesh
has more than `maxtriangles` triangles, and then publishes no BIH; otherwise it
publishes the BIH of all the meshes. -/
def construct (buildmeshes : List mesh) : Except builderror BIH :=
  if buildmeshes.all (fun m => decide (m.numtris ≤ mesh.maxtriangles)) = true then
    Except.ok (built buildmeshes)
  else Except.error builderror.capacity

/-- Modelled from the spec: the public `BIH::traverse(o, ray, maxdist, dist,
mode)`, defined outside the sources. The result is the returned flag together
with the value of the reference parameter `dist` on return. A negative `maxdist`
gives no hit at once; otherwise the ray is taken into the space of each mesh by
the inverse transform of the mesh, once per mesh, and the meshes are searched in
order. -/
def traverse (b : BIH) (o ray : vec) (maxdist dist : ℚ) (mode : raymode) : Bool × ℚ :=
  if maxdist < 0 then (false, dist)
  else
    b.meshes.foldl
      (fun c m =>
        if mode.nearest = false ∧ c.1 = true then c
        else traversemesh m (m.invxform.transform o) (m.invxform.transformnormal ray)
          maxdist c mode)
      (false, dist)

/-- The point lies in the bounding box of the BIH. -/
def inbounds (b : BIH) (p : vec) : Prop := b.bbmin.le p ∧ p.le b.bbmax

instance (b : BIH) (p : vec) : Decidable (b.inbounds p) := by
  unfold inbounds; infer_instance

/-- The ray from `o` along `ray` points away from the bounding box of the BIH:
on some axis the origin lies beyond a face of the box and the direction does not
lead back towards it. -/
def pointsaway (b : BIH) (o ray : vec) : Prop :=
  (o.x < b.bbmin.x ∧ ray.x ≤ 0) ∨ (b.bbmax.x < o.x ∧ 0 ≤ ray.x) ∨
  (o.y < b.bbmin.y ∧ ray.y ≤ 0) ∨ (b.bbmax.y < o.y ∧ 0 ≤ ray.y) ∨
  (o.z < b.bbmin.z ∧ ray.z ≤ 0) ∨ (b.bbmax.z < o.z ∧ 0 ≤ ray.z)

instance (b : BIH) (o ray : vec) : Decidable (b.pointsaway o ray) := by
  unfold pointsaway; infer_instance

/-- The mesh of the two triangles of the unit square in the plane `z = 0`, with
vertices (0,0,0), (1,0,0), (1,1,0), (0,1,0), placed by the identity. -/
def unitsquare (flags : Nat) : mesh :=
  { xform := matrix4x3.identity,
    invxform := matrix4x3.identity,
    tris := [⟨0, 1, 2⟩, ⟨0, 2, 3⟩],
    pos := fun i =>
      if i = 0 then ⟨0, 0, 0⟩ else if i = 1 then ⟨1, 0, 0⟩
      else if i = 2 then ⟨1, 1, 0⟩ else ⟨0, 1, 0⟩,
    flags := flags,
    bbmin := ⟨0, 0, 0⟩,
    bbmax := ⟨0, 0, 0⟩ }

/-- One step of the search loop: in first-hit mode nothing is tested after a hit. -/
def step (nearest : Bool) (c : Bool × ℚ) (h : Option ℚ) : Bool × ℚ :=
  if nearest = false ∧ c.1 = true then c else closer c h

/-- The outcomes of the triangle tests of a query, in the order of the search. -/
def hitlist (ms : List mesh) (o ray : vec) (maxdist : ℚ) (mode : raymode) : List (Option ℚ) :=
  match ms with
  | [] => []
  | m :: rest =>
    m.tris.map (fun t => trihit m t (m.invxform.transform o)
      (m.invxform.transformnormal ray) maxdist mode) ++ hitlist rest o ray maxdist mode

/-- A mesh of two triangles in parallel planes, `z = 0` (vertices 0, 1, 2) and
`z = 1` (vertices 3, 4, 5), with the triangle array given. -/
def twolayers (tris : List tri) : mesh :=
  { xform := matrix4x3.identity,
    invxform := matrix4x3.identity,
    tris := tris,
    pos := fun i =>
      if i = 0 then ⟨0, 0, 0⟩ else if i = 1 then ⟨1, 0, 0⟩ else if i = 2 then ⟨0, 1, 0⟩
      else if i = 3 then ⟨0, 0, 1⟩ else if i = 4 then ⟨1, 0, 1⟩ else ⟨0, 1, 1⟩,
    flags := Mesh_Render,
    bbmin := ⟨0, 0, 0⟩,
    bbmax := ⟨0, 0, 0⟩ }

/-- The ray of a query hits some triangle of the BIH at distance `d`: the
triangle test of a mesh of the BIH accepts at `d` for the ray taken into the
space of that mesh. -/
def hitsat (b : BIH) (o ray : vec) (maxdist : ℚ) (mode : raymode) (d : ℚ) : Prop :=
  ∃ m ∈ b.meshes, ∃ t ∈ m.tris,
    trihit m t (m.invxform.transform o) (m.invxform.transformnormal ray) maxdist mode = some d

/-- Mesh `m2` is mesh `m` with its triangles given in another order. -/
def reordered (m m2 : mesh) : Prop :=
  m2 = { m with tris := m2.tris } ∧ m2.tris.Perm m.tris

end BIH

/-! ## The type `float` (IEEE 754 binary32)

The arithmetic of `float` rounds every result to the nearest value of the
format (ties to the even significand), overflows to an infinity, underflows
through the subnormal values to a signed zero, and has a NaN. -/

/-- A value of the type `float`: a NaN, an infinity with its sign bit, the
negative zero, or a finite value (`fin 0` is the positive zero). The finite
values of the format are those that `f32.round` leaves unchanged. -/
inductive f32 where
  | nan
  | inf (neg : Bool)
  | nzero
  | fin (v : ℚ)
deriving DecidableEq

namespace f32

/-- The nearest integer to `t`, the even one of the two at a tie. -/
def rne (t : ℚ) : Int :=
  let f := ⌊t⌋
  if t - f < 1 / 2 then f else if 1 / 2 < t - f then f + 1 else if f % 2 = 0 then f else f + 1

/-- The spacing of the format at `q`: `2 ^ (e - 23)` in the binade
`2 ^ e ≤ |q| < 2 ^ (e + 1)` of a 24-bit significand, and `2 ^ (-149)` below the
least normal value `2 ^ (-126)`. -/
def ulp (q : ℚ) : ℚ := (2 : ℚ) ^ (Max.max (Int.log 2 |q|) (-126) - 23)

/-- The `float` that an exact non-zero result `q` rounds to: the nearest
multiple of the spacing, an infinity from `2 ^ 128` on, a zero of the sign of
`q` when the nearest multiple is 0. -/
def round (q : ℚ) : f32 :=
  let r : ℚ := rne (q / ulp q) * ulp q
  if (2 : ℚ) ^ 128 ≤ |r| then inf (decide (q < 0))
  else if r = 0 then (if q < 0 then nzero else fin 0)
  else fin r

/-- A finite value is a value of the format when rounding leaves it unchanged. -/
def isfloat : f32 → Prop
  | fin v => round v = fin v
  | _ => True

/-- The values that are neither a NaN nor an infinity. -/
def finite : f32 → Prop
  | nzero => True
  | fin _ => True
  | _ => False

/-- The sign bit. -/
def isneg : f32 → Bool
  | nan => false
  | inf n => n
  | nzero => true
  | fin v => decide (v < 0)

/-- The real number a finite value stands for (0 for the others). -/
def toRat : f32 → ℚ
  | fin v => v
  | _ => 0

/-- The zero of a sign bit. -/
def zero (neg : Bool) : f32 := if neg then nzero else fin 0

/-- Whether the value is one of the two zeros. -/
def iszero : f32 → Bool
  | nzero => true
  | fin v => decide (v = 0)
  | _ => false

/-- The unary minus: the sign bit flips. -/
def neg : f32 → f32
  | nan => nan
  | inf n => inf (!n)
  | nzero => fin 0
  | fin v => if v = 0 then nzero else fin (-v)

/-- The sum `a + b`: infinities of opposite sign give a NaN, an exact sum 0 is
the positive zero unless both terms are the negative zero. -/
def add : f32 → f32 → f32
  | nan, _ => nan
  | _, nan => nan
  | inf a, inf b => if a = b then inf a else nan
  | inf a, _ => inf a
  | _, inf b => inf b
  | nzero, nzero => nzero
  | nzero, fin w => fin w
  | fin v, nzero => fin v
  | fin v, fin w => if v + w = 0 then fin 0 else round (v + w)

/-- The difference `a - b`. -/
def sub (a b : f32) : f32 := add a (neg b)

/-- The product `a * b`: the sign bit is the exclusive or of the sign bits, an
infinity times a zero is a NaN. -/
def mul : f32 → f32 → f32
  | nan, _ => nan
  | _, nan => nan
  | inf a, y => if iszero y then nan else inf (xor a (isneg y))
  | x, inf b => if iszero x then nan else inf (xor (isneg x) b)
  | x, y =>
    if toRat x * toRat y = 0 then zero (xor (isneg x) (isneg y))
    else round (toRat x * toRat y)

/-- The quotient `a / b`: a non-zero value over a zero is an infinity, a zero
over a zero and an infinity over an infinity are NaNs. -/
def div : f32 → f32 → f32
  | nan, _ => nan
  | _, nan => nan
  | inf _, inf _ => nan
  | inf a, y => inf (xor a (isneg y))
  | x, inf b => zero (xor (isneg x) b)
  | x, y =>
    if toRat y = 0 then (if toRat x = 0 then nan else inf (xor (isneg x) (isneg y)))
    else if toRat x = 0 then zero (xor (isneg x) (isneg y))
    else round (toRat x / toRat y)

/-- The comparison `a < b`: false when either side is a NaN, the two zeros are
equal. -/
def lt : f32 → f32 → Bool
  | nan, _ => false
  | _, nan => false
  | inf a, inf b => a && !b
  | inf a, _ => a
  | _, inf b => !b
  | x, y => decide (toRat x < toRat y)

/-- The conversion of an `int` to `float`. -/
def ofInt (i : Int) : f32 := round i

/-- The function `std::min(a, b)`: `(b < a) ? b : a`. -/
def min (a b : f32) : f32 := if lt b a = true then b else a

/-- The function `std::max(a, b)`: `(a < b) ? b : a`. -/
def max (a b : f32) : f32 := if lt a b = true then b else a

end f32

instance (n : Nat) : OfNat f32 n := ⟨f32.ofInt n⟩

/-- The `vec` of the sources with its three `float` coordinates. Its members
`add`, `sub`, `mul` and `magnitude` are outside the sources; they are the
coordinate-wise `float` operations `x += o.x`, `x -= o.x`, `x *= f` and
`sqrtf(x*x + y*y + z*z)`. -/
structure fvec where
  x : f32
  y : f32
  z : f32
deriving DecidableEq

namespace fvec

def add (a b : fvec) : fvec := ⟨a.x.add b.x, a.y.add b.y, a.z.add b.z⟩

def sub (a b : fvec) : fvec := ⟨a.x.sub b.x, a.y.sub b.y, a.z.sub b.z⟩

def mul (a : fvec) (f : f32) : fvec := ⟨a.x.mul f, a.y.mul f, a.z.mul f⟩

/-- All three coordinates are finite: none is a NaN or an infinity. -/
def finite (a : fvec) : Prop := a.x.finite ∧ a.y.finite ∧ a.z.finite

end fvec

/-! ## Mesh flags as a bit set -/

namespace BIH

/-- The five mesh flags of the enum in `bih.h`. -/
def meshflags : List Nat :=
  [Mesh_Render, Mesh_NoClip, Mesh_Alpha, Mesh_Collide, Mesh_CullFace]

/-- The flags of a list OR-ed into one `int`, as `f |= F` for each of them. -/
def orflags (s : List Nat) : Nat := s.foldl (fun f x => f ||| x) 0

end BIH

/-! ## Bounds of a hit zone (`skelzonebounds`, `engine/model/hitzone.h`) -/

namespace vec

end vec

/-- The class `skelzonebounds`: `int owner; vec bbmin, bbmax;`. -/
structure skelzonebounds where
  owner : Int
  bbmin : fvec
  bbmax : fvec

namespace skelzonebounds

/-- The member `empty()`: `return bbmin.x > bbmax.x;`. -/
def empty (s : skelzonebounds) : Bool := f32.lt s.bbmax.x s.bbmin.x

/-- The member `addvert(p)`: each coordinate of `bbmin` becomes the `std::min`
of it and that of `p`, each coordinate of `bbmax` the `std::max`. -/
def addvert (s : skelzonebounds) (p : fvec) : skelzonebounds :=
  { s with
    bbmin := ⟨f32.min s.bbmin.x p.x, f32.min s.bbmin.y p.y, f32.min s.bbmin.z p.z⟩,
    bbmax := ⟨f32.max s.bbmax.x p.x, f32.max s.bbmax.y p.y, f32.max s.bbmax.z p.z⟩ }

/-- Both corners of the box are finite. -/
def finite (s : skelzonebounds) : Prop := s.bbmin.finite ∧ s.bbmax.finite

end skelzonebounds

/-! ## Model registry and model commands (`engine/render/rendermodel.cpp`)

A read through a null pointer and a read of a vector element outside
`[0, size)` are undefined in C++; the embedding makes them explicit as a
`fault`. Sizes of vectors are below `2^31`, so `static_cast<int>(size)` is the
size. -/

/-- The undefined steps of the C++ execution that the embedding makes explicit. -/
inductive fault where
  | nullderef
  | outofbounds
deriving DecidableEq

/-- The two loaders of `loadmodel`: `new md5(filename)` and `new obj(filename)`. -/
inductive loaderkind where
  | md5
  | obj
deriving DecidableEq

/-- The fields of a `model` that the commands and the registry of
`rendermodel.cpp` read or write here: its name, the class that made it, `scale`,
`collide`, the gloss set by `setgloss`, and `collidemodel`. The member `scale`
is a `float`. -/
structure model where
  name : String
  kind : loaderkind
  scale : f32
  collide : Int
  gloss : Int
  collidemodel : Option String
deriving DecidableEq

/-- An entry of `mapmodels`: `name`, `m`, `collide`. -/
structure mapmodelinfo where
  name : String
  m : Option model
  collide : Option model
deriving DecidableEq

/-- The globals of `rendermodel.cpp` that the functions below read or write:
`loadingmodel`, `mapmodels`, the registry `models` (keyed by name),
`failedmodels`, and the lines written by `conoutf`. -/
structure rmstate where
  loadingmodel : Option model
  mapmodels : List mapmodelinfo
  models : List model
  failedmodels : List String
  console : List String
deriving DecidableEq

/-- The element read `v[n]` of a vector for a signed index: outside `[0, size)`
there is no element to read. -/
def vecat {α : Type} (v : List α) (n : Int) : Option α :=
  if 0 ≤ n then v.get? n.toNat else none

/-- The conversion `static_cast<uint>(i)` of a 32-bit `int`. -/
def touint (i : Int) : Nat := (i % 4294967296).toNat

/-- The function `checkmdl()`: when `loadingmodel` is null it writes the error
line; its `return` leaves `checkmdl` itself. -/
def checkmdl (st : rmstate) : rmstate :=
  match st.loadingmodel with
  | none => { st with console := st.console ++ ["not loading a model"] }
  | some _ => st

/-- The command `mdlscale(percent)`: `checkmdl(); float scale = *percent > 0 ?
*percent/100.0f : 1.0f; loadingmodel->scale = scale;`. -/
def mdlscale (st : rmstate) (percent : f32) : Except fault rmstate :=
  let st1 := checkmdl st
  let scale : f32 :=
    if f32.lt (f32.fin 0) percent = true then f32.div percent (f32.fin 100) else f32.fin 1
  match st1.loadingmodel with
  | none => Except.error fault.nullderef
  | some m => Except.ok { st1 with loadingmodel := some { m with scale := scale } }

/-- The function `std::clamp(v, lo, hi)`. -/
def clamp (v lo hi : Int) : Int := if v < lo then lo else if hi < v then hi else v

/-- The command `mdlgloss(gloss)`: `checkmdl();
loadingmodel->setgloss(std::clamp(*gloss, 0, 2));`. The member `setgloss` is
outside the sources and is taken to store the gloss. -/
def mdlgloss (st : rmstate) (gloss : Int) : Except fault rmstate :=
  let st1 := checkmdl st
  match st1.loadingmodel with
  | none => Except.error fault.nullderef
  | some m => Except.ok { st1 with loadingmodel := some { m with gloss := clamp gloss 0 2 } }

/-- The command `mdlcollide(collide)`: `checkmdl(); loadingmodel->collide =
*collide!=0 ? (loadingmodel->collide ? loadingmodel->collide :
Collide_OrientedBoundingBox) : Collide_None;`. The two enum values are declared
outside the sources and are parameters. -/
def mdlcollide (Collide_None Collide_OrientedBoundingBox : Int) (st : rmstate)
    (collide : Int) : Except fault rmstate :=
  let st1 := checkmdl st
  match st1.loadingmodel with
  | none => Except.error fault.nullderef
  | some m =>
    Except.ok { st1 with loadingmodel := some { m with
      collide :=
        if collide ≠ 0 then (if m.collide ≠ 0 then m.collide else Collide_OrientedBoundingBox)
        else Collide_None } }

/-- The function `mapmodelname(i)`: `return (static_cast<int>(mapmodels.size())
> i) ? mapmodels[i].name : nullptr;`. The result `none` is `nullptr`. -/
def mapmodelname (st : rmstate) (i : Int) : Except fault (Option String) :=
  if (st.mapmodels.length : Int) > i then
    match vecat st.mapmodels i with
    | none => Except.error fault.outofbounds
    | some mmi => Except.ok (some mmi.name)
  else Except.ok none

/-- The loop of `loadmodel` over the loaders: each loader makes a model, which
becomes `loadingmodel` while its `load()` runs; the first model whose `load()`
succeeds ends the loop, a model whose `load()` fails is deleted. The classes
`md5` and `obj` and their `load()` are outside the sources: `load k name` is the
loaded model of loader `k`, or `none` when its `load()` fails. -/
def tryloaders (load : loaderkind → String → Option model) (name : String) :
    List loaderkind → Option model
  | [] => none
  | k :: rest =>
    match load k name with
    | some m => some m
    | none => tryloaders load name rest

/-- The end of `loadmodel`: `if((mapmodels.size() > static_cast<uint>(i)) &&
!mapmodels[i].m) mapmodels[i].m = m; return m;`. -/
def loadmodelfinish (st : rmstate) (m : model) (i : Int) : rmstate × Option model :=
  if st.mapmodels.length > touint i then
    match st.mapmodels.get? (touint i) with
    | some mmi =>
      if mmi.m.isNone then
        ({ st with mapmodels := st.mapmodels.set (touint i) { mmi with m := some m } }, some m)
      else (st, some m)
    | none => (st, some m)
  else (st, some m)

/-- The part of `loadmodel` after the name is known: the lookup
`models.access(name)`; for an unregistered name the early return when the name
is empty, a load is in progress or the name has failed before; the loop over
the loaders `md5`, `obj` in this order; `loadingmodel = nullptr`; the entry in
`failedmodels` on failure, the entry `models.access(m->name, m)` on success
(which keeps an entry already registered under that name). -/
def loadnamed (load : loaderkind → String → Option model) (st : rmstate) (name : String)
    (i : Int) : rmstate × Option model :=
  match st.models.find? (fun m => m.name == name) with
  | some m => loadmodelfinish st m i
  | none =>
    if name = "" ∨ st.loadingmodel.isSome = true ∨ name ∈ st.failedmodels then (st, none)
    else
      match tryloaders load name [loaderkind.md5, loaderkind.obj] with
      | none =>
        ({ st with loadingmodel := none, failedmodels := st.failedmodels ++ [name] }, none)
      | some m =>
        loadmodelfinish
          { st with
            loadingmodel := none,
            models :=
              if st.models.any (fun m2 => m2.name == m.name) = true then st.models
              else st.models ++ [m] }
          m i

/-- The function `loadmodel(name, i, msg)`; `name = none` is `nullptr`. The
progress display under `msg` is not part of the state. -/
def loadmodel (load : loaderkind → String → Option model) (st : rmstate)
    (name : Option String) (i : Int) : Except fault (rmstate × Option model) :=
  match name with
  | some nm => Except.ok (loadnamed load st nm i)
  | none =>
    if ¬ ((st.mapmodels.length : Int) > i) then Except.ok (st, none)
    else
      match vecat st.mapmodels i with
      | none => Except.error fault.outofbounds
      | some mmi =>
        match mmi.m with
        | some m => Except.ok (st, some m)
        | none => Except.ok (loadnamed load st mmi.name i)

/-- The function `loadmapmodel(n)`: `if(static_cast<int>(mapmodels.size()) > n)
{ model *m = mapmodels[n].m; return m ? m : loadmodel(nullptr, n); } return
nullptr;`. -/
def loadmapmodel (load : loaderkind → String → Option model) (st : rmstate) (n : Int) :
    Except fault (rmstate × Option model) :=
  if (st.mapmodels.length : Int) > n then
    match vecat st.mapmodels n with
    | none => Except.error fault.outofbounds
    | some mmi =>
      match mmi.m with
      | some m => Except.ok (st, some m)
      | none => loadmodel load st none n
  else Except.ok (st, none)

/-- A pair of loaders of which only the `obj` loader can load: its model carries
the name it was made with. -/
def objonly (k : loaderkind) (name : String) : Option model :=
  if k = loaderkind.obj then some ⟨name, k, 1, 0, 0, none⟩ else none

/-- The values of the `Model_*` enum that the functions below test. The enum is
declared outside the sources, so its values are parameters. -/
structure modelconsts where
  Model_CullVFC : Nat
  Model_CullDist : Nat
  Model_CullOccluded : Nat
  Model_CullQuery : Nat
  Model_Mapmodel : Nat
  Model_NoShadow : Nat
  Model_OnlyShadow : Nat
  Model_ForceShadow : Nat

/-- An assignment of distinct bits to the `Model_*` values. -/
def bitconsts : modelconsts :=
  { Model_CullVFC := 1, Model_CullDist := 2, Model_CullOccluded := 4, Model_CullQuery := 8,
    Model_Mapmodel := 64, Model_NoShadow := 512, Model_OnlyShadow := 256,
    Model_ForceShadow := 1024 }

/-- The function `cullmodel(m, center, radius, flags, d)`. The tests outside the
sources are parameters: `dist` is `center.dist(camera1->o)`, `fogged` is
`view.isfoggedsphere(radius, center)`, `occluded` is `modeloccluded(center,
radius)`, and for a non-null `d` the flag is `d->query && d->query->owner==d &&
checkquery(d->query)`; `d = none` is the null pointer. The variable
`maxmodelradiusdistance` is a parameter. The quotient `center.dist(camera1->o)
/ radius` is a division of two `float`, and the `int` it is compared with is
converted to `float`. -/
def cullmodel (K : modelconsts) (maxmodelradiusdistance : Int) (dist radius : f32)
    (flags : Nat) (fogged occluded : Bool) (d : Option Bool) : Except fault Nat :=
  if flags &&& K.Model_CullDist ≠ 0 ∧
      f32.lt (f32.ofInt maxmodelradiusdistance) (f32.div dist radius) = true then
    Except.ok K.Model_CullDist
  else if flags &&& K.Model_CullVFC ≠ 0 ∧ fogged = true then
    Except.ok K.Model_CullVFC
  else if flags &&& K.Model_CullOccluded ≠ 0 ∧ occluded = true then
    Except.ok K.Model_CullOccluded
  else if flags &&& K.Model_CullQuery ≠ 0 then
    match d with
    | none => Except.error fault.nullderef
    | some q => if q = true then Except.ok K.Model_CullQuery else Except.ok 0
  else Except.ok 0

/-- The fields of `struct batchedmodel` that the shadow mask pass reads or
writes: `center`, `radius`, the alpha of `colorscale`, `flags`, `visible`, and
the link `next`. -/
structure batchedmodel where
  center : vec
  radius : ℚ
  alpha : ℚ
  flags : Nat
  visible : Int
  next : Int
deriving DecidableEq

/-- The function `shadowmaskbatchedmodels(dynshadow)` on the vector
`batchedmodels`: the loop leaves at the first entry whose flags meet
`Model_Mapmodel | Model_NoShadow`, and sets `visible` of every entry before it.
The function `shadowmaskmodel` reads shadow state outside the sources and is a
parameter. -/
def shadowmaskbatchedmodels (K : modelconsts) (shadowmaskmodel : vec → ℚ → Int)
    (dynshadow : Bool) : List batchedmodel → List batchedmodel
  | [] => []
  | b :: rest =>
    if b.flags &&& (K.Model_Mapmodel ||| K.Model_NoShadow) ≠ 0 then b :: rest
    else
      { b with
        visible :=
          if dynshadow = true ∧
              (b.alpha ≥ 1 ∨ b.flags &&& (K.Model_OnlyShadow ||| K.Model_ForceShadow) ≠ 0)
          then shadowmaskmodel b.center b.radius else 0 } ::
        shadowmaskbatchedmodels K shadowmaskmodel dynshadow rest

/-- The fields of an `extentity` that `preloadusedmapmodels` reads. -/
structure extentity where
  type : Int
  attr1 : Int
deriving DecidableEq

/-- The first loop of `preloadusedmapmodels`: `if(e.type==EngineEnt_Mapmodel &&
e.attr1 >= 0 && std::find(used.begin(), used.end(), e.attr1) != used.end())
used.push_back(e.attr1);` for every entity. The value of `EngineEnt_Mapmodel`
is declared outside the sources and is a parameter. -/
def usedmapmodels (EngineEnt_Mapmodel : Int) (ents : List extentity) : List Int :=
  ents.foldl
    (fun used e =>
      if e.type = EngineEnt_Mapmodel ∧ e.attr1 ≥ 0 ∧ e.attr1 ∈ used then used ++ [e.attr1]
      else used)
    []

/-- The second loop of `preloadusedmapmodels` over `used`: an index that is not
below the size of `mapmodels` or whose entry has an empty name is skipped;
otherwise `loadmodel(nullptr, mmindex, msg)` is called, and the `collidemodel`
of a loaded model is collected once in `col`. The result holds the state, `col`
and the indices for which `loadmodel` was called, in order. The preloading of
the meshes, shaders and BIH of a loaded model is outside the sources. -/
def preloadloop (load : loaderkind → String → Option model) :
    List Int → rmstate → List String → List Int →
      Except fault (rmstate × List String × List Int)
  | [], st, col, calls => Except.ok (st, col, calls)
  | mmindex :: rest, st, col, calls =>
    if ¬ ((st.mapmodels.length : Int) > mmindex) then preloadloop load rest st col calls
    else
      match vecat st.mapmodels mmindex with
      | none => Except.error fault.outofbounds
      | some mmi =>
        if mmi.name = "" then preloadloop load rest st col calls
        else
          match loadmodel load st none mmindex with
          | Except.error f => Except.error f
          | Except.ok (st2, none) => preloadloop load rest st2 col (calls ++ [mmindex])
          | Except.ok (st2, some m) =>
            match m.collidemodel with
            | some c =>
              preloadloop load rest st2 (if c ∈ col then col else col ++ [c])
                (calls ++ [mmindex])
            | none => preloadloop load rest st2 col (calls ++ [mmindex])

/-- The third loop of `preloadusedmapmodels`: `loadmodel(col[i], -1, msg)` for
every collected collide model. -/
def preloadcol (load : loaderkind → String → Option model) : List String → rmstate → rmstate
  | [], st => st
  | c :: rest, st => preloadcol load rest (loadnamed load st c (-1)).1

/-- The function `preloadusedmapmodels(msg, bih)` on the entities `ents`: the
state on return and the map-model indices for which `loadmodel` was called. -/
def preloadusedmapmodels (load : loaderkind → String → Option model)
    (EngineEnt_Mapmodel : Int) (ents : List extentity) (st : rmstate) :
    Except fault (rmstate × List Int) :=
  match preloadloop load (usedmapmodels EngineEnt_Mapmodel ents) st [] [] with
  | Except.error f => Except.error f
  | Except.ok (st2, col, calls) => Except.ok (preloadcol load col st2, calls)

/-! ## The node hierarchy of a mesh and its traversal (spec sections 3, 4.1, 4.2) -/

namespace vec

/-- The coordinate on axis `k`: 0 is x, 1 is y, 2 is z. -/
def coord (a : vec) (k : Nat) : ℚ := if k = 0 then a.x else if k = 1 then a.y else a.z

end vec

namespace BIH

/-- Modelled from the spec: the node hierarchy of a mesh, as the tagged union of
the design notes. A child is a leaf, the range `[first, first + count)` of the
reordered triangle array, or a node with its axis, the two split boundaries
along that axis (`split0` the rightmost bound of the left subtree, `split1` the
leftmost bound of the right subtree) and its two children. -/
inductive nodes where
  | range (first count : Nat)
  | node (axis : Nat) (split0 split1 : ℚ) (child0 child1 : nodes)
deriving DecidableEq

/-- Modelled from the spec: what section 4.1 leaves open in the builder: the
threshold below which a subset becomes a leaf, the maximum depth, and the choice
of the split candidate from the centers of the triangles along the axis. -/
structure buildparams where
  leafsize : Nat
  maxdepth : Nat
  splitpos : List ℚ → ℚ

/-- The least coordinate of the three vertices of a triangle on axis `k`. -/
def mesh.trimin (m : mesh) (t : tri) (k : Nat) : ℚ :=
  Min.min (Min.min ((m.getpos t.vert0).coord k) ((m.getpos t.vert1).coord k))
    ((m.getpos t.vert2).coord k)

/-- The greatest coordinate of the three vertices of a triangle on axis `k`. -/
def mesh.trimax (m : mesh) (t : tri) (k : Nat) : ℚ :=
  Max.max (Max.max ((m.getpos t.vert0).coord k) ((m.getpos t.vert1).coord k))
    ((m.getpos t.vert2).coord k)

/-- Modelled from the spec: the center of the bounding box of a triangle along
axis `k`. -/
def mesh.tricenter (m : mesh) (t : tri) (k : Nat) : ℚ := (m.trimin t k + m.trimax t k) / 2

/-- Modelled from the spec: the leftmost bound of a subset of triangles along
axis `k`, from the start value of an empty box. -/
def mesh.leftmost (m : mesh) (ts : List tri) (k : Nat) : ℚ :=
  ts.foldl (fun a t => Min.min a (m.trimin t k)) (10 ^ 16)

/-- Modelled from the spec: the rightmost bound of a subset of triangles along
axis `k`, from the start value of an empty box. -/
def mesh.rightmost (m : mesh) (ts : List tri) (k : Nat) : ℚ :=
  ts.foldl (fun a t => Max.max a (m.trimax t k)) (-10 ^ 16)

/-- The extent of the bounding box of a subset of triangles along axis `k`. -/
def mesh.extent (m : mesh) (ts : List tri) (k : Nat) : ℚ := m.rightmost ts k - m.leftmost ts k

/-- Modelled from the spec: the axis with the largest extent of the bounding box
of the subset; on ties x is preferred to y and y to z. -/
def mesh.pickaxis (m : mesh) (ts : List tri) : Nat :=
  if m.extent ts 1 ≤ m.extent ts 0 ∧ m.extent ts 2 ≤ m.extent ts 0 then 0
  else if m.extent ts 2 ≤ m.extent ts 1 then 1
  else 2

/-- Modelled from the spec: the private `BIH::build(m, indices, numindices, vmin,
vmax)` of section 4.1, declared in `bih.h` and defined outside the sources, on
the subset `ts` of the triangles, with `depth` levels left and `first` the
position in the reordered triangle array at which the subset will start. The
result is the subtree and the subset in its final order. A subset below the
threshold, or any subset once the maximum depth is reached, becomes a leaf.
Otherwise the axis of the largest extent is picked, the triangles whose
bounding-box center along it lies below the split candidate go to the left
child and the others to the right child, and the node records the rightmost
bound of the left subset and the leftmost bound of the right subset. -/
def build (P : buildparams) (m : mesh) : Nat → Nat → List tri → nodes × List tri
  | 0, first, ts => (nodes.range first ts.length, ts)
  | depth + 1, first, ts =>
    if ts.length < P.leafsize then (nodes.range first ts.length, ts)
    else
      let axis := m.pickaxis ts
      let split := P.splitpos (ts.map (fun t => m.tricenter t axis))
      let left := ts.filter (fun t => decide (m.tricenter t axis < split))
      let right := ts.filter (fun t => !decide (m.tricenter t axis < split))
      let l := build P m depth first left
      let r := build P m depth (first + left.length) right
      (nodes.node axis (m.rightmost left axis) (m.leftmost right axis) l.1 r.1, l.2 ++ r.2)

/-- Modelled from the spec: the mesh as the builder leaves it: the triangle
array permuted into final node order. -/
def mesh.reorder (P : buildparams) (m : mesh) : mesh :=
  { m with tris := (build P m P.maxdepth 0 m.tris).2 }

/-- Modelled from the spec: the node hierarchy that the builder makes for a
mesh. -/
def mesh.nodes (P : buildparams) (m : mesh) : nodes := (build P m P.maxdepth 0 m.tris).1

/-- Modelled from the spec: the test of every triangle of a leaf range with
`triintersect`, in array order; in first-hit mode nothing is tested after a
hit. -/
def traverserange (m : mesh) (mo mray : vec) (maxdist : ℚ) (mode : raymode)
    (first count : Nat) (cur : Bool × ℚ) : Bool × ℚ :=
  (List.range count).foldl
    (fun c i =>
      if mode.nearest = false ∧ c.1 = true then c
      else triintersect m (first + i) mo mray maxdist c mode) cur

/-- Modelled from the spec: the private `BIH::traverse(m, o, ray, invray,
maxdist, dist, mode, curnode, tmin, tmax)` of section 4.2, declared in `bih.h`
and defined outside the sources: the descent from `curnode` with the interval
`[tmin, tmax]` of the ray parameter that is valid for it. At a leaf every
triangle of the range is tested. At a node the ray parameters `t0` and `t1` at
which the ray crosses the two split boundaries, computed with the precomputed
`invray`, cut the interval of each child: the left child holds no point of the
ray beyond `split0`, the right child none before `split1`. The child the ray
enters first is descended at once when its interval is not empty; the far child
is pushed only when its interval is not empty and starts before the current
best distance, and is descended after the near subtree. On an axis on which the
direction is zero the node gives no bound and both children keep the interval.
The recursion stands for the explicit stack of pending nodes. -/
def traversenodes (m : mesh) (mo mray invray : vec) (maxdist : ℚ) (mode : raymode) :
    nodes → ℚ → ℚ → Bool × ℚ → Bool × ℚ
  | nodes.range first count, _, _, cur => traverserange m mo mray maxdist mode first count cur
  | nodes.node axis split0 split1 child0 child1, tmin, tmax, cur =>
    if mode.nearest = false ∧ cur.1 = true then cur
    else if mray.coord axis = 0 then
      traversenodes m mo mray invray maxdist mode child1 tmin tmax
        (traversenodes m mo mray invray maxdist mode child0 tmin tmax cur)
    else
      let t0 := (split0 - mo.coord axis) * invray.coord axis
      let t1 := (split1 - mo.coord axis) * invray.coord axis
      if 0 < mray.coord axis then
        let pushfar : Bool :=
          decide (Max.max tmin t1 ≤ tmax ∧ ¬ (cur.1 = true ∧ cur.2 ≤ Max.max tmin t1))
        let c1 :=
          if tmin ≤ Min.min tmax t0 then
            traversenodes m mo mray invray maxdist mode child0 tmin (Min.min tmax t0) cur
          else cur
        if pushfar = true then
          traversenodes m mo mray invray maxdist mode child1 (Max.max tmin t1) tmax c1
        else c1
      else
        let pushfar : Bool :=
          decide (Max.max tmin t0 ≤ tmax ∧ ¬ (cur.1 = true ∧ cur.2 ≤ Max.max tmin t0))
        let c1 :=
          if tmin ≤ Min.min tmax t1 then
            traversenodes m mo mray invray maxdist mode child1 tmin (Min.min tmax t1) cur
          else cur
        if pushfar = true then
          traversenodes m mo mray invray maxdist mode child0 (Max.max tmin t0) tmax c1
        else c1

/-- Modelled from the spec: the precomputed `1/direction` per axis. -/
def invdir (ray : vec) : vec := ⟨1 / ray.x, 1 / ray.y, 1 / ray.z⟩

/-- Modelled from the spec: the public `BIH::traverse(o, ray, maxdist, dist,
mode)` over the node hierarchies that the builder with the parameters `P` makes
for the meshes of the BIH: as `traverse`, with the descent of the hierarchy of
each mesh from its root over the interval `[0, maxdist]` in place of the test
of every triangle. -/
def nodetraverse (P : buildparams) (b : BIH) (o ray : vec) (maxdist dist : ℚ)
    (mode : raymode) : Bool × ℚ :=
  if maxdist < 0 then (false, dist)
  else
    b.meshes.foldl
      (fun c m =>
        if mode.nearest = false ∧ c.1 = true then c
        else traversenodes (m.reorder P) (m.invxform.transform o)
          (m.invxform.transformnormal ray) (invdir (m.invxform.transformnormal ray))
          maxdist mode (m.nodes P) 0 maxdist c)
      (false, dist)

/-- The point `p` lies in the triangle with the corners `a`, `b`, `c`. -/
def intriangle (a b c p : vec) : Prop :=
  ∃ u v : ℚ, 0 ≤ u ∧ 0 ≤ v ∧ u + v ≤ 1 ∧
    p = (a.add ((b.sub a).mul u)).add ((c.sub a).mul v)

/-- The triple product of the edges `b - a`, `c - a` and the direction: zero
when the direction is parallel to the plane of the triangle (or the triangle
has no area), positive when the ray approaches the front side. -/
def facing (a b c ray : vec) : ℚ := (b.sub a).dot (ray.cross (c.sub a))

/-- The ray `o + t * ray` meets triangle `t` of mesh `m`, as placed by the
transform of the mesh, at the distance `d`: the point `o + d * ray` lies in the
placed triangle, `d` lies in `(0, maxdist]`, the mesh passes the filters of the
mode, the ray is not parallel to the plane of the triangle, and with the
cull-face flag set it approaches the front side. -/
def mesh.rayhits (m : mesh) (t : tri) (o ray : vec) (maxdist : ℚ) (mode : raymode)
    (d : ℚ) : Prop :=
  modepasses mode m.flags = true ∧ 0 < d ∧ d ≤ maxdist ∧
  intriangle (m.placed t.vert0) (m.placed t.vert1) (m.placed t.vert2) (o.add (ray.mul d)) ∧
  facing (m.getpos t.vert0) (m.getpos t.vert1) (m.getpos t.vert2)
    (m.invxform.transformnormal ray) ≠ 0 ∧
  (m.flags &&& Mesh_CullFace ≠ 0 →
    0 < facing (m.getpos t.vert0) (m.getpos t.vert1) (m.getpos t.vert2)
      (m.invxform.transformnormal ray))

/-- The inverse transform of the mesh is the inverse of its transform. -/
def mesh.wellplaced (m : mesh) : Prop :=
  (∀ p, m.xform.transform (m.invxform.transform p) = p) ∧
  (∀ p, m.invxform.transform (m.xform.transform p) = p)

/-- The triangles that the leaves below a node read from the triangle array
`A`, in order. -/
def nodes.tris (A : List tri) : nodes → List tri
  | nodes.range first count => (A.drop first).take count
  | nodes.node _ _ _ child0 child1 => child0.tris A ++ child1.tris A

/-- The split boundaries of every node bound its subtrees: no triangle of the
left subtree reaches beyond `split0`, none of the right subtree starts before
`split1`. -/
def nodes.bounded (m : mesh) (A : List tri) : nodes → Prop
  | nodes.range _ _ => True
  | nodes.node axis split0 split1 child0 child1 =>
    (∀ t ∈ child0.tris A, m.trimax t axis ≤ split0) ∧
    (∀ t ∈ child1.tris A, split1 ≤ m.trimin t axis) ∧
    child0.bounded m A ∧ child1.bounded m A

/-- Parameters of the builder: leaves below 4 triangles, depth at most 32, the
split candidate the mean of the centers. -/
def meansplit : buildparams :=
  { leafsize := 4, maxdepth := 32,
    splitpos := fun cs => if cs = [] then 0 else cs.sum / cs.length }

/-- Parameters of the builder: leaves of single triangles, depth at most 16,
the split candidate midway between the least and the greatest center. -/
def midsplit : buildparams :=
  { leafsize := 2, maxdepth := 16,
    splitpos := fun cs =>
      (cs.foldl Min.min (cs.headD 0) + cs.foldl Max.max (cs.headD 0)) / 2 }

end BIH

/-! ## Model batches (`engine/render/rendermodel.cpp`) -/

/-- The fields of `struct modelbatch`: `model *m; int flags, batched;`. The
pointer `m` is the identity of the model. -/
structure modelbatch where
  m : Nat
  flags : Nat
  batched : Int
deriving DecidableEq

/-- The vectors `batchedmodels` and `batches`, and the field `batch` of every
model, which `resetmodelbatches` leaves as it is. -/
structure batchstate where
  batchedmodels : List batchedmodel
  batches : List modelbatch
  mbatch : Nat → Int

/-- The function `resetmodelbatches()`: `batchedmodels.clear();
batches.clear();`. -/
def resetmodelbatches (st : batchstate) : batchstate :=
  { st with batchedmodels := [], batches := [] }

/-- The conversion of an `int` to the unsigned type of `size()` in the
comparison `batches.size() > m->batch`. -/
def tosize (i : Int) : Nat := (i % 18446744073709551616).toNat

/-- The test at the head of `addbatchedmodel`: `if(batches.size() > m->batch)
{ b = &batches[m->batch]; if(b->m == m && (b->flags & Model_Mapmodel) ==
(bm.flags & Model_Mapmodel)) goto foundbatch; }`. The result is the index of the
batch found. -/
def findbatch (K : modelconsts) (st : batchstate) (m : Nat) (bmflags : Nat) : Option Nat :=
  if st.batches.length > tosize (st.mbatch m) then
    match st.batches.get? (tosize (st.mbatch m)) with
    | some b =>
      if b.m = m ∧ b.flags &&& K.Model_Mapmodel = bmflags &&& K.Model_Mapmodel then
        some (tosize (st.mbatch m))
      else none
    | none => none
  else none

/-- The function `addbatchedmodel(m, bm, idx)`, with the reference `bm` given as
the position `bmidx` of the element in `batchedmodels`: the batch of the model
is found or a new batch `{m, 0, -1}` is appended and `m->batch` set to its
index; then `b->flags |= bm.flags; bm.next = b->batched; b->batched = idx;`. -/
def addbatchedmodel (K : modelconsts) (st : batchstate) (m : Nat) (bmidx : Nat) (idx : Int) :
    Except fault batchstate :=
  match st.batchedmodels.get? bmidx with
  | none => Except.error fault.outofbounds
  | some bm =>
    match findbatch K st m bm.flags with
    | some k =>
      match st.batches.get? k with
      | none => Except.error fault.outofbounds
      | some b =>
        Except.ok
          { st with
            batches := st.batches.set k { b with flags := b.flags ||| bm.flags, batched := idx },
            batchedmodels := st.batchedmodels.set bmidx { bm with next := b.batched } }
    | none =>
      Except.ok
        { batches := st.batches ++ [{ m := m, flags := 0 ||| bm.flags, batched := idx }],
          batchedmodels := st.batchedmodels.set bmidx { bm with next := -1 },
          mbatch := fun x => if x = m then (st.batches.length : Int) else st.mbatch x }

/-- The end of `rendermapmodel` and `rendermodel`: `batchedmodels.emplace_back();
batchedmodel &b = batchedmodels.back(); ...; addbatchedmodel(m, b,
batchedmodels.size()-1);` for the new element `bm`. -/
def batchmodel (K : modelconsts) (st : batchstate) (m : Nat) (bm : batchedmodel) :
    Except fault batchstate :=
  addbatchedmodel K { st with batchedmodels := st.batchedmodels ++ [bm] } m
    st.batchedmodels.length ((st.batchedmodels ++ [bm]).length - 1 : Nat)

/-- The states reached from `resetmodelbatches` by batching models. -/
inductive batchreachable (K : modelconsts) : batchstate → Prop where
  | reset (st : batchstate) : batchreachable K (resetmodelbatches st)
  | step (st st2 : batchstate) (m : Nat) (bm : batchedmodel) :
      batchreachable K st → batchmodel K st m bm = Except.ok st2 → batchreachable K st2

/-- The loop `for(int j = b.batched; j >= 0; j = batchedmodels[j].next)` run for
at most `fuel` rounds: the indices it visits, or `none` when it is still running
after `fuel` rounds or reads outside `batchedmodels`. -/
def chainwalk (bms : List batchedmodel) : Nat → Int → Option (List Nat)
  | 0, j => if j < 0 then some [] else none
  | fuel + 1, j =>
    if j < 0 then some []
    else
      match vecat bms j with
      | none => none
      | some bm => (chainwalk bms fuel bm.next).map (fun l => j.toNat :: l)

/-- The indices below `n` that `owner` assigns to batch `k`, from the highest
down. -/
def chainof (owner : Nat → Nat) (n k : Nat) : List Nat :=
  (List.range n).reverse.filter (fun i => decide (owner i = k))

/-- The invariant of the batch chains for an assignment `owner` of the batched
models to the batches: every link `next` is -1 or a lower index, every batch
starts at a valid index, and the loop over the chain of batch `k` visits exactly
the indices of batch `k`, from the highest down. -/
def batchinv (st : batchstate) (owner : Nat → Nat) : Prop :=
  (∀ i bm, st.batchedmodels.get? i = some bm → -1 ≤ bm.next ∧ bm.next < (i : Int)) ∧
  (∀ i, i < st.batchedmodels.length → owner i < st.batches.length) ∧
  (∀ k b, st.batches.get? k = some b →
    0 ≤ b.batched ∧ b.batched < (st.batchedmodels.length : Int) ∧
    chainwalk st.batchedmodels st.batchedmodels.length b.batched
      = some (chainof owner st.batchedmodels.length k))

/-! ## Map-model names (`engine/render/rendermodel.cpp`) -/

/-- The constant `mmprefix = "mapmodel/"`. -/
def mmprefix : String := "mapmodel/"

/-- The constant `mmprefixlen = std::strlen(mmprefix)`. -/
def mmprefixlen : Nat := String.length mmprefix

/-- The call `formatstring(d, "%s%s", a, b)` into a buffer of `maxstrlen`
characters: `a` followed by `b`, cut to `maxstrlen - 1` characters. The size of
the buffer type `string` is declared outside the sources and is a parameter. -/
def formatstring (maxstrlen : Nat) (a b : String) : String :=
  ⟨(a.data ++ b.data).take (maxstrlen - 1)⟩

/-- The command `mapmodel(name)`: the name of the new entry is the prefix
followed by `name` when `name[0]` is not 0 and empty otherwise; `m` and `collide`
are null; the entry is pushed back. -/
def mapmodel (maxstrlen : Nat) (st : rmstate) (name : String) : rmstate :=
  { st with
    mapmodels := st.mapmodels ++
      [{ name := if name ≠ "" then formatstring maxstrlen mmprefix name else "",
         m := none, collide := none }] }

/-- The command `mapmodelnamecmd(index, prefix)`:
`if(static_cast<int>(mapmodels.size()) > *index) result(mapmodels[*index].name[0]
? mapmodels[*index].name + (*prefix ? 0 : mmprefixlen) : "");`. The result is
the string given to `result`, `none` when `result` is not called. -/
def mapmodelnamecmd (st : rmstate) (index pfx : Int) : Except fault (Option String) :=
  if (st.mapmodels.length : Int) > index then
    match vecat st.mapmodels index with
    | none => Except.error fault.outofbounds
    | some mmi =>
      Except.ok (some
        (if mmi.name ≠ "" then
          (if pfx ≠ 0 then mmi.name else ⟨mmi.name.data.drop mmprefixlen⟩)
        else ""))
  else Except.ok none

/-! ## Bit-level lemmas -/

theorem and_3FFF_eq_mod (x : Nat) : x &&& 0x3FFF = x % 16384 :=
  Nat.and_pow_two_sub_one_eq_mod x 14

theorem shr14_eq_div (x : Nat) : x >>> 14 = x / 16384 := by
  rw [Nat.shiftRight_eq_div_pow]

theorem and_bit_ne_zero (x k : Nat) :
    ((x &&& (1 <<< k)) != 0) = decide (x / 2 ^ k % 2 = 1) := by
  rw [Nat.shiftLeft_eq, Nat.one_mul, Nat.and_two_pow, Nat.testBit_to_div_mod]
  have hp : 0 < 2 ^ k := Nat.pos_pow_of_pos k (by decide)
  by_cases h : x / 2 ^ k % 2 = 1
  · simp [h, Nat.ne_of_gt hp]
  · simp [h]

theorem shl14_or (a i : Nat) (hi : i < 16384) : (a <<< 14) ||| i = 16384 * a + i := by
  rw [Nat.shiftLeft_eq, Nat.mul_comm]
  exact (Nat.mul_add_lt_is_or (i := 14) hi a).symm

theorem pack_child1 (l0 l1 : Bool) (i : Nat) (hi : i < 16384) :
    (l0.toNat <<< 14) ||| (l1.toNat <<< 15) ||| i
      = 16384 * l0.toNat + 32768 * l1.toNat + i := by
  cases l0 <;> cases l1
  · simp
  · have h := shl14_or 2 i hi
    simpa [Nat.shiftLeft_eq] using h
  · have h := shl14_or 1 i hi
    simpa [Nat.shiftLeft_eq] using h
  · have h := shl14_or 3 i hi
    have e : (1 <<< 14 ||| 1 <<< 15) = 3 <<< 14 := by decide
    simp only [Bool.toNat_true, e]
    simpa [Nat.shiftLeft_eq] using h

/-! ## The type `float`: lemmas -/

namespace f32

theorem log_eq (q : ℚ) (e : ℤ) (h1 : (2 : ℚ) ^ e ≤ q) (h2 : q < (2 : ℚ) ^ (e + 1)) :
    Int.log 2 q = e := by
  have hq : 0 < q := lt_of_lt_of_le (by positivity) h1
  have a : e ≤ Int.log 2 q := (Int.zpow_le_iff_le_log (by norm_num) hq).1 (by exact_mod_cast h1)
  have b : Int.log 2 q < e + 1 := (Int.lt_zpow_iff_log_lt (by norm_num) hq).1 (by exact_mod_cast h2)
  omega

/-- The spacing in a normal binade. -/
theorem ulp_eq (q : ℚ) (e : ℤ) (h1 : (2 : ℚ) ^ e ≤ |q|) (h2 : |q| < (2 : ℚ) ^ (e + 1))
    (he : -126 ≤ e) : ulp q = (2 : ℚ) ^ (e - 23) := by
  unfold ulp
  rw [log_eq _ e h1 h2, max_eq_left he]

/-- The spacing below the least normal value. -/
theorem ulp_small (q : ℚ) (h0 : q ≠ 0) (h : |q| < (2 : ℚ) ^ (-126 : ℤ)) :
    ulp q = (2 : ℚ) ^ (-149 : ℤ) := by
  unfold ulp
  have hq : 0 < |q| := abs_pos.2 h0
  have b : Int.log 2 |q| < -126 :=
    (Int.lt_zpow_iff_log_lt (by norm_num) hq).1 (by exact_mod_cast h)
  rw [max_eq_right (le_of_lt b)]
  norm_num

theorem ulp_pos (q : ℚ) : 0 < ulp q := by
  unfold ulp
  positivity

/-- Rounding at a value whose binade is known. -/
theorem round_eval (q : ℚ) (e n : ℤ) (h1 : (2 : ℚ) ^ e ≤ |q|) (h2 : |q| < (2 : ℚ) ^ (e + 1))
    (he : -126 ≤ e) (hn : rne (q / (2 : ℚ) ^ (e - 23)) = n)
    (hb : |(n : ℚ) * (2 : ℚ) ^ (e - 23)| < (2 : ℚ) ^ 128)
    (h0 : (n : ℚ) * (2 : ℚ) ^ (e - 23) ≠ 0) :
    round q = fin ((n : ℚ) * (2 : ℚ) ^ (e - 23)) := by
  unfold round
  simp only [ulp_eq q e h1 h2 he, hn, if_neg (not_le.2 hb), if_neg h0]

/-- Rounding at a value whose binade is known, with the result named. -/
theorem round_eq (q r : ℚ) (e n : ℤ) (h1 : (2 : ℚ) ^ e ≤ |q|) (h2 : |q| < (2 : ℚ) ^ (e + 1))
    (he : -126 ≤ e) (hn : rne (q / (2 : ℚ) ^ (e - 23)) = n)
    (hr : (n : ℚ) * (2 : ℚ) ^ (e - 23) = r) (hb : |r| < (2 : ℚ) ^ 128) (h0 : r ≠ 0) :
    round q = fin r := by
  rw [← hr] at hb h0 ⊢
  exact round_eval q e n h1 h2 he hn hb h0

/-- Rounding at a positive value whose binade is known. -/
theorem round_eq_pos (q r : ℚ) (e n : ℤ) (hq : 0 < q) (h1 : (2 : ℚ) ^ e ≤ q)
    (h2 : q < (2 : ℚ) ^ (e + 1)) (he : -126 ≤ e) (hn : rne (q / (2 : ℚ) ^ (e - 23)) = n)
    (hr : (n : ℚ) * (2 : ℚ) ^ (e - 23) = r) (hb : r < (2 : ℚ) ^ 128) (h0 : 0 < r) :
    round q = fin r := by
  rw [← abs_of_pos hq] at h1 h2
  rw [← abs_of_pos h0] at hb
  exact round_eq q r e n h1 h2 he hn hr hb (ne_of_gt h0)

theorem rne_nonneg (t : ℚ) (h : 0 ≤ t) : 0 ≤ rne t := by
  have hf : 0 ≤ ⌊t⌋ := Int.floor_nonneg.2 h
  unfold rne
  simp only
  split
  · exact hf
  · split
    · omega
    · split
      · exact hf
      · omega

theorem rne_pos (t : ℚ) (h : 1 / 2 < t) : 1 ≤ rne t := by
  have hf : 0 ≤ ⌊t⌋ := Int.floor_nonneg.2 (le_of_lt (lt_trans (by norm_num) h))
  unfold rne
  simp only
  split
  · rename_i h1
    by_contra hc
    have h0 : ⌊t⌋ = 0 := by omega
    rw [h0] at h1
    norm_num at h1
    linarith
  · split
    · omega
    · split
      · rename_i h1 h2 h3
        by_contra hc
        have h0 : ⌊t⌋ = 0 := by omega
        rw [h0] at h2
        norm_num at h2
        linarith
      · omega

theorem rne_zero (t : ℚ) (h0 : 0 ≤ t) (h : t ≤ 1 / 2) : rne t = 0 := by
  have hf : ⌊t⌋ = 0 := by
    rw [Int.floor_eq_iff]
    constructor
    · simpa using h0
    · norm_num
      linarith
  unfold rne
  simp only [hf]
  norm_num
  intro _
  exact h

/-- A positive exact result rounds to the positive infinity or to a finite
value that is not negative. -/
theorem round_nonneg (q : ℚ) (hq : 0 < q) :
    round q = inf false ∨ ∃ r : ℚ, 0 ≤ r ∧ round q = fin r := by
  have hu := ulp_pos q
  have hr : 0 ≤ ((rne (q / ulp q) : ℤ) : ℚ) * ulp q :=
    mul_nonneg (by exact_mod_cast rne_nonneg _ (le_of_lt (div_pos hq hu))) (le_of_lt hu)
  unfold round
  simp only
  split
  · left
    simp [not_lt.2 (le_of_lt hq)]
  · split
    · right
      exact ⟨0, le_refl _, by simp [not_lt.2 (le_of_lt hq)]⟩
    · right
      exact ⟨_, hr, rfl⟩

/-- The quotient of a positive exact result by the spacing is above one half
as soon as the result is above half the least subnormal value. -/
theorem half_lt_div_ulp (q : ℚ) (hq : (2 : ℚ) ^ (-150 : ℤ) < q) : 1 / 2 < q / ulp q := by
  have hq0 : 0 < q := lt_trans (by positivity) hq
  have hu := ulp_pos q
  rw [lt_div_iff₀ hu]
  unfold ulp
  rw [abs_of_pos hq0]
  rcases le_total (Int.log 2 q) (-126) with h | h
  · rw [max_eq_right h]
    have e : (1 / 2 : ℚ) * (2 : ℚ) ^ ((-126 : ℤ) - 23) = (2 : ℚ) ^ (-150 : ℤ) := by norm_num
    rw [e]
    exact hq
  · rw [max_eq_left h]
    have h1 : (2 : ℚ) ^ (Int.log 2 q) ≤ q := by
      have := Int.zpow_log_le_self (b := 2) (r := q) (by norm_num) hq0
      exact_mod_cast this
    have h2 : (2 : ℚ) ^ (Int.log 2 q - 23) = (2 : ℚ) ^ (Int.log 2 q) * (2 : ℚ) ^ (-23 : ℤ) := by
      rw [← zpow_add₀ (by norm_num : (2 : ℚ) ≠ 0)]
      rfl
    rw [h2]
    have h3 : (0 : ℚ) < (2 : ℚ) ^ (Int.log 2 q) := by positivity
    have h4 : (2 : ℚ) ^ (-23 : ℤ) = 1 / 8388608 := by norm_num
    rw [h4]
    nlinarith

/-- A positive exact result above half the least subnormal value rounds to the
positive infinity or to a positive finite value. -/
theorem round_pos (q : ℚ) (hq : (2 : ℚ) ^ (-150 : ℤ) < q) :
    round q = inf false ∨ ∃ r : ℚ, 0 < r ∧ round q = fin r := by
  have hq0 : 0 < q := lt_trans (by positivity) hq
  have hu := ulp_pos q
  have h1 : (1 : ℚ) ≤ ((rne (q / ulp q) : ℤ) : ℚ) := by
    exact_mod_cast rne_pos _ (half_lt_div_ulp q hq)
  have hr : 0 < ((rne (q / ulp q) : ℤ) : ℚ) * ulp q := mul_pos (by linarith) hu
  unfold round
  simp only
  split
  · left
    simp [not_lt.2 (le_of_lt hq0)]
  · right
    exact ⟨_, hr, by rw [if_neg (ne_of_gt hr)]⟩

/-- A positive exact result of at most half the least subnormal value
underflows to the positive zero. -/
theorem round_underflow (q : ℚ) (h0 : 0 < q) (hq : q ≤ (2 : ℚ) ^ (-150 : ℤ)) :
    round q = fin 0 := by
  have hs : ulp q = (2 : ℚ) ^ (-149 : ℤ) := by
    apply ulp_small q (ne_of_gt h0)
    rw [abs_of_pos h0]
    exact lt_of_le_of_lt hq (by norm_num)
  have hz : rne (q / ulp q) = 0 := by
    apply rne_zero _ (le_of_lt (div_pos h0 (ulp_pos q)))
    rw [hs, div_le_iff₀ (by positivity)]
    have e : (1 / 2 : ℚ) * (2 : ℚ) ^ (-149 : ℤ) = (2 : ℚ) ^ (-150 : ℤ) := by norm_num
    rw [e]
    exact hq
  unfold round
  simp [hz, not_lt.2 (le_of_lt h0)]

theorem min_cases (a b : f32) : min a b = a ∨ min a b = b := by
  unfold min
  split
  · exact Or.inr rfl
  · exact Or.inl rfl

theorem max_cases (a b : f32) : max a b = a ∨ max a b = b := by
  unfold max
  split
  · exact Or.inr rfl
  · exact Or.inl rfl

theorem div_fin (v w : ℚ) (hv : v ≠ 0) (hw : w ≠ 0) : div (fin v) (fin w) = round (v / w) := by
  show (if w = 0 then _ else if v = 0 then _ else round (v / w)) = _
  rw [if_neg hw, if_neg hv]

theorem div_fin_zero (v : ℚ) (hv : 0 < v) : div (fin v) (fin 0) = inf false := by
  simp [div, toRat, isneg, ne_of_gt hv, not_lt.2 (le_of_lt hv)]

/-- Rounding below the least normal value. -/
theorem round_eq_small (q r : ℚ) (n : ℤ) (h0 : q ≠ 0) (h : |q| < (2 : ℚ) ^ (-126 : ℤ))
    (hn : rne (q / (2 : ℚ) ^ (-149 : ℤ)) = n) (hr : (n : ℚ) * (2 : ℚ) ^ (-149 : ℤ) = r)
    (hb : |r| < (2 : ℚ) ^ 128) (hr0 : r ≠ 0) : round q = fin r := by
  rw [← hr] at hb hr0 ⊢
  unfold round
  simp only [ulp_small q h0 h, hn, if_neg (not_le.2 hb), if_neg hr0]

/-- What `0 < x` says of a `float`: it is the positive infinity or a positive
finite value. -/
theorem pos_cases (x : f32) (h : lt (fin 0) x = true) :
    x = inf false ∨ ∃ v : ℚ, 0 < v ∧ x = fin v := by
  cases x with
  | nan => exact absurd h (by simp [lt])
  | inf n =>
    cases n
    · exact Or.inl rfl
    · exact absurd h (by simp [lt])
  | nzero => exact absurd h (by simp [lt, toRat])
  | fin v =>
    right
    refine ⟨v, ?_, rfl⟩
    simpa [lt, toRat] using h

theorem lt_fin (v w : ℚ) : lt (fin v) (fin w) = decide (v < w) := rfl

theorem lt_zero_fin (r : ℚ) : lt (fin 0) (fin r) = decide (0 < r) := rfl

/-- The quotient of a positive `float` by `100.0f` is the positive infinity or
a finite value that is not negative. -/
theorem div_hundred (x : f32) (h : lt (fin 0) x = true) :
    (x = inf false ∧ div x (fin 100) = inf false) ∨
    ∃ v : ℚ, 0 < v ∧ x = fin v ∧ div x (fin 100) = round (v / 100) := by
  rcases pos_cases x h with rfl | ⟨v, hv, rfl⟩
  · left
    refine ⟨rfl, ?_⟩
    show inf (xor false (decide ((100 : ℚ) < 0))) = _
    rw [decide_eq_false (by norm_num)]
    rfl
  · right
    exact ⟨v, hv, rfl, div_fin v 100 (ne_of_gt hv) (by norm_num)⟩

end f32

/-! ## The search loop as a fold over the triangle tests -/

namespace BIH

theorem foldl_range_get {α β : Type} (stop : β → Prop) [DecidablePred stop]
    (g : β → Option α → β) :
    ∀ (l : List α) (b : β),
    (List.range l.length).foldl (fun c i => if stop c then c else g c (l.get? i)) b
      = l.foldl (fun c a => if stop c then c else g c (some a)) b := by
  intro l
  induction l with
  | nil => intro b; rfl
  | cons a l ih =>
    intro b
    rw [List.length_cons, List.range_succ_eq_map, List.foldl_cons, List.foldl_cons,
      List.foldl_map]
    simp only [List.get?_cons_zero, List.get?_cons_succ]
    exact ih _

theorem triintersect_eq (m : mesh) (tidx : Nat) (mo mray : vec) (maxdist : ℚ)
    (cur : Bool × ℚ) (mode : raymode) :
    triintersect m tidx mo mray maxdist cur mode
      = closer cur ((m.tris.get? tidx).bind (fun t => trihit m t mo mray maxdist mode)) := by
  unfold triintersect
  cases m.tris.get? tidx <;> rfl

theorem traversemesh_eq (m : mesh) (mo mray : vec) (maxdist : ℚ) (cur : Bool × ℚ)
    (mode : raymode) :
    traversemesh m mo mray maxdist cur mode
      = (m.tris.map (fun t => trihit m t mo mray maxdist mode)).foldl (step mode.nearest) cur := by
  rw [List.foldl_map]
  unfold traversemesh
  simp only [triintersect_eq]
  exact foldl_range_get (fun c : Bool × ℚ => mode.nearest = false ∧ c.1 = true)
    (fun c o => closer c (o.bind (fun t => trihit m t mo mray maxdist mode)))
    m.tris cur

theorem foldl_step_stop (hs : List (Option ℚ)) (c : Bool × ℚ) (hc : c.1 = true) :
    hs.foldl (step false) c = c := by
  induction hs with
  | nil => rfl
  | cons h hs ih => simp [List.foldl_cons, step, hc, ih]

theorem traverse_eq (b : BIH) (o ray : vec) (maxdist dist : ℚ) (mode : raymode) :
    b.traverse o ray maxdist dist mode
      = if maxdist < 0 then (false, dist)
        else (hitlist b.meshes o ray maxdist mode).foldl (step mode.nearest) (false, dist) := by
  unfold traverse
  split
  · rfl
  · generalize ((false, dist) : Bool × ℚ) = c
    generalize b.meshes = ms
    induction ms generalizing c with
    | nil => rfl
    | cons m ms ih =>
      rw [List.foldl_cons, hitlist, List.foldl_append, ih, traversemesh_eq]
      by_cases hstop : mode.nearest = false ∧ c.1 = true
      · rw [if_pos hstop]
        simp only [hstop.1, foldl_step_stop _ c hstop.2]
      · rw [if_neg hstop]

end BIH

namespace BIH

theorem foldl_closer_spec (hs : List (Option ℚ)) :
    ∀ c : Bool × ℚ,
    ((hs.foldl closer c).1 = false →
      c.1 = false ∧ (hs.foldl closer c).2 = c.2 ∧ ∀ d, some d ∉ hs) ∧
    ((hs.foldl closer c).1 = true →
      ((c.1 = true ∧ (hs.foldl closer c).2 = c.2) ∨ some (hs.foldl closer c).2 ∈ hs) ∧
      (c.1 = true → (hs.foldl closer c).2 ≤ c.2) ∧
      ∀ d, some d ∈ hs → (hs.foldl closer c).2 ≤ d) := by
  induction hs with
  | nil =>
    intro c
    simp
  | cons h hs ih =>
    intro c
    rw [List.foldl_cons]
    obtain ⟨ihf, iht⟩ := ih (closer c h)
    cases h with
    | none =>
      simp only [closer] at ihf iht ⊢
      refine ⟨fun hr => ?_, fun hr => ?_⟩
      · obtain ⟨h1, h2, h3⟩ := ihf hr
        exact ⟨h1, h2, by simpa using h3⟩
      · obtain ⟨h1, h2, h3⟩ := iht hr
        refine ⟨?_, h2, by simpa using h3⟩
        rcases h1 with h1 | h1
        · exact Or.inl h1
        · exact Or.inr (List.mem_cons_of_mem _ h1)
    | some d0 =>
      by_cases hc : c.1 = true ∧ c.2 ≤ d0
      · have e : closer c (some d0) = c := by simp [closer, hc]
        rw [e] at ihf iht ⊢
        refine ⟨fun hr => ?_, fun hr => ?_⟩
        · obtain ⟨h1, -, -⟩ := ihf hr
          rw [hc.1] at h1
          exact absurd h1 (by simp)
        · obtain ⟨h1, h2, h3⟩ := iht hr
          refine ⟨?_, h2, ?_⟩
          · rcases h1 with h1 | h1
            · exact Or.inl h1
            · exact Or.inr (List.mem_cons_of_mem _ h1)
          · intro d hd
            rcases List.mem_cons.1 hd with hd | hd
            · injection hd with hd
              rw [hd]
              exact le_trans (h2 hc.1) hc.2
            · exact h3 d hd
      · have e : closer c (some d0) = (true, d0) := by simp [closer, hc]
        rw [e] at ihf iht ⊢
        refine ⟨fun hr => ?_, fun hr => ?_⟩
        · obtain ⟨h1, -, -⟩ := ihf hr
          exact absurd h1 (by simp)
        · obtain ⟨h1, h2, h3⟩ := iht hr
          have h2' := h2 rfl
          refine ⟨?_, ?_, ?_⟩
          · rcases h1 with h1 | h1
            · exact Or.inr (by rw [h1.2]; exact List.mem_cons_self _ _)
            · exact Or.inr (List.mem_cons_of_mem _ h1)
          · intro hc1
            have : d0 < c.2 := by
              by_contra hlt
              exact hc ⟨hc1, not_lt.1 hlt⟩
            exact le_trans h2' (le_of_lt this)
          · intro d hd
            rcases List.mem_cons.1 hd with hd | hd
            · injection hd with hd
              rw [hd]
              exact h2'
            · exact h3 d hd

theorem step_true : step true = closer := by
  funext c h
  simp [step]

end BIH

/-! ## The hits of a query -/

namespace BIH

theorem mem_hitlist (ms : List mesh) (o ray : vec) (maxdist : ℚ) (mode : raymode) (d : ℚ) :
    some d ∈ hitlist ms o ray maxdist mode ↔
      ∃ m ∈ ms, ∃ t ∈ m.tris,
        trihit m t (m.invxform.transform o) (m.invxform.transformnormal ray) maxdist mode
          = some d := by
  induction ms with
  | nil => simp [hitlist]
  | cons m ms ih =>
    rw [hitlist, List.mem_append, ih, List.mem_map]
    constructor
    · rintro (⟨t, ht, e⟩ | ⟨m2, hm2, h⟩)
      · exact ⟨m, List.mem_cons_self _ _, t, ht, e⟩
      · exact ⟨m2, List.mem_cons_of_mem _ hm2, h⟩
    · rintro ⟨m2, hm2, t, ht, e⟩
      rcases List.mem_cons.1 hm2 with rfl | hm2
      · exact Or.inl ⟨t, ht, e⟩
      · exact Or.inr ⟨m2, hm2, t, ht, e⟩

theorem trihit_bounds (m : mesh) (t : tri) (mo mray : vec) (maxdist : ℚ) (mode : raymode)
    (d : ℚ) (h : trihit m t mo mray maxdist mode = some d) : 0 < d ∧ d ≤ maxdist := by
  unfold trihit at h
  split at h
  · split at h
    · exact absurd h (by simp)
    · split at h
      · rename_i hd
        injection h with h
        rw [← h]
        exact hd
      · exact absurd h (by simp)
  · exact absurd h (by simp)

theorem traverse_nearest_of_hits (b : BIH) (o ray : vec) (maxdist dist : ℚ) (mode : raymode)
    (hn : mode.nearest = true) (d1 d2 : ℚ)
    (h1 : b.hitsat o ray maxdist mode d1) (h2 : b.hitsat o ray maxdist mode d2)
    (hno : ∀ d, b.hitsat o ray maxdist mode d → d = d1 ∨ d = d2) :
    b.traverse o ray maxdist dist mode = (true, min d1 d2) := by
  have hmax : ¬ maxdist < 0 := by
    obtain ⟨m, -, t, -, e⟩ := h1
    have := trihit_bounds _ _ _ _ _ _ _ e
    exact not_lt.2 (le_trans (le_of_lt this.1) this.2)
  rw [traverse_eq, if_neg hmax, hn, step_true]
  obtain ⟨hf, ht⟩ := foldl_closer_spec (hitlist b.meshes o ray maxdist mode) (false, dist)
  have hm1 : some d1 ∈ hitlist b.meshes o ray maxdist mode := (mem_hitlist _ _ _ _ _ _).2 h1
  have hm2 : some d2 ∈ hitlist b.meshes o ray maxdist mode := (mem_hitlist _ _ _ _ _ _).2 h2
  generalize List.foldl closer (false, dist) (hitlist b.meshes o ray maxdist mode) = r at hf ht
  obtain ⟨r1, r2⟩ := r
  cases r1 with
  | false => exact absurd hm1 ((hf rfl).2.2 d1)
  | true =>
    obtain ⟨hin, -, hle⟩ := ht rfl
    have hmem : some r2 ∈ hitlist b.meshes o ray maxdist mode := by
      rcases hin with hin | hin
      · exact absurd hin.1 (by simp)
      · exact hin
    have hr := hno r2 ((mem_hitlist _ _ _ _ _ _).1 hmem)
    have l1 : r2 ≤ d1 := hle d1 hm1
    have l2 : r2 ≤ d2 := hle d2 hm2
    have : r2 = min d1 d2 := by
      rcases hr with hr | hr
      · rw [hr] at l2 ⊢
        exact (min_eq_left l2).symm
      · rw [hr] at l1 ⊢
        exact (min_eq_right l1).symm
    rw [this]

end BIH

/-! ## The constructor -/

namespace BIH

theorem construct_ok_iff (ms : List mesh) :
    (∃ b, construct ms = Except.ok b) ↔ ∀ m ∈ ms, m.numtris ≤ mesh.maxtriangles := by
  unfold construct
  by_cases h : ms.all (fun m => decide (m.numtris ≤ mesh.maxtriangles)) = true
  · rw [if_pos h]
    simp only [List.all_eq_true, decide_eq_true_eq] at h
    exact ⟨fun _ => h, fun _ => ⟨_, rfl⟩⟩
  · rw [if_neg h]
    simp only [List.all_eq_true, decide_eq_true_eq] at h
    constructor
    · rintro ⟨b, hb⟩
      exact absurd hb (by simp)
    · intro h2
      exact absurd h2 h

theorem construct_error (ms : List mesh) (m : mesh) (hm : m ∈ ms)
    (hbig : mesh.maxtriangles < m.numtris) :
    construct ms = Except.error builderror.capacity := by
  unfold construct
  have h : ¬ (ms.all (fun m => decide (m.numtris ≤ mesh.maxtriangles)) = true) := by
    simp only [List.all_eq_true, decide_eq_true_eq]
    intro hall
    exact absurd (hall m hm) (not_le.2 hbig)
  rw [if_neg h]

theorem construct_built (ms : List mesh) (b : BIH) (hb : construct ms = Except.ok b) :
    b = built ms := by
  unfold construct at hb
  split at hb
  · injection hb with hb
    exact hb.symm
  · exact absurd hb (by simp)

theorem construct_meshes (ms : List mesh) (b : BIH) (hb : construct ms = Except.ok b) :
    b.meshes = ms.map mesh.withbounds ∧
    b.bbmin = (ms.map mesh.withbounds).foldl (fun bb m => bb.min m.bbmin) emptybounds.1 ∧
    b.bbmax = (ms.map mesh.withbounds).foldl (fun bb m => bb.max m.bbmax) emptybounds.2 := by
  rw [construct_built ms b hb]
  exact ⟨rfl, rfl, rfl⟩

theorem trihit_withbounds (m : mesh) (t : tri) (mo mray : vec) (maxdist : ℚ)
    (mode : raymode) :
    trihit m.withbounds t mo mray maxdist mode = trihit m t mo mray maxdist mode := rfl

theorem forall₂_reordered_right {ms ms2 : List mesh} (h : List.Forall₂ reordered ms ms2)
    (m2 : mesh) (hm2 : m2 ∈ ms2) : ∃ m ∈ ms, reordered m m2 := by
  induction h with
  | nil => exact absurd hm2 (List.not_mem_nil _)
  | cons hr _ ih =>
    rcases List.mem_cons.1 hm2 with rfl | hm2
    · exact ⟨_, List.mem_cons_self _ _, hr⟩
    · obtain ⟨m, hm, hmr⟩ := ih hm2
      exact ⟨m, List.mem_cons_of_mem _ hm, hmr⟩

theorem forall₂_reordered_left {ms ms2 : List mesh} (h : List.Forall₂ reordered ms ms2)
    (m : mesh) (hm : m ∈ ms) : ∃ m2 ∈ ms2, reordered m m2 := by
  induction h with
  | nil => exact absurd hm (List.not_mem_nil _)
  | cons hr _ ih =>
    rcases List.mem_cons.1 hm with rfl | hm
    · exact ⟨_, List.mem_cons_self _ _, hr⟩
    · obtain ⟨m2, hm2, hmr⟩ := ih hm
      exact ⟨m2, List.mem_cons_of_mem _ hm2, hmr⟩

theorem trihit_reordered (m m2 : mesh) (h : reordered m m2) (t : tri) (o ray : vec)
    (maxdist : ℚ) (mode : raymode) :
    trihit m2 t (m2.invxform.transform o) (m2.invxform.transformnormal ray) maxdist mode
      = trihit m t (m.invxform.transform o) (m.invxform.transformnormal ray) maxdist mode := by
  rw [h.1]
  rfl

theorem hitsat_reordered (ms ms2 : List mesh) (b b2 : BIH)
    (hb : construct ms = Except.ok b) (hb2 : construct ms2 = Except.ok b2)
    (hre : List.Forall₂ reordered ms ms2) (o ray : vec) (maxdist : ℚ) (mode : raymode)
    (d : ℚ) : b2.hitsat o ray maxdist mode d ↔ b.hitsat o ray maxdist mode d := by
  unfold hitsat
  rw [(construct_meshes ms b hb).1, (construct_meshes ms2 b2 hb2).1]
  constructor
  · rintro ⟨m2', hm2', t, ht, e⟩
    obtain ⟨m2, hm2, rfl⟩ := List.mem_map.1 hm2'
    obtain ⟨m, hm, hr⟩ := forall₂_reordered_right hre m2 hm2
    refine ⟨m.withbounds, List.mem_map_of_mem _ hm, t, hr.2.subset ht, ?_⟩
    rw [← e]
    exact (trihit_reordered m m2 hr t o ray maxdist mode).symm
  · rintro ⟨m', hm', t, ht, e⟩
    obtain ⟨m, hm, rfl⟩ := List.mem_map.1 hm'
    obtain ⟨m2, hm2, hr⟩ := forall₂_reordered_left hre m hm
    refine ⟨m2.withbounds, List.mem_map_of_mem _ hm2, t, hr.2.symm.subset ht, ?_⟩
    rw [← e]
    exact trihit_reordered m m2 hr t o ray maxdist mode

theorem construct_reordered (ms ms2 : List mesh) (hre : List.Forall₂ reordered ms ms2)
    (h : ∃ b, construct ms = Except.ok b) : ∃ b2, construct ms2 = Except.ok b2 := by
  rw [construct_ok_iff] at h ⊢
  intro m2 hm2
  obtain ⟨m, hm, hr⟩ := forall₂_reordered_right hre m2 hm2
  have := h m hm
  unfold mesh.numtris at this ⊢
  rw [hr.2.length_eq]
  exact this

end BIH

/-! ## Queries without hits and filtered meshes -/

namespace BIH

theorem foldl_step_none (n : Bool) (hs : List (Option ℚ)) (hnone : ∀ h ∈ hs, h = none)
    (c : Bool × ℚ) : hs.foldl (step n) c = c := by
  induction hs with
  | nil => rfl
  | cons h hs ih =>
    rw [List.foldl_cons, hnone h (List.mem_cons_self _ _)]
    have e : step n c none = c := by
      unfold step closer
      split <;> rfl
    rw [e]
    exact ih (fun h2 hh2 => hnone h2 (List.mem_cons_of_mem _ hh2))

theorem hitlist_withbounds (ms : List mesh) (o ray : vec) (maxdist : ℚ) (mode : raymode) :
    hitlist (ms.map mesh.withbounds) o ray maxdist mode = hitlist ms o ray maxdist mode := by
  induction ms with
  | nil => rfl
  | cons m ms ih =>
    rw [List.map_cons, hitlist, hitlist, ih]
    rfl

theorem modepasses_noclip (mode : raymode) (flags : Nat) (hs : mode.skipnoclip = true)
    (hf : flags &&& Mesh_NoClip ≠ 0) : modepasses mode flags = false := by
  unfold modepasses
  simp [hs, hf]

theorem trihit_noclip (m : mesh) (t : tri) (mo mray : vec) (maxdist : ℚ) (mode : raymode)
    (hs : mode.skipnoclip = true) (hf : m.flags &&& Mesh_NoClip ≠ 0) :
    trihit m t mo mray maxdist mode = none := by
  unfold trihit
  rw [modepasses_noclip mode m.flags hs hf]
  rfl

theorem trihit_negative (m : mesh) (t : tri) (mo mray : vec) (maxdist : ℚ) (mode : raymode)
    (hneg : maxdist < 0) : trihit m t mo mray maxdist mode = none := by
  cases h : trihit m t mo mray maxdist mode with
  | none => rfl
  | some d =>
    have := trihit_bounds m t mo mray maxdist mode d h
    exact absurd (lt_of_lt_of_le this.1 this.2) (not_lt.2 (le_of_lt hneg))

theorem foldl_hitlist_filter (mode : raymode) (hs : mode.skipnoclip = true) (o ray : vec)
    (maxdist : ℚ) (ms : List mesh) :
    ∀ c : Bool × ℚ,
    (hitlist ms o ray maxdist mode).foldl (step mode.nearest) c
      = (hitlist (ms.filter (fun m => m.flags &&& Mesh_NoClip == 0)) o ray maxdist
          mode).foldl (step mode.nearest) c := by
  induction ms with
  | nil => intro c; rfl
  | cons m ms ih =>
    intro c
    by_cases hf : m.flags &&& Mesh_NoClip = 0
    · have hk : (m.flags &&& Mesh_NoClip == 0) = true := by simp [hf]
      rw [List.filter_cons, if_pos hk, hitlist, hitlist, List.foldl_append,
        List.foldl_append, ih]
    · have hk : ¬ ((m.flags &&& Mesh_NoClip == 0) = true) := by simp [hf]
      rw [List.filter_cons, if_neg hk, hitlist, List.foldl_append, ← ih]
      rw [foldl_step_none mode.nearest _ _ c]
      intro h hh
      obtain ⟨t, -, e⟩ := List.mem_map.1 hh
      rw [← e]
      exact trihit_noclip m t _ _ maxdist mode hs hf

end BIH

/-! ## The unit square -/

namespace BIH

theorem unitsquare_hit (flags : Nat) (mode : raymode) (dist : ℚ)
    (hpass : modepasses mode flags = true) :
    (built [unitsquare flags]).traverse ⟨1 / 2, 1 / 2, 5⟩ ⟨0, 0, -1⟩ 10 dist mode
      = (true, 5) := by
  rw [BIH.traverse_eq]
  have h1 : ∀ cull : Bool,
      BIH.raytri ⟨0, 0, 0⟩ ⟨1, 0, 0⟩ ⟨1, 1, 0⟩ ⟨1 / 2, 1 / 2, 5⟩ ⟨0, 0, -1⟩ cull = some 5 := by
    intro cull
    simp [BIH.raytri, vec.sub, vec.cross, vec.dot]
    norm_num
  have h2 : ∀ cull : Bool,
      BIH.raytri ⟨0, 0, 0⟩ ⟨1, 1, 0⟩ ⟨0, 1, 0⟩ ⟨1 / 2, 1 / 2, 5⟩ ⟨0, 0, -1⟩ cull = some 5 := by
    intro cull
    simp [BIH.raytri, vec.sub, vec.cross, vec.dot]
    norm_num
  have ho : matrix4x3.identity.transform ⟨1 / 2, 1 / 2, 5⟩ = ⟨1 / 2, 1 / 2, 5⟩ := by
    simp [matrix4x3.transform, matrix4x3.identity, vec.add, vec.mul]
  have hr : matrix4x3.identity.transformnormal ⟨0, 0, -1⟩ = ⟨0, 0, -1⟩ := by
    simp [matrix4x3.transformnormal, matrix4x3.identity, vec.add, vec.mul]
  simp only [BIH.built, BIH.hitlist, BIH.unitsquare, List.map_cons, List.map_nil, BIH.trihit, hpass,
    BIH.mesh.getpos, BIH.mesh.withbounds, ho, hr, if_true]
  cases hn : mode.nearest <;> norm_num [BIH.step, BIH.closer, h1, h2]

end BIH

/-! ## Geometry of the triangle test and the bounding box -/

namespace vec

theorem le_rfl (a : vec) : a.le a :=
  ⟨Preorder.le_refl a.x, Preorder.le_refl a.y, Preorder.le_refl a.z⟩

theorem le_tr {a b c : vec} (h1 : a.le b) (h2 : b.le c) : a.le c :=
  ⟨Preorder.le_trans _ _ _ h1.1 h2.1, Preorder.le_trans _ _ _ h1.2.1 h2.2.1,
    Preorder.le_trans _ _ _ h1.2.2 h2.2.2⟩

theorem min_le_l (a b : vec) : (a.min b).le a :=
  ⟨min_le_left _ _, min_le_left _ _, min_le_left _ _⟩

theorem min_le_r (a b : vec) : (a.min b).le b :=
  ⟨min_le_right _ _, min_le_right _ _, min_le_right _ _⟩

theorem le_max_l (a b : vec) : a.le (a.max b) :=
  ⟨le_max_left _ _, le_max_left _ _, le_max_left _ _⟩

theorem le_max_r (a b : vec) : b.le (a.max b) :=
  ⟨le_max_right _ _, le_max_right _ _, le_max_right _ _⟩

end vec

namespace matrix4x3

theorem transform_ray (M : matrix4x3) (p q : vec) (t : ℚ) :
    M.transform (p.add (q.mul t)) = (M.transform p).add ((M.transformnormal q).mul t) := by
  simp only [transform, transformnormal, vec.add, vec.mul, vec.mk.injEq]
  exact ⟨by ring, by ring, by ring⟩

theorem transform_bary (M : matrix4x3) (a b c : vec) (u v : ℚ) :
    M.transform ((a.add ((b.sub a).mul u)).add ((c.sub a).mul v))
      = ⟨(1 - u - v) * (M.transform a).x + u * (M.transform b).x + v * (M.transform c).x,
         (1 - u - v) * (M.transform a).y + u * (M.transform b).y + v * (M.transform c).y,
         (1 - u - v) * (M.transform a).z + u * (M.transform b).z + v * (M.transform c).z⟩ := by
  simp only [transform, vec.add, vec.mul, vec.sub, vec.mk.injEq]
  exact ⟨by ring, by ring, by ring⟩

end matrix4x3

namespace BIH

theorem raytri_point (a b c mo mray : vec) (cull : Bool) (t : ℚ)
    (h : raytri a b c mo mray cull = some t) :
    ∃ u v : ℚ, 0 ≤ u ∧ 0 ≤ v ∧ u + v ≤ 1 ∧
      mo.add (mray.mul t) = (a.add ((b.sub a).mul u)).add ((c.sub a).mul v) := by
  unfold raytri at h
  simp only at h
  split at h
  · exact absurd h (by simp)
  · rename_i hdet
    split at h
    · exact absurd h (by simp)
    · split at h
      · exact absurd h (by simp)
      · rename_i hbary
        injection h with h
        simp only [not_or, not_lt] at hbary
        obtain ⟨hu0, -, hv0, -, huv⟩ := hbary
        refine ⟨_, _, hu0, hv0, huv, ?_⟩
        rw [← h]
        simp only [vec.add, vec.mul, vec.sub, vec.dot, vec.cross, vec.mk.injEq] at hdet ⊢
        refine ⟨?_, ?_, ?_⟩
        · field_simp
          ring
        · field_simp
          ring
        · field_simp
          ring

theorem convex_between (lo hi A B C u v : ℚ) (hu : 0 ≤ u) (hv : 0 ≤ v) (huv : u + v ≤ 1)
    (hA : lo ≤ A ∧ A ≤ hi) (hB : lo ≤ B ∧ B ≤ hi) (hC : lo ≤ C ∧ C ≤ hi) :
    lo ≤ (1 - u - v) * A + u * B + v * C ∧ (1 - u - v) * A + u * B + v * C ≤ hi := by
  have hw : 0 ≤ 1 - u - v := by linarith
  constructor
  · nlinarith [mul_nonneg hw (sub_nonneg.2 hA.1), mul_nonneg hu (sub_nonneg.2 hB.1),
      mul_nonneg hv (sub_nonneg.2 hC.1)]
  · nlinarith [mul_nonneg hw (sub_nonneg.2 hA.2), mul_nonneg hu (sub_nonneg.2 hB.2),
      mul_nonneg hv (sub_nonneg.2 hC.2)]

end BIH

/-! ## The bounding box holds every placed vertex -/

namespace BIH

theorem addvert_mono (bb : vec × vec) (p : vec) :
    (addvert bb p).1.le bb.1 ∧ bb.2.le (addvert bb p).2 ∧
    (addvert bb p).1.le p ∧ p.le (addvert bb p).2 :=
  ⟨vec.min_le_l _ _, vec.le_max_l _ _, vec.min_le_r _ _, vec.le_max_r _ _⟩

/-- The extension of a bounding box by the three vertices of a triangle. -/
theorem addtri_mono (bb : vec × vec) (p q r : vec) :
    (addvert (addvert (addvert bb p) q) r).1.le bb.1 ∧
    bb.2.le (addvert (addvert (addvert bb p) q) r).2 ∧
    ((addvert (addvert (addvert bb p) q) r).1.le p ∧
      p.le (addvert (addvert (addvert bb p) q) r).2) ∧
    ((addvert (addvert (addvert bb p) q) r).1.le q ∧
      q.le (addvert (addvert (addvert bb p) q) r).2) ∧
    ((addvert (addvert (addvert bb p) q) r).1.le r ∧
      r.le (addvert (addvert (addvert bb p) q) r).2) := by
  have h1 := addvert_mono bb p
  have h2 := addvert_mono (addvert bb p) q
  have h3 := addvert_mono (addvert (addvert bb p) q) r
  refine ⟨vec.le_tr h3.1 (vec.le_tr h2.1 h1.1), vec.le_tr h1.2.1 (vec.le_tr h2.2.1 h3.2.1),
    ⟨vec.le_tr h3.1 (vec.le_tr h2.1 h1.2.2.1), vec.le_tr h1.2.2.2 (vec.le_tr h2.2.1 h3.2.1)⟩,
    ⟨vec.le_tr h3.1 h2.2.2.1, vec.le_tr h2.2.2.2 h3.2.1⟩, ⟨h3.2.2.1, h3.2.2.2⟩⟩

theorem foldl_tris_mono (m : mesh) (l : List tri) :
    ∀ bb : vec × vec,
    ((l.foldl (fun bb t => addvert (addvert (addvert bb (m.placed t.vert0))
        (m.placed t.vert1)) (m.placed t.vert2)) bb).1.le bb.1 ∧
      bb.2.le (l.foldl (fun bb t => addvert (addvert (addvert bb (m.placed t.vert0))
        (m.placed t.vert1)) (m.placed t.vert2)) bb).2) := by
  induction l with
  | nil => intro bb; exact ⟨vec.le_rfl _, vec.le_rfl _⟩
  | cons t l ih =>
    intro bb
    rw [List.foldl_cons]
    have h := addtri_mono bb (m.placed t.vert0) (m.placed t.vert1) (m.placed t.vert2)
    have h2 := ih (addvert (addvert (addvert bb (m.placed t.vert0)) (m.placed t.vert1))
      (m.placed t.vert2))
    exact ⟨vec.le_tr h2.1 h.1, vec.le_tr h.2.1 h2.2⟩

theorem foldl_tris_mem (m : mesh) (l : List tri) (t : tri) (ht : t ∈ l) :
    ∀ (bb : vec × vec) (p : vec),
    (p = m.placed t.vert0 ∨ p = m.placed t.vert1 ∨ p = m.placed t.vert2) →
    ((l.foldl (fun bb t => addvert (addvert (addvert bb (m.placed t.vert0))
        (m.placed t.vert1)) (m.placed t.vert2)) bb).1.le p ∧
      p.le (l.foldl (fun bb t => addvert (addvert (addvert bb (m.placed t.vert0))
        (m.placed t.vert1)) (m.placed t.vert2)) bb).2) := by
  induction l with
  | nil => exact absurd ht (List.not_mem_nil _)
  | cons t2 l ih =>
    intro bb p hp
    rw [List.foldl_cons]
    rcases List.mem_cons.1 ht with rfl | ht
    · have h := addtri_mono bb (m.placed t.vert0) (m.placed t.vert1) (m.placed t.vert2)
      have h2 := foldl_tris_mono m l (addvert (addvert (addvert bb (m.placed t.vert0))
        (m.placed t.vert1)) (m.placed t.vert2))
      rcases hp with rfl | rfl | rfl
      · exact ⟨vec.le_tr h2.1 h.2.2.1.1, vec.le_tr h.2.2.1.2 h2.2⟩
      · exact ⟨vec.le_tr h2.1 h.2.2.2.1.1, vec.le_tr h.2.2.2.1.2 h2.2⟩
      · exact ⟨vec.le_tr h2.1 h.2.2.2.2.1, vec.le_tr h.2.2.2.2.2 h2.2⟩
    · exact ih ht _ p hp

theorem calcbounds_mem (m : mesh) (t : tri) (ht : t ∈ m.tris) (p : vec)
    (hp : p = m.placed t.vert0 ∨ p = m.placed t.vert1 ∨ p = m.placed t.vert2) :
    m.calcbounds.1.le p ∧ p.le m.calcbounds.2 :=
  foldl_tris_mem m m.tris t ht emptybounds p hp

theorem foldl_min_mono (l : List mesh) :
    ∀ bb : vec, (l.foldl (fun bb m => bb.min m.bbmin) bb).le bb := by
  induction l with
  | nil => intro bb; exact vec.le_rfl _
  | cons m l ih =>
    intro bb
    rw [List.foldl_cons]
    exact vec.le_tr (ih _) (vec.min_le_l _ _)

theorem foldl_max_mono (l : List mesh) :
    ∀ bb : vec, bb.le (l.foldl (fun bb m => bb.max m.bbmax) bb) := by
  induction l with
  | nil => intro bb; exact vec.le_rfl _
  | cons m l ih =>
    intro bb
    rw [List.foldl_cons]
    exact vec.le_tr (vec.le_max_l _ _) (ih _)

theorem foldl_min_mem (l : List mesh) (m : mesh) (hm : m ∈ l) :
    ∀ bb : vec, (l.foldl (fun bb m => bb.min m.bbmin) bb).le m.bbmin := by
  induction l with
  | nil => exact absurd hm (List.not_mem_nil _)
  | cons m2 l ih =>
    intro bb
    rw [List.foldl_cons]
    rcases List.mem_cons.1 hm with rfl | hm
    · exact vec.le_tr (foldl_min_mono l _) (vec.min_le_r _ _)
    · exact ih hm _

theorem foldl_max_mem (l : List mesh) (m : mesh) (hm : m ∈ l) :
    ∀ bb : vec, m.bbmax.le (l.foldl (fun bb m => bb.max m.bbmax) bb) := by
  induction l with
  | nil => exact absurd hm (List.not_mem_nil _)
  | cons m2 l ih =>
    intro bb
    rw [List.foldl_cons]
    rcases List.mem_cons.1 hm with rfl | hm
    · exact vec.le_tr (vec.le_max_r _ _) (foldl_max_mono l _)
    · exact ih hm _

/-- Every placed vertex of every triangle of a built BIH lies in its bounding box. -/
theorem built_bounds (ms : List mesh) (m : mesh) (hm : m ∈ ms) (t : tri) (ht : t ∈ m.tris)
    (p : vec) (hp : p = m.placed t.vert0 ∨ p = m.placed t.vert1 ∨ p = m.placed t.vert2) :
    (built ms).bbmin.le p ∧ p.le (built ms).bbmax := by
  have hc := calcbounds_mem m t ht p hp
  have hmem : m.withbounds ∈ ms.map mesh.withbounds := List.mem_map_of_mem _ hm
  have h1 := foldl_min_mem (ms.map mesh.withbounds) m.withbounds hmem emptybounds.1
  have h2 := foldl_max_mem (ms.map mesh.withbounds) m.withbounds hmem emptybounds.2
  exact ⟨vec.le_tr h1 hc.1, vec.le_tr hc.2 h2⟩

/-- A hit of the triangle test lies in the bounding box of the built BIH, when
the inverse transform of the mesh undoes its transform. -/
theorem trihit_inbounds (ms : List mesh) (m : mesh) (hm : m ∈ ms) (t : tri) (ht : t ∈ m.tris)
    (hinv : ∀ p, m.xform.transform (m.invxform.transform p) = p)
    (o ray : vec) (maxdist : ℚ) (mode : raymode) (d : ℚ)
    (h : trihit m t (m.invxform.transform o) (m.invxform.transformnormal ray) maxdist mode
      = some d) :
    (built ms).inbounds (o.add (ray.mul d)) := by
  have hray : ∃ cull, raytri (m.getpos t.vert0) (m.getpos t.vert1) (m.getpos t.vert2)
      (m.invxform.transform o) (m.invxform.transformnormal ray) cull = some d := by
    unfold trihit at h
    split at h
    · split at h
      · exact absurd h (by simp)
      · rename_i d2 hd2
        split at h
        · injection h with h
          rw [h] at hd2
          exact ⟨_, hd2⟩
        · exact absurd h (by simp)
    · exact absurd h (by simp)
  obtain ⟨cull, hray⟩ := hray
  obtain ⟨u, v, hu, hv, huv, hpt⟩ := raytri_point _ _ _ _ _ cull d hray
  have hw : o.add (ray.mul d) = m.xform.transform
      (((m.getpos t.vert0).add (((m.getpos t.vert1).sub (m.getpos t.vert0)).mul u)).add
        (((m.getpos t.vert2).sub (m.getpos t.vert0)).mul v)) := by
    rw [← hpt, ← matrix4x3.transform_ray, hinv]
  rw [hw, matrix4x3.transform_bary]
  have b0 := built_bounds ms m hm t ht (m.placed t.vert0) (Or.inl rfl)
  have b1 := built_bounds ms m hm t ht (m.placed t.vert1) (Or.inr (Or.inl rfl))
  have b2 := built_bounds ms m hm t ht (m.placed t.vert2) (Or.inr (Or.inr rfl))
  unfold mesh.placed at b0 b1 b2
  have cx := convex_between _ _ _ _ _ u v hu hv huv ⟨b0.1.1, b0.2.1⟩ ⟨b1.1.1, b1.2.1⟩
    ⟨b2.1.1, b2.2.1⟩
  have cy := convex_between _ _ _ _ _ u v hu hv huv ⟨b0.1.2.1, b0.2.2.1⟩ ⟨b1.1.2.1, b1.2.2.1⟩
    ⟨b2.1.2.1, b2.2.2.1⟩
  have cz := convex_between _ _ _ _ _ u v hu hv huv ⟨b0.1.2.2, b0.2.2.2⟩ ⟨b1.1.2.2, b1.2.2.2⟩
    ⟨b2.1.2.2, b2.2.2.2⟩
  exact ⟨⟨cx.1, cy.1, cz.1⟩, ⟨cx.2, cy.2, cz.2⟩⟩

end BIH

/-! ## Rays that stay outside the bounding box -/

namespace BIH

theorem outside_of_pointsaway (b : BIH) (o ray : vec) (h : b.pointsaway o ray) :
    ∀ t : ℚ, 0 ≤ t → ¬ b.inbounds (o.add (ray.mul t)) := by
  intro t ht hin
  obtain ⟨⟨lx, ly, lz⟩, ⟨ux, uy, uz⟩⟩ := hin
  simp only [vec.add, vec.mul] at lx ly lz ux uy uz
  rcases h with h | h | h | h | h | h
  · have := mul_nonpos_of_nonpos_of_nonneg h.2 ht
    linarith [h.1]
  · have := mul_nonneg h.2 ht
    linarith [h.1]
  · have := mul_nonpos_of_nonpos_of_nonneg h.2 ht
    linarith [h.1]
  · have := mul_nonneg h.2 ht
    linarith [h.1]
  · have := mul_nonpos_of_nonpos_of_nonneg h.2 ht
    linarith [h.1]
  · have := mul_nonneg h.2 ht
    linarith [h.1]

theorem traverse_no_hits (b : BIH) (o ray : vec) (maxdist dist : ℚ) (mode : raymode)
    (hnone : ∀ d, ¬ b.hitsat o ray maxdist mode d) :
    b.traverse o ray maxdist dist mode = (false, dist) := by
  rw [traverse_eq]
  split
  · rfl
  · apply foldl_step_none
    intro h hh
    cases h with
    | none => rfl
    | some d => exact absurd ((mem_hitlist _ _ _ _ _ d).1 hh) (hnone d)

end BIH

/-! ## The node hierarchy: lemmas -/

namespace BIH

theorem closer_comm (c : Bool × ℚ) (a b : Option ℚ) :
    closer (closer c a) b = closer (closer c b) a := by
  obtain ⟨c1, c2⟩ := c
  cases a with
  | none => rfl
  | some x =>
    cases b with
    | none => rfl
    | some y =>
      cases c1
      · simp only [closer, Bool.false_eq_true, false_and, if_false, true_and]
        rcases lt_trichotomy x y with h | h | h
        · rw [if_pos (le_of_lt h), if_neg (not_le.2 h)]
        · subst h
          rfl
        · rw [if_neg (not_le.2 h), if_pos (le_of_lt h)]
      · simp only [closer, true_and]
        by_cases hx : c2 ≤ x <;> by_cases hy : c2 ≤ y
        · simp [hx, hy]
        · have hyx : y ≤ x := le_trans (le_of_lt (not_le.1 hy)) hx
          simp [hx, hy, hyx]
        · have hxy : x ≤ y := le_trans (le_of_lt (not_le.1 hx)) hy
          simp [hx, hy, hxy]
        · simp only [hx, hy, if_false, true_and]
          rcases lt_trichotomy x y with h | h | h
          · rw [if_pos (le_of_lt h), if_neg (not_le.2 h)]
          · subst h
            rfl
          · rw [if_neg (not_le.2 h), if_pos (le_of_lt h)]

theorem foldl_closer_perm {l1 l2 : List (Option ℚ)} (h : l1.Perm l2) (c : Bool × ℚ) :
    l1.foldl closer c = l2.foldl closer c := by
  induction h generalizing c with
  | nil => rfl
  | cons x _ ih => exact ih _
  | swap x y l =>
    simp only [List.foldl_cons]
    rw [closer_comm]
  | trans _ _ ih1 ih2 => exact (ih1 c).trans (ih2 c)

theorem foldl_closer_none (hs : List (Option ℚ)) (h : ∀ d, some d ∉ hs) (c : Bool × ℚ) :
    hs.foldl closer c = c := by
  rw [← step_true]
  apply foldl_step_none
  intro x hx
  cases x with
  | none => rfl
  | some d => exact absurd hx (h d)

theorem foldl_closer_keep (hs : List (Option ℚ)) (c : Bool × ℚ) (hc : c.1 = true)
    (h : ∀ d, some d ∈ hs → c.2 ≤ d) : hs.foldl closer c = c := by
  induction hs with
  | nil => rfl
  | cons x hs ih =>
    rw [List.foldl_cons]
    have e : closer c x = c := by
      cases x with
      | none => rfl
      | some d =>
        unfold closer
        simp only
        rw [if_pos ⟨hc, h d (List.mem_cons_self _ _)⟩]
    rw [e]
    exact ih (fun d hd => h d (List.mem_cons_of_mem _ hd))

theorem foldl_closer_le (hs : List (Option ℚ)) (c : Bool × ℚ) (hc : c.1 = true) :
    (hs.foldl closer c).1 = true ∧ (hs.foldl closer c).2 ≤ c.2 := by
  obtain ⟨hf, ht⟩ := foldl_closer_spec hs c
  have h1 : (hs.foldl closer c).1 = true := by
    by_contra hne
    have := (hf (by simpa using hne)).1
    rw [hc] at this
    exact absurd this (by simp)
  exact ⟨h1, (ht h1).2.1 hc⟩

/-- The loop over a leaf range reads the triangles of the range in order. -/
theorem foldl_range_offset {β : Type} (g : β → Option tri → β)
    (hnone : ∀ c, g c none = c) (A : List tri) (first : Nat) :
    ∀ (count : Nat) (b : β),
    (List.range count).foldl (fun c i => g c (A.get? (first + i))) b
      = ((A.drop first).take count).foldl (fun c t => g c (some t)) b := by
  intro count
  induction count with
  | zero => intro b; rfl
  | succ n ih =>
    intro b
    rw [List.range_succ, List.foldl_append, ih, List.foldl_cons, List.foldl_nil]
    by_cases hlt : first + n < A.length
    · have hn : n < (A.drop first).length := by
        rw [List.length_drop]
        omega
      have hg : A.get? (first + n) = some ((A.drop first).get ⟨n, hn⟩) := by
        rw [List.get?_eq_getElem?, List.get_eq_getElem, List.getElem_drop,
          List.getElem?_eq_getElem]
      rw [hg, List.take_succ, List.foldl_append]
      have : (A.drop first).get? n = some ((A.drop first).get ⟨n, hn⟩) :=
        List.get?_eq_get hn
      rw [List.get?_eq_getElem?] at this
      rw [this]
      rfl
    · have hg : A.get? (first + n) = none := by
        rw [List.get?_eq_getElem?]
        exact List.getElem?_eq_none (by omega)
      have hlen : (A.drop first).length ≤ n := by
        rw [List.length_drop]
        omega
      rw [hg, hnone, List.take_of_length_le hlen,
        List.take_of_length_le (le_trans hlen (Nat.le_succ n))]

end BIH

namespace BIH

theorem trihit_tris (m : mesh) (A : List tri) (t : tri) (mo mray : vec) (maxdist : ℚ)
    (mode : raymode) :
    trihit { m with tris := A } t mo mray maxdist mode = trihit m t mo mray maxdist mode := rfl

theorem traverserange_eq (m : mesh) (mo mray : vec) (maxdist : ℚ) (mode : raymode)
    (hn : mode.nearest = true) (first count : Nat) (cur : Bool × ℚ) :
    traverserange m mo mray maxdist mode first count cur
      = (((m.tris.drop first).take count).map
          (fun t => trihit m t mo mray maxdist mode)).foldl closer cur := by
  unfold traverserange
  rw [List.foldl_map]
  simp only [triintersect_eq, hn, Bool.true_eq_false, false_and, if_false]
  exact foldl_range_offset
    (fun c o => closer c (o.bind (fun t => trihit m t mo mray maxdist mode)))
    (fun c => rfl) m.tris first count cur

theorem coord_between (m : mesh) (t : tri) (k : Nat) (i : Nat)
    (hi : i = t.vert0 ∨ i = t.vert1 ∨ i = t.vert2) :
    m.trimin t k ≤ (m.getpos i).coord k ∧ (m.getpos i).coord k ≤ m.trimax t k := by
  unfold mesh.trimin mesh.trimax
  rcases hi with rfl | rfl | rfl
  · exact ⟨le_trans (min_le_left _ _) (min_le_left _ _),
      le_trans (le_max_left _ _) (le_max_left _ _)⟩
  · exact ⟨le_trans (min_le_left _ _) (min_le_right _ _),
      le_trans (le_max_right _ _) (le_max_left _ _)⟩
  · exact ⟨min_le_right _ _, le_max_right _ _⟩

theorem coord_bary (a b c : vec) (u v : ℚ) (k : Nat) :
    ((a.add ((b.sub a).mul u)).add ((c.sub a).mul v)).coord k
      = (1 - u - v) * a.coord k + u * b.coord k + v * c.coord k := by
  unfold vec.coord
  split
  · simp only [vec.add, vec.mul, vec.sub]
    ring
  · split
    · simp only [vec.add, vec.mul, vec.sub]
      ring
    · simp only [vec.add, vec.mul, vec.sub]
      ring

theorem coord_ray (o ray : vec) (d : ℚ) (k : Nat) :
    (o.add (ray.mul d)).coord k = o.coord k + ray.coord k * d := by
  unfold vec.coord
  split
  · rfl
  · split <;> rfl

theorem trihit_raytri (m : mesh) (t : tri) (mo mray : vec) (maxdist : ℚ) (mode : raymode)
    (d : ℚ) (h : trihit m t mo mray maxdist mode = some d) :
    raytri (m.getpos t.vert0) (m.getpos t.vert1) (m.getpos t.vert2) mo mray
      (m.flags &&& Mesh_CullFace != 0) = some d := by
  unfold trihit at h
  split at h
  · split at h
    · exact absurd h (by simp)
    · rename_i d2 hd2
      split at h
      · injection h with h
        rw [h] at hd2
        exact hd2
      · exact absurd h (by simp)
  · exact absurd h (by simp)

/-- A hit lies between the least and the greatest coordinate of the triangle on
every axis. -/
theorem trihit_coord (m : mesh) (t : tri) (mo mray : vec) (maxdist : ℚ) (mode : raymode)
    (d : ℚ) (h : trihit m t mo mray maxdist mode = some d) (k : Nat) :
    m.trimin t k ≤ mo.coord k + mray.coord k * d ∧
    mo.coord k + mray.coord k * d ≤ m.trimax t k := by
  obtain ⟨u, v, hu, hv, huv, hpt⟩ := raytri_point _ _ _ _ _ _ d (trihit_raytri _ _ _ _ _ _ _ h)
  rw [← coord_ray, hpt, coord_bary]
  exact convex_between _ _ _ _ _ u v hu hv huv (coord_between m t k _ (Or.inl rfl))
    (coord_between m t k _ (Or.inr (Or.inl rfl)))
    (coord_between m t k _ (Or.inr (Or.inr rfl)))

end BIH

namespace BIH

/-- The near child of a node: descended when its interval is not empty;
otherwise it holds no hit. -/
theorem near_eq (hN : List (Option ℚ)) (cur : Bool × ℚ) (tmin hi : ℚ) (r : Bool × ℚ)
    (hr : tmin ≤ hi → r = hN.foldl closer cur)
    (hin : ∀ d, some d ∈ hN → tmin ≤ d ∧ d ≤ hi) :
    (if tmin ≤ hi then r else cur) = hN.foldl closer cur := by
  split
  · rename_i h
    exact hr h
  · rename_i h
    exact (foldl_closer_none hN
      (fun d hd => h (le_trans (hin d hd).1 (hin d hd).2)) _).symm

/-- The far child of a node: when it is not pushed it holds no hit closer than
the current best. -/
theorem far_eq (hN hF : List (Option ℚ)) (cur : Bool × ℚ) (lo tmax : ℚ) (r : Bool × ℚ)
    (hr : r = hF.foldl closer (hN.foldl closer cur))
    (hin : ∀ d, some d ∈ hF → lo ≤ d ∧ d ≤ tmax) :
    (if decide (lo ≤ tmax ∧ ¬ (cur.1 = true ∧ cur.2 ≤ lo)) = true then r
      else hN.foldl closer cur) = (hN ++ hF).foldl closer cur := by
  rw [List.foldl_append]
  split
  · exact hr
  · rename_i h
    rw [decide_eq_true_eq, not_and, not_not] at h
    by_cases hlo : lo ≤ tmax
    · obtain ⟨hc1, hc2⟩ := h hlo
      obtain ⟨h1, h2⟩ := foldl_closer_le hN cur hc1
      exact (foldl_closer_keep hF _ h1
        (fun d hd => le_trans h2 (le_trans hc2 (hin d hd).1))).symm
    · exact (foldl_closer_none hF
        (fun d hd => hlo (le_trans (hin d hd).1 (hin d hd).2)) _).symm

theorem mem_map_hit {m : mesh} {mo mray : vec} {maxdist : ℚ} {mode : raymode}
    {l : List tri} {d : ℚ}
    (h : some d ∈ l.map (fun t => trihit m t mo mray maxdist mode)) :
    ∃ t ∈ l, trihit m t mo mray maxdist mode = some d := by
  obtain ⟨t, ht, e⟩ := List.mem_map.1 h
  exact ⟨t, ht, e⟩

/-- In nearest-hit mode the descent of a bounded hierarchy over an interval
that holds every hit of its triangles gives the closest of the current best and
all these hits. -/
theorem traversenodes_eq (m : mesh) (A : List tri) (mo mray invray : vec) (maxdist : ℚ)
    (mode : raymode) (hn : mode.nearest = true)
    (hinv : ∀ k, mray.coord k ≠ 0 → invray.coord k = 1 / mray.coord k) :
    ∀ (T : nodes) (tmin tmax : ℚ) (cur : Bool × ℚ),
      T.bounded m A →
      (∀ t ∈ T.tris A, ∀ d, trihit m t mo mray maxdist mode = some d → tmin ≤ d ∧ d ≤ tmax) →
      traversenodes { m with tris := A } mo mray invray maxdist mode T tmin tmax cur
        = ((T.tris A).map (fun t => trihit m t mo mray maxdist mode)).foldl closer cur := by
  intro T
  induction T with
  | range first count =>
    intro tmin tmax cur _ _
    unfold traversenodes
    rw [traverserange_eq _ _ _ _ _ hn]
    rfl
  | node axis split0 split1 child0 child1 ih0 ih1 =>
    intro tmin tmax cur hb hin
    obtain ⟨hb0, hb1, hbc0, hbc1⟩ := hb
    have hin0 : ∀ t ∈ child0.tris A, ∀ d, trihit m t mo mray maxdist mode = some d →
        tmin ≤ d ∧ d ≤ tmax :=
      fun t ht => hin t (List.mem_append_left _ ht)
    have hin1 : ∀ t ∈ child1.tris A, ∀ d, trihit m t mo mray maxdist mode = some d →
        tmin ≤ d ∧ d ≤ tmax :=
      fun t ht => hin t (List.mem_append_right _ ht)
    have hstop : ¬ (mode.nearest = false ∧ cur.1 = true) := by
      rw [hn]
      simp
    unfold traversenodes
    rw [if_neg hstop]
    show _ = ((child0.tris A ++ child1.tris A).map _).foldl closer cur
    rw [List.map_append]
    by_cases hz : mray.coord axis = 0
    · rw [if_pos hz, ih0 tmin tmax cur hbc0 hin0, ih1 tmin tmax _ hbc1 hin1, List.foldl_append]
    · rw [if_neg hz]
      have hi := hinv axis hz
      simp only
      by_cases hpos : 0 < mray.coord axis
      · rw [if_pos hpos]
        -- the left child is near
        have hL : ∀ d, some d ∈ (child0.tris A).map (fun t => trihit m t mo mray maxdist mode) →
            tmin ≤ d ∧ d ≤ Min.min tmax ((split0 - mo.coord axis) * invray.coord axis) := by
          intro d hd
          obtain ⟨t, ht, e⟩ := mem_map_hit hd
          have hc := (trihit_coord m t mo mray maxdist mode d e axis).2
          have hs := hb0 t ht
          have h1 := hin0 t ht d e
          refine ⟨h1.1, le_min h1.2 ?_⟩
          rw [hi, mul_one_div, le_div_iff₀ hpos]
          linarith
        have hR : ∀ d, some d ∈ (child1.tris A).map (fun t => trihit m t mo mray maxdist mode) →
            Max.max tmin ((split1 - mo.coord axis) * invray.coord axis) ≤ d ∧ d ≤ tmax := by
          intro d hd
          obtain ⟨t, ht, e⟩ := mem_map_hit hd
          have hc := (trihit_coord m t mo mray maxdist mode d e axis).1
          have hs := hb1 t ht
          have h1 := hin1 t ht d e
          refine ⟨max_le h1.1 ?_, h1.2⟩
          rw [hi, mul_one_div, div_le_iff₀ hpos]
          linarith
        have e1 := near_eq _ cur tmin (Min.min tmax ((split0 - mo.coord axis) * invray.coord axis))
          (traversenodes { m with tris := A } mo mray invray maxdist mode child0 tmin
            (Min.min tmax ((split0 - mo.coord axis) * invray.coord axis)) cur)
          (fun _ => ih0 _ _ cur hbc0 (fun t ht d e =>
            hL d (List.mem_map.2 ⟨t, ht, e⟩))) hL
        rw [e1]
        exact far_eq _ _ cur _ tmax _
          (ih1 _ _ _ hbc1 (fun t ht d e => hR d (List.mem_map.2 ⟨t, ht, e⟩))) hR
      · rw [if_neg hpos]
        have hneg : mray.coord axis < 0 := lt_of_le_of_ne (not_lt.1 hpos) hz
        -- the right child is near
        have hR : ∀ d, some d ∈ (child1.tris A).map (fun t => trihit m t mo mray maxdist mode) →
            tmin ≤ d ∧ d ≤ Min.min tmax ((split1 - mo.coord axis) * invray.coord axis) := by
          intro d hd
          obtain ⟨t, ht, e⟩ := mem_map_hit hd
          have hc := (trihit_coord m t mo mray maxdist mode d e axis).1
          have hs := hb1 t ht
          have h1 := hin1 t ht d e
          refine ⟨h1.1, le_min h1.2 ?_⟩
          rw [hi, mul_one_div, le_div_iff_of_neg hneg]
          linarith
        have hL : ∀ d, some d ∈ (child0.tris A).map (fun t => trihit m t mo mray maxdist mode) →
            Max.max tmin ((split0 - mo.coord axis) * invray.coord axis) ≤ d ∧ d ≤ tmax := by
          intro d hd
          obtain ⟨t, ht, e⟩ := mem_map_hit hd
          have hc := (trihit_coord m t mo mray maxdist mode d e axis).2
          have hs := hb0 t ht
          have h1 := hin0 t ht d e
          refine ⟨max_le h1.1 ?_, h1.2⟩
          rw [hi, mul_one_div, div_le_iff_of_neg hneg]
          linarith
        have e1 := near_eq _ cur tmin (Min.min tmax ((split1 - mo.coord axis) * invray.coord axis))
          (traversenodes { m with tris := A } mo mray invray maxdist mode child1 tmin
            (Min.min tmax ((split1 - mo.coord axis) * invray.coord axis)) cur)
          (fun _ => ih1 _ _ cur hbc1 (fun t ht d e =>
            hR d (List.mem_map.2 ⟨t, ht, e⟩))) hR
        rw [e1]
        rw [far_eq _ _ cur _ tmax _
          (ih0 _ _ _ hbc0 (fun t ht d e => hL d (List.mem_map.2 ⟨t, ht, e⟩))) hL]
        exact foldl_closer_perm List.perm_append_comm cur

end BIH

namespace BIH

theorem foldl_max_ge (f : tri → ℚ) (l : List tri) :
    ∀ a : ℚ, a ≤ l.foldl (fun a t => Max.max a (f t)) a ∧
      ∀ t ∈ l, f t ≤ l.foldl (fun a t => Max.max a (f t)) a := by
  induction l with
  | nil => intro a; exact ⟨le_refl _, fun t ht => absurd ht (List.not_mem_nil _)⟩
  | cons x l ih =>
    intro a
    rw [List.foldl_cons]
    obtain ⟨h1, h2⟩ := ih (Max.max a (f x))
    refine ⟨le_trans (le_max_left _ _) h1, ?_⟩
    intro t ht
    rcases List.mem_cons.1 ht with rfl | ht
    · exact le_trans (le_max_right _ _) h1
    · exact h2 t ht

theorem foldl_min_le (f : tri → ℚ) (l : List tri) :
    ∀ a : ℚ, l.foldl (fun a t => Min.min a (f t)) a ≤ a ∧
      ∀ t ∈ l, l.foldl (fun a t => Min.min a (f t)) a ≤ f t := by
  induction l with
  | nil => intro a; exact ⟨le_refl _, fun t ht => absurd ht (List.not_mem_nil _)⟩
  | cons x l ih =>
    intro a
    rw [List.foldl_cons]
    obtain ⟨h1, h2⟩ := ih (Min.min a (f x))
    refine ⟨le_trans h1 (min_le_left _ _), ?_⟩
    intro t ht
    rcases List.mem_cons.1 ht with rfl | ht
    · exact le_trans h1 (min_le_right _ _)
    · exact h2 t ht

/-- No triangle of a subset reaches beyond its rightmost bound. -/
theorem rightmost_ge (m : mesh) (ts : List tri) (k : Nat) (t : tri) (ht : t ∈ ts) :
    m.trimax t k ≤ m.rightmost ts k :=
  (foldl_max_ge (fun t => m.trimax t k) ts _).2 t ht

/-- No triangle of a subset starts before its leftmost bound. -/
theorem leftmost_le (m : mesh) (ts : List tri) (k : Nat) (t : tri) (ht : t ∈ ts) :
    m.leftmost ts k ≤ m.trimin t k :=
  (foldl_min_le (fun t => m.trimin t k) ts _).2 t ht

theorem range_tris (pre ts suf : List tri) (first : Nat) (h : pre.length = first) :
    (nodes.range first ts.length).tris (pre ++ ts ++ suf) = ts := by
  show ((pre ++ ts ++ suf).drop first).take ts.length = ts
  rw [List.append_assoc, List.drop_left' h, List.take_left]

/-- What the builder makes of a subset: the subset in another order, leaves that
read exactly these triangles from their place in the triangle array, and split
boundaries that bound the subtrees. -/
theorem build_spec (P : buildparams) (m : mesh) :
    ∀ (depth first : Nat) (ts : List tri),
      (build P m depth first ts).2.Perm ts ∧
      ∀ pre suf : List tri, pre.length = first →
        (build P m depth first ts).1.tris (pre ++ (build P m depth first ts).2 ++ suf)
          = (build P m depth first ts).2 ∧
        (build P m depth first ts).1.bounded m (pre ++ (build P m depth first ts).2 ++ suf) := by
  intro depth
  induction depth with
  | zero =>
    intro first ts
    exact ⟨List.Perm.refl _, fun pre suf h => ⟨range_tris pre ts suf first h, trivial⟩⟩
  | succ d ih =>
    intro first ts
    unfold build
    split
    · exact ⟨List.Perm.refl _, fun pre suf h => ⟨range_tris pre ts suf first h, trivial⟩⟩
    · simp only
      generalize hax : m.pickaxis ts = axis
      generalize hsp : P.splitpos (ts.map (fun t => m.tricenter t axis)) = split
      generalize hleft : ts.filter (fun t => decide (m.tricenter t axis < split)) = left
      generalize hright : ts.filter (fun t => !decide (m.tricenter t axis < split)) = right
      obtain ⟨pl, hl⟩ := ih first left
      obtain ⟨pr, hr⟩ := ih (first + left.length) right
      have hperm : ((build P m d first left).2 ++
          (build P m d (first + left.length) right).2).Perm ts := by
        refine (List.Perm.append pl pr).trans ?_
        rw [← hleft, ← hright]
        exact List.filter_append_perm _ ts
      refine ⟨hperm, ?_⟩
      intro pre suf hpre
      have hA0 : pre ++ ((build P m d first left).2 ++
            (build P m d (first + left.length) right).2) ++ suf
          = pre ++ (build P m d first left).2 ++
            ((build P m d (first + left.length) right).2 ++ suf) := by
        simp only [List.append_assoc]
      have hA1 : pre ++ ((build P m d first left).2 ++
            (build P m d (first + left.length) right).2) ++ suf
          = (pre ++ (build P m d first left).2) ++
            (build P m d (first + left.length) right).2 ++ suf := by
        simp only [List.append_assoc]
      have hlen : (pre ++ (build P m d first left).2).length = first + left.length := by
        rw [List.length_append, hpre, pl.length_eq]
      have h0 := hl pre ((build P m d (first + left.length) right).2 ++ suf) hpre
      have h1 := hr (pre ++ (build P m d first left).2) suf hlen
      rw [← hA0] at h0
      rw [← hA1] at h1
      refine ⟨?_, ?_, ?_, h0.2, h1.2⟩
      · show (build P m d first left).1.tris _ ++
          (build P m d (first + left.length) right).1.tris _ = _
        rw [h0.1, h1.1]
      · intro t ht
        rw [h0.1] at ht
        exact rightmost_ge m left axis t (pl.subset ht)
      · intro t ht
        rw [h1.1] at ht
        exact leftmost_le m right axis t (pr.subset ht)

theorem invdir_coord (ray : vec) (k : Nat) : (invdir ray).coord k = 1 / ray.coord k := by
  unfold invdir vec.coord
  split
  · rfl
  · split <;> rfl

/-- In nearest-hit mode the descent of the hierarchy that the builder makes for
a mesh gives what the test of every triangle of the mesh gives. -/
theorem traversenodes_mesh (P : buildparams) (m : mesh) (mo mray : vec) (maxdist : ℚ)
    (mode : raymode) (hn : mode.nearest = true) (cur : Bool × ℚ) :
    traversenodes (m.reorder P) mo mray (invdir mray) maxdist mode (m.nodes P) 0 maxdist cur
      = traversemesh m mo mray maxdist cur mode := by
  obtain ⟨hp, hs⟩ := build_spec P m P.maxdepth 0 m.tris
  obtain ⟨ht, hb⟩ := hs [] [] rfl
  simp only [List.nil_append, List.append_nil] at ht hb
  have e := traversenodes_eq m (build P m P.maxdepth 0 m.tris).2 mo mray (invdir mray) maxdist
    mode hn (fun k _ => invdir_coord mray k) (m.nodes P) 0 maxdist cur hb
    (fun t _ d hd => ⟨le_of_lt (trihit_bounds _ _ _ _ _ _ _ hd).1,
      (trihit_bounds _ _ _ _ _ _ _ hd).2⟩)
  unfold mesh.reorder
  rw [e, traversemesh_eq, hn, step_true]
  show (((m.nodes P).tris (build P m P.maxdepth 0 m.tris).2).map _).foldl closer cur = _
  unfold mesh.nodes
  rw [ht]
  exact foldl_closer_perm (hp.map _) cur

/-- In nearest-hit mode the traversal of the node hierarchies returns what the
test of every triangle returns, whatever the parameters of the builder. -/
theorem nodetraverse_nearest (P : buildparams) (b : BIH) (o ray : vec) (maxdist dist : ℚ)
    (mode : raymode) (hn : mode.nearest = true) :
    nodetraverse P b o ray maxdist dist mode = b.traverse o ray maxdist dist mode := by
  unfold nodetraverse traverse
  simp only [traversenodes_mesh P _ _ _ _ _ hn]

end BIH

namespace BIH

/-- The barycentric coordinates and the ray parameter of a point of the ray in
the plane of the triangle are the quotients that the triangle test computes. -/
theorem cramer (a b c mo mray : vec) (u v d : ℚ)
    (h : mo.add (mray.mul d) = (a.add ((b.sub a).mul u)).add ((c.sub a).mul v)) :
    (mo.sub a).dot (mray.cross (c.sub a)) = u * facing a b c mray ∧
    mray.dot ((mo.sub a).cross (b.sub a)) = v * facing a b c mray ∧
    (c.sub a).dot ((mo.sub a).cross (b.sub a)) = d * facing a b c mray := by
  simp only [vec.add, vec.mul, vec.sub, vec.mk.injEq] at h
  obtain ⟨hx, hy, hz⟩ := h
  simp only [facing, vec.dot, vec.cross, vec.sub]
  refine ⟨?_, ?_, ?_⟩
  · linear_combination
      (mray.y * (c.z - a.z) - mray.z * (c.y - a.y)) * hx +
      (mray.z * (c.x - a.x) - mray.x * (c.z - a.z)) * hy +
      (mray.x * (c.y - a.y) - mray.y * (c.x - a.x)) * hz
  · linear_combination
      ((b.y - a.y) * mray.z - (b.z - a.z) * mray.y) * hx +
      ((b.z - a.z) * mray.x - (b.x - a.x) * mray.z) * hy +
      ((b.x - a.x) * mray.y - (b.y - a.y) * mray.x) * hz
  · linear_combination
      ((b.y - a.y) * (c.z - a.z) - (b.z - a.z) * (c.y - a.y)) * hx +
      ((b.z - a.z) * (c.x - a.x) - (b.x - a.x) * (c.z - a.z)) * hy +
      ((b.x - a.x) * (c.y - a.y) - (b.y - a.y) * (c.x - a.x)) * hz

/-- The triangle test accepts with the parameter `d` exactly when the ray is not
parallel to the plane of the triangle, approaches the front side if `cull` is
set, and its point at `d` lies in the triangle. -/
theorem raytri_iff (a b c mo mray : vec) (cull : Bool) (d : ℚ) :
    raytri a b c mo mray cull = some d ↔
      facing a b c mray ≠ 0 ∧ (cull = true → 0 < facing a b c mray) ∧
      intriangle a b c (mo.add (mray.mul d)) := by
  constructor
  · intro h
    have hp := raytri_point a b c mo mray cull d h
    unfold raytri at h
    simp only at h
    split at h
    · exact absurd h (by simp)
    · rename_i hdet
      split at h
      · exact absurd h (by simp)
      · rename_i hcull
        refine ⟨hdet, ?_, hp⟩
        intro hc
        rcases lt_trichotomy ((b.sub a).dot (mray.cross (c.sub a))) 0 with hlt | heq | hgt
        · exact absurd ⟨hc, hlt⟩ hcull
        · exact absurd heq hdet
        · exact hgt
  · rintro ⟨hdet, hcull, u, v, hu, hv, huv, hpt⟩
    obtain ⟨cu, cv, cd⟩ := cramer a b c mo mray u v d hpt
    have hdet2 : (b.sub a).dot (mray.cross (c.sub a)) ≠ 0 := hdet
    have eu : (mo.sub a).dot (mray.cross (c.sub a)) / (b.sub a).dot (mray.cross (c.sub a)) = u := by
      rw [cu]
      exact mul_div_cancel_right₀ u hdet
    have ev : mray.dot ((mo.sub a).cross (b.sub a)) / (b.sub a).dot (mray.cross (c.sub a)) = v := by
      rw [cv]
      exact mul_div_cancel_right₀ v hdet
    have ed : (c.sub a).dot ((mo.sub a).cross (b.sub a)) / (b.sub a).dot (mray.cross (c.sub a))
        = d := by
      rw [cd]
      exact mul_div_cancel_right₀ d hdet
    unfold raytri
    simp only
    rw [if_neg hdet2, eu, ev, ed]
    have hc2 : ¬ (cull = true ∧ (b.sub a).dot (mray.cross (c.sub a)) < 0) := by
      rintro ⟨hc, hlt⟩
      exact absurd (hcull hc) (not_lt.2 (le_of_lt hlt))
    rw [if_neg hc2]
    have hb : ¬ (u < 0 ∨ 1 < u ∨ v < 0 ∨ 1 < v ∨ 1 < u + v) := by
      simp only [not_or, not_lt]
      exact ⟨hu, by linarith, hv, by linarith, huv⟩
    rw [if_neg hb]

/-- The image of a point of a triangle under a transform lies in the image of
the triangle. -/
theorem intriangle_transform (M : matrix4x3) (a b c p : vec) (h : intriangle a b c p) :
    intriangle (M.transform a) (M.transform b) (M.transform c) (M.transform p) := by
  obtain ⟨u, v, hu, hv, huv, hp⟩ := h
  refine ⟨u, v, hu, hv, huv, ?_⟩
  rw [hp, matrix4x3.transform_bary]
  simp only [vec.add, vec.mul, vec.sub, vec.mk.injEq]
  exact ⟨by ring, by ring, by ring⟩

/-- With the inverse transform of the mesh the inverse of its transform, the
triangle test on the ray taken into the space of the mesh accepts at `d`
exactly when the ray meets the placed triangle at `d`. -/
theorem trihit_iff_rayhits (m : mesh) (hw : m.wellplaced) (t : tri) (o ray : vec)
    (maxdist : ℚ) (mode : raymode) (d : ℚ) :
    trihit m t (m.invxform.transform o) (m.invxform.transformnormal ray) maxdist mode = some d
      ↔ m.rayhits t o ray maxdist mode d := by
  have hcullb : ((m.flags &&& Mesh_CullFace != 0) = true) ↔ m.flags &&& Mesh_CullFace ≠ 0 := by
    simp
  have hpt : intriangle (m.getpos t.vert0) (m.getpos t.vert1) (m.getpos t.vert2)
        ((m.invxform.transform o).add ((m.invxform.transformnormal ray).mul d)) ↔
      intriangle (m.placed t.vert0) (m.placed t.vert1) (m.placed t.vert2)
        (o.add (ray.mul d)) := by
    rw [← matrix4x3.transform_ray]
    constructor
    · intro h
      have := intriangle_transform m.xform _ _ _ _ h
      rw [hw.1] at this
      exact this
    · intro h
      have := intriangle_transform m.invxform _ _ _ _ h
      unfold mesh.placed at this
      rw [hw.2, hw.2, hw.2] at this
      exact this
  unfold mesh.rayhits
  rw [← hpt]
  constructor
  · intro h
    have hb := trihit_bounds _ _ _ _ _ _ _ h
    have hr := (raytri_iff _ _ _ _ _ _ _).1 (trihit_raytri _ _ _ _ _ _ _ h)
    have hm : modepasses mode m.flags = true := by
      unfold trihit at h
      split at h
      · assumption
      · exact absurd h (by simp)
    exact ⟨hm, hb.1, hb.2, hr.2.2, hr.1, fun hc => hr.2.1 (hcullb.2 hc)⟩
  · rintro ⟨hm, h0, h1, hin, hf, hc⟩
    have hr := (raytri_iff (m.getpos t.vert0) (m.getpos t.vert1) (m.getpos t.vert2)
      (m.invxform.transform o) (m.invxform.transformnormal ray)
      (m.flags &&& Mesh_CullFace != 0) d).2 ⟨hf, fun hcb => hc (hcullb.1 hcb), hin⟩
    unfold trihit
    rw [if_pos hm, hr]
    simp only
    rw [if_pos ⟨h0, h1⟩]

/-- With the inverse transforms in place, a built BIH is hit at `d` exactly when
the ray meets a placed triangle of one of its meshes at `d`. -/
theorem hitsat_iff_rayhits (ms : List mesh) (b : BIH) (hb : construct ms = Except.ok b)
    (hw : ∀ m ∈ ms, m.wellplaced) (o ray : vec) (maxdist : ℚ) (mode : raymode) (d : ℚ) :
    b.hitsat o ray maxdist mode d ↔
      ∃ m ∈ ms, ∃ t ∈ m.tris, m.rayhits t o ray maxdist mode d := by
  unfold hitsat
  rw [(construct_meshes ms b hb).1]
  constructor
  · rintro ⟨m2, hm2, t, ht, e⟩
    obtain ⟨m, hm, rfl⟩ := List.mem_map.1 hm2
    exact ⟨m, hm, t, ht, (trihit_iff_rayhits m (hw m hm) t o ray maxdist mode d).1 e⟩
  · rintro ⟨m, hm, t, ht, h⟩
    exact ⟨m.withbounds, List.mem_map_of_mem _ hm, t, ht,
      (trihit_iff_rayhits m (hw m hm) t o ray maxdist mode d).2 h⟩

end BIH

/-! ## Ray queries: claims -/

/-- C1: for the BIH built from the one mesh of the two triangles of the unit
square in the plane `z = 0`, whatever the flags of the mesh and the mode that
admits them, `traverse` with origin (0.5, 0.5, 5), direction (0, 0, -1) and
`maxdist` 10 returns true and writes `dist = 5`. -/
theorem traverse_unitsquare_scenario (flags : Nat) (mode : BIH.raymode) (dist : ℚ)
    (hpass : BIH.modepasses mode flags = true) :
    ∃ b : BIH, BIH.construct [BIH.unitsquare flags] = Except.ok b ∧
      b.traverse ⟨1 / 2, 1 / 2, 5⟩ ⟨0, 0, -1⟩ 10 dist mode = (true, 5) := by
  exact ⟨BIH.built [BIH.unitsquare flags], rfl, BIH.unitsquare_hit flags mode dist hpass⟩

theorem traverse_unitsquare_scenario_witness :
    BIH.modepasses ⟨false, true, true⟩ BIH.Mesh_Render = true ∧
    ∃ b : BIH, BIH.construct [BIH.unitsquare BIH.Mesh_Render] = Except.ok b ∧
      b.traverse ⟨1 / 2, 1 / 2, 5⟩ ⟨0, 0, -1⟩ 10 0 ⟨false, true, true⟩ = (true, 5) :=
  ⟨by decide, traverse_unitsquare_scenario BIH.Mesh_Render ⟨false, true, true⟩ 0 (by decide)⟩
/-- C2: for every built BIH whose meshes carry the inverse of their transform
and every ray that meets triangles of it, as placed in the world, at the
distances `d1` and `d2` (within `maxdist`) and meets no triangle at another
distance, a nearest-hit traversal of the node hierarchies that the builder
makes, with any threshold, depth and split positions, returns true with `dist
= min d1 d2`; the same meshes with their triangles given to the builder in any
other order also build, and the traversal of those hierarchies returns the
same. The test of every triangle without the hierarchy returns the same
too. -/
theorem traverse_nearest_wins (P P2 : BIH.buildparams) (ms ms2 : List BIH.mesh) (b : BIH)
    (hb : BIH.construct ms = Except.ok b)
    (hre : List.Forall₂ BIH.reordered ms ms2)
    (hw : ∀ m ∈ ms, m.wellplaced)
    (o ray : vec) (maxdist dist : ℚ) (mode : BIH.raymode) (hn : mode.nearest = true)
    (m1 m2 : BIH.mesh) (t1 t2 : BIH.tri) (d1 d2 : ℚ)
    (hm1 : m1 ∈ ms) (ht1 : t1 ∈ m1.tris) (h1 : m1.rayhits t1 o ray maxdist mode d1)
    (hm2 : m2 ∈ ms) (ht2 : t2 ∈ m2.tris) (h2 : m2.rayhits t2 o ray maxdist mode d2)
    (hno : ∀ m ∈ ms, ∀ t ∈ m.tris, ∀ d, m.rayhits t o ray maxdist mode d → d = d1 ∨ d = d2) :
    BIH.nodetraverse P b o ray maxdist dist mode = (true, min d1 d2) ∧
    b.traverse o ray maxdist dist mode = (true, min d1 d2) ∧
    ∃ b2 : BIH, BIH.construct ms2 = Except.ok b2 ∧
      BIH.nodetraverse P2 b2 o ray maxdist dist mode = (true, min d1 d2) ∧
      b2.traverse o ray maxdist dist mode = (true, min d1 d2) := by
  have hiff := BIH.hitsat_iff_rayhits ms b hb hw o ray maxdist mode
  have g1 : b.hitsat o ray maxdist mode d1 := (hiff d1).2 ⟨m1, hm1, t1, ht1, h1⟩
  have g2 : b.hitsat o ray maxdist mode d2 := (hiff d2).2 ⟨m2, hm2, t2, ht2, h2⟩
  have gno : ∀ d, b.hitsat o ray maxdist mode d → d = d1 ∨ d = d2 := by
    intro d hd
    obtain ⟨m, hm, t, ht, h⟩ := (hiff d).1 hd
    exact hno m hm t ht d h
  have e := BIH.traverse_nearest_of_hits b o ray maxdist dist mode hn d1 d2 g1 g2 gno
  obtain ⟨b2, hb2⟩ := BIH.construct_reordered ms ms2 hre ⟨b, hb⟩
  have hre2 := BIH.hitsat_reordered ms ms2 b b2 hb hb2 hre o ray maxdist mode
  have e2 := BIH.traverse_nearest_of_hits b2 o ray maxdist dist mode hn d1 d2
    ((hre2 d1).2 g1) ((hre2 d2).2 g2) (fun d hd => gno d ((hre2 d).1 hd))
  refine ⟨?_, e, b2, hb2, ?_, e2⟩
  · rw [BIH.nodetraverse_nearest P b o ray maxdist dist mode hn]
    exact e
  · rw [BIH.nodetraverse_nearest P2 b2 o ray maxdist dist mode hn]
    exact e2

theorem traverse_nearest_wins_witness :
    BIH.nodetraverse BIH.meansplit (BIH.built [BIH.twolayers [⟨0, 1, 2⟩, ⟨3, 4, 5⟩]])
        ⟨1 / 4, 1 / 4, 5⟩ ⟨0, 0, -1⟩ 10 0 ⟨false, true, true⟩ = (true, min 5 4) ∧
    BIH.nodetraverse BIH.midsplit (BIH.built [BIH.twolayers [⟨3, 4, 5⟩, ⟨0, 1, 2⟩]])
        ⟨1 / 4, 1 / 4, 5⟩ ⟨0, 0, -1⟩ 10 0 ⟨false, true, true⟩ = (true, min 5 4) := by
  have ho : matrix4x3.identity.transform ⟨1 / 4, 1 / 4, 5⟩ = ⟨1 / 4, 1 / 4, 5⟩ := by
    simp [matrix4x3.transform, matrix4x3.identity, vec.add, vec.mul]
  have hr : matrix4x3.identity.transformnormal ⟨0, 0, -1⟩ = ⟨0, 0, -1⟩ := by
    simp [matrix4x3.transformnormal, matrix4x3.identity, vec.add, vec.mul]
  have hwp : (BIH.twolayers [⟨0, 1, 2⟩, ⟨3, 4, 5⟩]).wellplaced := by
    constructor <;> intro p <;>
      simp [BIH.twolayers, matrix4x3.transform, matrix4x3.identity, vec.add, vec.mul]
  have e1 : BIH.trihit (BIH.twolayers [⟨0, 1, 2⟩, ⟨3, 4, 5⟩]) ⟨0, 1, 2⟩
      ⟨1 / 4, 1 / 4, 5⟩ ⟨0, 0, -1⟩ 10 ⟨false, true, true⟩ = some 5 := by
    have hp : BIH.modepasses ⟨false, true, true⟩ BIH.Mesh_Render = true := by decide
    simp [BIH.trihit, BIH.twolayers, BIH.mesh.getpos, hp, BIH.raytri,
      vec.sub, vec.cross, vec.dot]
    norm_num
  have e2 : BIH.trihit (BIH.twolayers [⟨0, 1, 2⟩, ⟨3, 4, 5⟩]) ⟨3, 4, 5⟩
      ⟨1 / 4, 1 / 4, 5⟩ ⟨0, 0, -1⟩ 10 ⟨false, true, true⟩ = some 4 := by
    have hp : BIH.modepasses ⟨false, true, true⟩ BIH.Mesh_Render = true := by decide
    simp [BIH.trihit, BIH.twolayers, BIH.mesh.getpos, hp, BIH.raytri,
      vec.sub, vec.cross, vec.dot]
    norm_num
  have hiff := fun t d => BIH.trihit_iff_rayhits (BIH.twolayers [⟨0, 1, 2⟩, ⟨3, 4, 5⟩]) hwp t
    ⟨1 / 4, 1 / 4, 5⟩ ⟨0, 0, -1⟩ 10 ⟨false, true, true⟩ d
  rw [show (BIH.twolayers [⟨0, 1, 2⟩, ⟨3, 4, 5⟩]).invxform = matrix4x3.identity from rfl,
    ho, hr] at hiff
  have hw := traverse_nearest_wins BIH.meansplit BIH.midsplit
    [BIH.twolayers [⟨0, 1, 2⟩, ⟨3, 4, 5⟩]] [BIH.twolayers [⟨3, 4, 5⟩, ⟨0, 1, 2⟩]]
    (BIH.built [BIH.twolayers [⟨0, 1, 2⟩, ⟨3, 4, 5⟩]]) rfl
    (List.Forall₂.cons ⟨rfl, List.Perm.swap _ _ _⟩ List.Forall₂.nil)
    (by
      intro m hm
      rw [List.mem_singleton.1 hm]
      exact hwp)
    ⟨1 / 4, 1 / 4, 5⟩ ⟨0, 0, -1⟩ 10 0 ⟨false, true, true⟩ rfl
    (BIH.twolayers [⟨0, 1, 2⟩, ⟨3, 4, 5⟩]) (BIH.twolayers [⟨0, 1, 2⟩, ⟨3, 4, 5⟩])
    ⟨0, 1, 2⟩ ⟨3, 4, 5⟩ 5 4
    (List.mem_cons_self _ _) (List.mem_cons_self _ _) ((hiff _ _).1 e1)
    (List.mem_cons_self _ _) (List.mem_cons_of_mem _ (List.mem_cons_self _ _))
    ((hiff _ _).1 e2)
    (by
      intro m hm t ht d hd
      rw [List.mem_singleton.1 hm] at ht hd
      have e := (hiff t d).2 hd
      have ht2 : t = ⟨0, 1, 2⟩ ∨ t = ⟨3, 4, 5⟩ := by
        simpa [BIH.twolayers] using ht
      rcases ht2 with rfl | rfl
      · rw [e1] at e
        injection e with e
        exact Or.inl e.symm
      · rw [e2] at e
        injection e with e
        exact Or.inr e.symm)
  obtain ⟨hw1, -, b2, hb2, hw2, -⟩ := hw
  rw [BIH.construct_built _ b2 hb2] at hw2
  exact ⟨hw1, hw2⟩


/-- C3: building a BIH from a mesh of exactly `maxtriangles` (16384) triangles
succeeds and publishes all of them; building from a mesh of `maxtriangles + 1`
triangles fails with the capacity error, and no BIH is published. -/
theorem construct_capacity (m : BIH.mesh) :
    BIH.mesh.maxtriangles = 16384 ∧
    (m.numtris = BIH.mesh.maxtriangles →
      ∃ b : BIH, BIH.construct [m] = Except.ok b ∧ b.numtris = BIH.mesh.maxtriangles ∧
        b.meshes.map BIH.mesh.tris = [m.tris]) ∧
    (m.numtris = BIH.mesh.maxtriangles + 1 →
      BIH.construct [m] = Except.error BIH.builderror.capacity ∧
      ∀ b : BIH, BIH.construct [m] ≠ Except.ok b) := by
  refine ⟨by decide, ?_, ?_⟩
  · intro h
    obtain ⟨b, hb⟩ := (BIH.construct_ok_iff [m]).2 (by
      intro m2 hm2
      rw [List.mem_singleton.1 hm2, h])
    refine ⟨b, hb, ?_, ?_⟩
    · rw [BIH.construct_built [m] b hb]
      simp only [BIH.built, List.map_cons, List.map_nil, List.sum_cons, List.sum_nil,
        Nat.add_zero]
      exact h
    · rw [BIH.construct_built [m] b hb]
      rfl
  · intro h
    have he := BIH.construct_error [m] m (List.mem_singleton_self m) (by omega)
    refine ⟨he, ?_⟩
    intro b hb
    rw [he] at hb
    exact absurd hb (by simp)

theorem construct_capacity_witness :
    (∃ b : BIH, BIH.construct [BIH.twolayers (List.replicate 16384 ⟨0, 1, 2⟩)] = Except.ok b ∧
      b.numtris = BIH.mesh.maxtriangles) ∧
    BIH.construct [BIH.twolayers (List.replicate 16385 ⟨0, 1, 2⟩)]
      = Except.error BIH.builderror.capacity := by
  have e1 : (BIH.twolayers (List.replicate 16384 ⟨0, 1, 2⟩)).numtris
      = BIH.mesh.maxtriangles := by
    show (List.replicate 16384 (BIH.tri.mk 0 1 2)).length = BIH.mesh.maxtriangles
    rw [List.length_replicate]
    rfl
  have e2 : (BIH.twolayers (List.replicate 16385 ⟨0, 1, 2⟩)).numtris
      = BIH.mesh.maxtriangles + 1 := by
    show (List.replicate 16385 (BIH.tri.mk 0 1 2)).length = BIH.mesh.maxtriangles + 1
    rw [List.length_replicate]
    rfl
  obtain ⟨b, hb, hn, -⟩ :=
    (construct_capacity (BIH.twolayers (List.replicate 16384 ⟨0, 1, 2⟩))).2.1 e1
  exact ⟨⟨b, hb, hn⟩,
    ((construct_capacity (BIH.twolayers (List.replicate 16385 ⟨0, 1, 2⟩))).2.2 e2).1⟩
/-! ## Packed node: claims -/

/-- C4: for every node and `which` in {0,1}, `childindex(which)` is the low 14
bits of `child[which]`, hence below `2^14`, and `2^14` is
`BIH::mesh::maxtriangles`: every index below the capacity is the `childindex` of
some 16-bit child field, and no index at or above the capacity is. -/
theorem childindex_low14_capacity (n : skelbih.node) (which : Nat) (_hw : which < 2) :
    n.childindex which = n.child which % 2 ^ 14 ∧
    n.childindex which < 2 ^ 14 ∧
    2 ^ 14 = BIH.mesh.maxtriangles ∧
    (∀ i, i < BIH.mesh.maxtriangles →
      ∃ n2 : skelbih.node, n2.valid ∧ n2.childindex which = i) ∧
    (∀ (n2 : skelbih.node) (i : Nat), BIH.mesh.maxtriangles ≤ i →
      n2.childindex which ≠ i) := by
  have hm : BIH.mesh.maxtriangles = 16384 := by decide
  refine ⟨?_, ?_, ?_, ?_, ?_⟩
  · unfold skelbih.node.childindex
    rw [and_3FFF_eq_mod]
    norm_num
  · unfold skelbih.node.childindex
    rw [and_3FFF_eq_mod]
    omega
  · rw [hm]; norm_num
  · intro i hi
    rw [hm] at hi
    refine ⟨⟨0, 0, i, i⟩, ?_, ?_⟩
    · simp only [skelbih.node.valid]
      omega
    · unfold skelbih.node.childindex skelbih.node.child
      rw [and_3FFF_eq_mod]
      split <;> simp only <;> omega
  · intro n2 i hi
    rw [hm] at hi
    unfold skelbih.node.childindex
    rw [and_3FFF_eq_mod]
    omega

theorem childindex_low14_capacity_witness :
    (1 : Nat) < 2 ∧
    (skelbih.node.mk 0 0 0 0xFFFF).childindex 1 = 0xFFFF % 2 ^ 14 ∧
    (skelbih.node.mk 0 0 0 0xFFFF).childindex 1 < 2 ^ 14 :=
  ⟨by decide,
   (childindex_low14_capacity (skelbih.node.mk 0 0 0 0xFFFF) 1 (by decide)).1,
   (childindex_low14_capacity (skelbih.node.mk 0 0 0 0xFFFF) 1 (by decide)).2.1⟩

/-- C5 fails as stated: the valid node with `child[0] = 0xC000` has
`axis() = 3`, which is none of 0, 1, 2. -/
theorem axis_three_counterexample :
    (skelbih.node.mk 0 0 0xC000 0).valid ∧
    (skelbih.node.mk 0 0 0xC000 0).axis = 3 ∧
    ¬ ((skelbih.node.mk 0 0 0xC000 0).axis = 0 ∨
       (skelbih.node.mk 0 0 0xC000 0).axis = 1 ∨
       (skelbih.node.mk 0 0 0xC000 0).axis = 2) := by
  decide

/-- C5 amended: for every node with 16-bit fields `axis()` is the top two bits
of `child[0]`, so it is at most 3, and it is 0, 1 or 2 exactly when
`child[0] < 0xC000`. -/
theorem axis_range (n : skelbih.node) (hv : n.valid) :
    n.axis = n.child0 / 2 ^ 14 ∧ n.axis ≤ 3 ∧
    ((n.axis = 0 ∨ n.axis = 1 ∨ n.axis = 2) ↔ n.child0 < 0xC000) := by
  obtain ⟨-, -, -, -, h0, -⟩ := hv
  have ha : n.axis = n.child0 / 16384 := by
    unfold skelbih.node.axis skelbih.node.child
    rw [shr14_eq_div]
    simp
  rw [ha]
  refine ⟨by norm_num, by omega, ?_⟩
  constructor
  · intro h; omega
  · intro h; omega

theorem axis_range_witness :
    (skelbih.node.mk 0 0 0x8005 0).valid ∧
    (skelbih.node.mk 0 0 0x8005 0).axis ≤ 3 ∧
    (((skelbih.node.mk 0 0 0x8005 0).axis = 0 ∨ (skelbih.node.mk 0 0 0x8005 0).axis = 1 ∨
      (skelbih.node.mk 0 0 0x8005 0).axis = 2) ↔ (0x8005 : Nat) < 0xC000) :=
  ⟨by decide, (axis_range (skelbih.node.mk 0 0 0x8005 0) (by decide)).2⟩

/-- C6: for every axis `a` in {0,1,2}, indices `i0`, `i1` below `2^14` and leaf
flags `l0`, `l1`, the node packed as `child[0] = (a<<14)|i0`,
`child[1] = (l0<<14)|(l1<<15)|i1` decodes to exactly these values, and the leaf
bit of either child shares no bit with the index mask. -/
theorem node_pack_roundtrip (s0 s1 : Int) (a i0 i1 : Nat) (l0 l1 : Bool)
    (ha : a ≤ 2) (h0 : i0 < 2 ^ 14) (h1 : i1 < 2 ^ 14) :
    (skelbih.node.pack s0 s1 a i0 l0 l1 i1).axis = a ∧
    (skelbih.node.pack s0 s1 a i0 l0 l1 i1).childindex 0 = i0 ∧
    (skelbih.node.pack s0 s1 a i0 l0 l1 i1).childindex 1 = i1 ∧
    (skelbih.node.pack s0 s1 a i0 l0 l1 i1).isleaf 0 = l0 ∧
    (skelbih.node.pack s0 s1 a i0 l0 l1 i1).isleaf 1 = l1 ∧
    (1 <<< (14 + 0)) &&& 0x3FFF = 0 ∧ (1 <<< (14 + 1)) &&& 0x3FFF = 0 := by
  have h0' : i0 < 16384 := by simpa using h0
  have h1' : i1 < 16384 := by simpa using h1
  have hl0 : l0.toNat ≤ 1 := Bool.toNat_le l0
  have hl1 : l1.toNat ≤ 1 := Bool.toNat_le l1
  have c0 : (skelbih.node.pack s0 s1 a i0 l0 l1 i1).child 0 = 16384 * a + i0 := by
    simp only [skelbih.node.pack, skelbih.node.child, toushort, if_true]
    rw [shl14_or a i0 h0']
    omega
  have c1 : (skelbih.node.pack s0 s1 a i0 l0 l1 i1).child 1
      = 16384 * l0.toNat + 32768 * l1.toNat + i1 := by
    simp only [skelbih.node.pack, skelbih.node.child, toushort]
    rw [pack_child1 l0 l1 i1 h1']
    simp
    omega
  refine ⟨?_, ?_, ?_, ?_, ?_, by decide, by decide⟩
  · unfold skelbih.node.axis
    rw [c0, shr14_eq_div]
    omega
  · unfold skelbih.node.childindex
    rw [c0, and_3FFF_eq_mod]
    omega
  · unfold skelbih.node.childindex
    rw [c1, and_3FFF_eq_mod]
    omega
  · unfold skelbih.node.isleaf
    rw [c1, and_bit_ne_zero]
    cases l0 <;> cases l1 <;> simp <;> omega
  · unfold skelbih.node.isleaf
    rw [c1, and_bit_ne_zero]
    cases l0 <;> cases l1 <;> simp <;> omega

theorem node_pack_roundtrip_witness :
    (2 : Nat) ≤ 2 ∧ (16383 : Nat) < 2 ^ 14 ∧ (5 : Nat) < 2 ^ 14 ∧
    (skelbih.node.pack (-3) 7 2 16383 true false 5).axis = 2 ∧
    (skelbih.node.pack (-3) 7 2 16383 true false 5).childindex 0 = 16383 ∧
    (skelbih.node.pack (-3) 7 2 16383 true false 5).childindex 1 = 5 ∧
    (skelbih.node.pack (-3) 7 2 16383 true false 5).isleaf 0 = true ∧
    (skelbih.node.pack (-3) 7 2 16383 true false 5).isleaf 1 = false :=
  ⟨by decide, by decide, by decide,
   (node_pack_roundtrip (-3) 7 2 16383 5 true false (by decide) (by decide) (by decide)).1,
   (node_pack_roundtrip (-3) 7 2 16383 5 true false (by decide) (by decide) (by decide)).2.1,
   (node_pack_roundtrip (-3) 7 2 16383 5 true false (by decide) (by decide) (by decide)).2.2.1,
   (node_pack_roundtrip (-3) 7 2 16383 5 true false (by decide) (by decide) (by decide)).2.2.2.1,
   (node_pack_roundtrip (-3) 7 2 16383 5 true false (by decide) (by decide)
     (by decide)).2.2.2.2.1⟩

/-- C7: for every built BIH, ray and mode that excludes no-clip geometry, no
triangle of a mesh whose flags contain `Mesh_NoClip` is taken as a hit by
`triintersect`, and the result of `traverse` is the result on the BIH built
from the meshes that are not no-clip. -/
theorem traverse_excludes_noclip (ms : List BIH.mesh) (b : BIH)
    (hb : BIH.construct ms = Except.ok b) (o ray : vec) (maxdist dist : ℚ)
    (mode : BIH.raymode) (hs : mode.skipnoclip = true) :
    (∀ m ∈ b.meshes, m.flags &&& BIH.Mesh_NoClip ≠ 0 →
      ∀ (tidx : Nat) (mo mray : vec) (cur : Bool × ℚ),
        BIH.triintersect m tidx mo mray maxdist cur mode = cur) ∧
    ∃ b2 : BIH,
      BIH.construct (ms.filter (fun m => m.flags &&& BIH.Mesh_NoClip == 0)) = Except.ok b2 ∧
      b.traverse o ray maxdist dist mode = b2.traverse o ray maxdist dist mode := by
  constructor
  · intro m _ hf tidx mo mray cur
    rw [BIH.triintersect_eq]
    cases m.tris.get? tidx with
    | none => rfl
    | some t =>
      show BIH.closer cur (BIH.trihit m t mo mray maxdist mode) = cur
      rw [BIH.trihit_noclip m t mo mray maxdist mode hs hf]
      rfl
  · obtain ⟨b2, hb2⟩ :=
      (BIH.construct_ok_iff (ms.filter (fun m => m.flags &&& BIH.Mesh_NoClip == 0))).2
        (fun m hm => (BIH.construct_ok_iff ms).1 ⟨b, hb⟩ m (List.mem_filter.1 hm).1)
    refine ⟨b2, hb2, ?_⟩
    rw [BIH.traverse_eq, BIH.traverse_eq, (BIH.construct_meshes _ b hb).1,
      (BIH.construct_meshes _ b2 hb2).1, BIH.hitlist_withbounds, BIH.hitlist_withbounds,
      BIH.foldl_hitlist_filter mode hs]

theorem traverse_excludes_noclip_witness :
    (BIH.built [BIH.unitsquare (BIH.Mesh_Render ||| BIH.Mesh_NoClip)]).traverse
        ⟨1 / 2, 1 / 2, 5⟩ ⟨0, 0, -1⟩ 10 0 ⟨false, false, true⟩ = (true, 5) ∧
    (BIH.built [BIH.unitsquare (BIH.Mesh_Render ||| BIH.Mesh_NoClip)]).traverse
        ⟨1 / 2, 1 / 2, 5⟩ ⟨0, 0, -1⟩ 10 0 ⟨false, true, true⟩ = (false, 0) := by
  have hb0 : BIH.construct [BIH.unitsquare (BIH.Mesh_Render ||| BIH.Mesh_NoClip)]
      = Except.ok (BIH.built [BIH.unitsquare (BIH.Mesh_Render ||| BIH.Mesh_NoClip)]) := rfl
  refine ⟨BIH.unitsquare_hit _ _ _ (by decide), ?_⟩
  obtain ⟨-, b2, hb2, e⟩ := traverse_excludes_noclip
    [BIH.unitsquare (BIH.Mesh_Render ||| BIH.Mesh_NoClip)] _ hb0
    ⟨1 / 2, 1 / 2, 5⟩ ⟨0, 0, -1⟩ 10 0 ⟨false, true, true⟩ rfl
  rw [e, BIH.construct_built _ b2 hb2]
  rfl

/-- C8: for every built BIH whose meshes carry the inverse of their transform,
a ray whose origin lies outside the bounding box of the BIH and whose direction
points away from the box (on some axis the origin is beyond a face and the
direction does not lead back), or more generally a ray none of whose points
lies in the box, makes `traverse` return false, leaving `dist` as it was. -/
theorem traverse_outside_no_hit (ms : List BIH.mesh) (b : BIH)
    (hb : BIH.construct ms = Except.ok b)
    (hinv : ∀ m ∈ ms, ∀ p, m.xform.transform (m.invxform.transform p) = p)
    (o ray : vec) (maxdist dist : ℚ) (mode : BIH.raymode)
    (hout : b.pointsaway o ray ∨ ∀ t : ℚ, 0 ≤ t → ¬ b.inbounds (o.add (ray.mul t))) :
    b.traverse o ray maxdist dist mode = (false, dist) := by
  have hout2 : ∀ t : ℚ, 0 ≤ t → ¬ b.inbounds (o.add (ray.mul t)) := by
    rcases hout with h | h
    · exact BIH.outside_of_pointsaway b o ray h
    · exact h
  apply BIH.traverse_no_hits
  rintro d ⟨m2, hm2, t, ht, e⟩
  rw [(BIH.construct_meshes ms b hb).1] at hm2
  obtain ⟨m, hm, rfl⟩ := List.mem_map.1 hm2
  have hd := BIH.trihit_bounds _ _ _ _ _ _ _ e
  have hin := BIH.trihit_inbounds ms m hm t ht (hinv m hm) o ray maxdist mode d e
  rw [← BIH.construct_built ms b hb] at hin
  exact hout2 d (le_of_lt hd.1) hin

theorem traverse_outside_no_hit_witness :
    (BIH.built [BIH.unitsquare BIH.Mesh_Render]).traverse ⟨1 / 2, 1 / 2, 5⟩ ⟨0, 0, 1⟩ 10 7
      ⟨false, true, true⟩ = (false, 7) :=
  traverse_outside_no_hit [BIH.unitsquare BIH.Mesh_Render]
    (BIH.built [BIH.unitsquare BIH.Mesh_Render]) rfl
    (by
      intro m hm p
      rw [List.mem_singleton.1 hm]
      simp [BIH.unitsquare, matrix4x3.transform, matrix4x3.identity, vec.add, vec.mul])
    ⟨1 / 2, 1 / 2, 5⟩ ⟨0, 0, 1⟩ 10 7 ⟨false, true, true⟩
    (Or.inl (by
      have hz : (BIH.built [BIH.unitsquare BIH.Mesh_Render]).bbmax.z = 0 := by
        norm_num [BIH.built, BIH.unitsquare, BIH.mesh.withbounds, BIH.mesh.calcbounds,
          BIH.mesh.placed, BIH.mesh.getpos, BIH.addvert, BIH.emptybounds, vec.max, vec.min,
          matrix4x3.transform, matrix4x3.identity, vec.add, vec.mul]
      unfold BIH.pointsaway
      rw [hz]
      norm_num))

/-- C9: a BIH built from an empty mesh list, or from meshes without triangles,
is constructed without error, and `traverse` on it returns false for every
origin, direction, `maxdist` and mode, leaving `dist` as it was. -/
theorem traverse_empty (ms : List BIH.mesh) (hempty : ∀ m ∈ ms, m.tris = []) :
    ∃ b : BIH, BIH.construct ms = Except.ok b ∧
      ∀ (o ray : vec) (maxdist dist : ℚ) (mode : BIH.raymode),
        b.traverse o ray maxdist dist mode = (false, dist) := by
  obtain ⟨b, hb⟩ := (BIH.construct_ok_iff ms).2 (by
    intro m hm
    unfold BIH.mesh.numtris
    rw [hempty m hm]
    exact Nat.zero_le _)
  refine ⟨b, hb, ?_⟩
  intro o ray maxdist dist mode
  rw [BIH.traverse_eq, (BIH.construct_meshes ms b hb).1, BIH.hitlist_withbounds]
  split
  · rfl
  · apply BIH.foldl_step_none
    intro h hh
    cases h with
    | none => rfl
    | some d =>
      obtain ⟨m, hm, t, ht, -⟩ := (BIH.mem_hitlist ms o ray maxdist mode d).1 hh
      rw [hempty m hm] at ht
      exact absurd ht (List.not_mem_nil _)

theorem traverse_empty_witness :
    (∃ b : BIH, BIH.construct [] = Except.ok b ∧
      ∀ (o ray : vec) (maxdist dist : ℚ) (mode : BIH.raymode),
        b.traverse o ray maxdist dist mode = (false, dist)) ∧
    (∃ b : BIH, BIH.construct [BIH.twolayers [], BIH.twolayers []] = Except.ok b ∧
      ∀ (o ray : vec) (maxdist dist : ℚ) (mode : BIH.raymode),
        b.traverse o ray maxdist dist mode = (false, dist)) :=
  ⟨traverse_empty [] (fun _ h => absurd h (List.not_mem_nil _)),
   traverse_empty [BIH.twolayers [], BIH.twolayers []] (by
     intro m hm
     simp only [List.mem_cons, List.mem_singleton, List.not_mem_nil, or_false, or_self] at hm
     rw [hm]
     rfl)⟩

/-- C10: for every BIH, origin, direction and mode, `traverse` called with a
negative `maxdist` returns false and leaves `dist` unchanged; no triangle test
accepts a hit under a negative `maxdist`. -/
theorem traverse_negative_maxdist (b : BIH) (o ray : vec) (maxdist dist : ℚ)
    (mode : BIH.raymode) (hneg : maxdist < 0) :
    b.traverse o ray maxdist dist mode = (false, dist) ∧
    ∀ (m : BIH.mesh) (tidx : Nat) (mo mray : vec) (cur : Bool × ℚ),
      BIH.triintersect m tidx mo mray maxdist cur mode = cur := by
  constructor
  · unfold BIH.traverse
    rw [if_pos hneg]
  · intro m tidx mo mray cur
    rw [BIH.triintersect_eq]
    cases m.tris.get? tidx with
    | none => rfl
    | some t =>
      show BIH.closer cur (BIH.trihit m t mo mray maxdist mode) = cur
      rw [BIH.trihit_negative m t mo mray maxdist mode hneg]
      rfl

theorem traverse_negative_maxdist_witness :
    ((-1 : ℚ) < 0) ∧
    (BIH.built [BIH.unitsquare BIH.Mesh_Render]).traverse ⟨1 / 2, 1 / 2, 5⟩ ⟨0, 0, -1⟩ (-1) 7
      ⟨false, true, true⟩ = (false, 7) :=
  ⟨by norm_num,
   (traverse_negative_maxdist (BIH.built [BIH.unitsquare BIH.Mesh_Render])
     ⟨1 / 2, 1 / 2, 5⟩ ⟨0, 0, -1⟩ (-1) 7 ⟨false, true, true⟩ (by norm_num)).1⟩

/-! ## Mesh flags: lemmas -/

namespace BIH

theorem orflags_foldl (s : List Nat) :
    ∀ f : Nat, s.foldl (fun f x => f ||| x) f = f ||| orflags s := by
  induction s with
  | nil => intro f; simp [orflags]
  | cons x s ih =>
    intro f
    unfold orflags
    rw [List.foldl_cons, List.foldl_cons, ih, ih (0 ||| x), Nat.zero_or, Nat.or_assoc]

theorem orflags_cons (x : Nat) (s : List Nat) : orflags (x :: s) = x ||| orflags s := by
  unfold orflags
  rw [List.foldl_cons, orflags_foldl, Nat.zero_or]
  rfl

theorem meshflags_and (G F : Nat) (hG : G ∈ meshflags) (hF : F ∈ meshflags) :
    G &&& F ≠ 0 ↔ G = F := by
  simp only [meshflags, List.mem_cons, List.mem_singleton, List.not_mem_nil, or_false] at hG hF
  rcases hG with rfl | rfl | rfl | rfl | rfl <;> rcases hF with rfl | rfl | rfl | rfl | rfl <;>
    decide

theorem or_eq_zero (a b : Nat) (h : a ||| b = 0) : a = 0 ∧ b = 0 := by
  have ht : ∀ i, (a.testBit i || b.testBit i) = false := by
    intro i
    rw [← Nat.testBit_or, h]
    exact Nat.zero_testBit i
  constructor
  · apply Nat.eq_of_testBit_eq
    intro i
    have := ht i
    rw [Bool.or_eq_false_iff] at this
    rw [this.1, Nat.zero_testBit]
  · apply Nat.eq_of_testBit_eq
    intro i
    have := ht i
    rw [Bool.or_eq_false_iff] at this
    rw [this.2, Nat.zero_testBit]

theorem or_and_ne_zero (a b c : Nat) : (a ||| b) &&& c ≠ 0 ↔ a &&& c ≠ 0 ∨ b &&& c ≠ 0 := by
  rw [Nat.and_distrib_right]
  constructor
  · intro h
    by_contra hn
    rw [not_or, not_not, not_not] at hn
    rw [hn.1, hn.2] at h
    exact h rfl
  · intro h hz
    have h0 := or_eq_zero _ _ hz
    rcases h with h | h
    · exact h h0.1
    · exact h h0.2

theorem orflags_and (s : List Nat) (hs : ∀ x ∈ s, x ∈ meshflags) (F : Nat)
    (hF : F ∈ meshflags) : orflags s &&& F ≠ 0 ↔ F ∈ s := by
  induction s with
  | nil => simp [orflags]
  | cons x s ih =>
    rw [orflags_cons, or_and_ne_zero, ih (fun y hy => hs y (List.mem_cons_of_mem _ hy)),
      meshflags_and x F (hs x (List.mem_cons_self _ _)) hF, List.mem_cons]
    constructor
    · rintro (h | h)
      · exact Or.inl h.symm
      · exact Or.inr h
    · rintro (h | h)
      · exact Or.inl h.symm
      · exact Or.inr h

end BIH


/-- C12: the five mesh flags are pairwise distinct single-bit values, and for
every subset of them OR-ed into `f` and every flag `F` of the five,
`(f & F) != 0` holds exactly when `F` is in the subset. -/
theorem meshflags_bitset (s : List Nat) (hs : ∀ x ∈ s, x ∈ BIH.meshflags) (F : Nat)
    (hF : F ∈ BIH.meshflags) :
    BIH.meshflags.Nodup ∧
    (∀ G ∈ BIH.meshflags, ∃ k : Nat, G = 2 ^ k) ∧
    ((BIH.orflags s &&& F != 0) = true ↔ F ∈ s) := by
  refine ⟨by decide, ?_, ?_⟩
  · intro G hG
    simp only [BIH.meshflags, List.mem_cons, List.mem_singleton, List.not_mem_nil,
      or_false] at hG
    rcases hG with rfl | rfl | rfl | rfl | rfl
    · exact ⟨1, by decide⟩
    · exact ⟨2, by decide⟩
    · exact ⟨3, by decide⟩
    · exact ⟨4, by decide⟩
    · exact ⟨5, by decide⟩
  · rw [bne_iff_ne]
    exact BIH.orflags_and s hs F hF

theorem meshflags_bitset_witness :
    ((BIH.orflags [BIH.Mesh_Render, BIH.Mesh_Collide] &&& BIH.Mesh_Collide != 0) = true ↔
      BIH.Mesh_Collide ∈ [BIH.Mesh_Render, BIH.Mesh_Collide]) ∧
    ((BIH.orflags [BIH.Mesh_Render, BIH.Mesh_Collide] &&& BIH.Mesh_NoClip != 0) = true ↔
      BIH.Mesh_NoClip ∈ [BIH.Mesh_Render, BIH.Mesh_Collide]) :=
  ⟨(meshflags_bitset [BIH.Mesh_Render, BIH.Mesh_Collide] (by decide) BIH.Mesh_Collide
      (by decide)).2.2,
   (meshflags_bitset [BIH.Mesh_Render, BIH.Mesh_Collide] (by decide) BIH.Mesh_NoClip
      (by decide)).2.2⟩
/-! ## Bounds of a hit zone: lemmas -/

namespace skelzonebounds

end skelzonebounds

theorem loadmodelfinish_spec (st : rmstate) (m : model) (i : Int) :
    (loadmodelfinish st m i).2 = some m ∧
    (loadmodelfinish st m i).1.models = st.models ∧
    (loadmodelfinish st m i).1.loadingmodel = st.loadingmodel ∧
    (loadmodelfinish st m i).1.failedmodels = st.failedmodels := by
  unfold loadmodelfinish
  split
  · split
    · split
      · exact ⟨rfl, rfl, rfl, rfl⟩
      · exact ⟨rfl, rfl, rfl, rfl⟩
    · exact ⟨rfl, rfl, rfl, rfl⟩
  · exact ⟨rfl, rfl, rfl, rfl⟩

theorem any_name_false (ms : List model) (name : String)
    (h : ms.find? (fun m => m.name == name) = none) :
    ms.any (fun m2 => m2.name == name) = false := by
  rw [List.find?_eq_none] at h
  rw [Bool.eq_false_iff]
  intro hany
  obtain ⟨x, hx, hp⟩ := List.any_eq_true.1 hany
  exact h x hx hp

/-- The result of `loadmodel` for an unregistered name when the loop over the
loaders ends with model `m`, named `name`. -/
theorem loadnamed_loaded (load : loaderkind → String → Option model) (st : rmstate)
    (name : String) (i : Int) (hne : name ≠ "")
    (hreg : st.models.find? (fun m => m.name == name) = none)
    (hfail : name ∉ st.failedmodels) (hload : st.loadingmodel = none) (m : model)
    (hm : tryloaders load name [loaderkind.md5, loaderkind.obj] = some m)
    (hname : m.name = name) :
    (loadnamed load st name i).2 = some m ∧
    (loadnamed load st name i).1.models = st.models ++ [m] ∧
    (loadnamed load st name i).1.loadingmodel = none := by
  unfold loadnamed
  rw [hreg]
  have hc : ¬ (name = "" ∨ st.loadingmodel.isSome = true ∨ name ∈ st.failedmodels) := by
    rw [hload]
    simp [hne, hfail]
  simp only [if_neg hc, hm, hname, any_name_false st.models name hreg]
  have h := loadmodelfinish_spec
    { st with loadingmodel := none, models := st.models ++ [m] } m i
  exact ⟨h.1, by simpa using h.2.1, h.2.2.1⟩

/-- C14: for a name that is non-empty, not registered in `models`, not in
`failedmodels`, with no load in progress, and loaders whose models carry the
name they were made with: when the `md5` loader's `load()` succeeds `loadmodel`
returns its model whatever the `obj` loader would do; when it fails and the
`obj` loader's `load()` succeeds `loadmodel` returns the `obj` model; in both
cases the model is registered in `models` under the name and `loadingmodel` is
null on return. -/
theorem loadmodel_md5_then_obj (load : loaderkind → String → Option model) (st : rmstate)
    (name : String) (i : Int) (hne : name ≠ "")
    (hreg : st.models.find? (fun m => m.name == name) = none)
    (hfail : name ∉ st.failedmodels) (hload : st.loadingmodel = none)
    (hname : ∀ k m, load k name = some m → m.name = name) :
    (∀ m, load loaderkind.md5 name = some m →
      ∃ st2, loadmodel load st (some name) i = Except.ok (st2, some m) ∧
        st2.models.find? (fun m2 => m2.name == name) = some m ∧ st2.loadingmodel = none) ∧
    (load loaderkind.md5 name = none → ∀ m, load loaderkind.obj name = some m →
      ∃ st2, loadmodel load st (some name) i = Except.ok (st2, some m) ∧
        st2.models.find? (fun m2 => m2.name == name) = some m ∧ st2.loadingmodel = none) := by
  have key : ∀ m, tryloaders load name [loaderkind.md5, loaderkind.obj] = some m →
      m.name = name →
      ∃ st2, loadmodel load st (some name) i = Except.ok (st2, some m) ∧
        st2.models.find? (fun m2 => m2.name == name) = some m ∧ st2.loadingmodel = none := by
    intro m hm hn
    obtain ⟨h1, h2, h3⟩ := loadnamed_loaded load st name i hne hreg hfail hload m hm hn
    refine ⟨(loadnamed load st name i).1, ?_, ?_, h3⟩
    · unfold loadmodel
      rw [← h1]
    · rw [h2, List.find?_append, hreg]
      simp [hn]
  constructor
  · intro m hm
    exact key m (by simp [tryloaders, hm]) (hname _ m hm)
  · intro hmd5 m hm
    exact key m (by simp [tryloaders, hmd5, hm]) (hname _ m hm)

theorem loadmodel_md5_then_obj_witness :
    ∃ st2, loadmodel objonly ⟨none, [], [], [], []⟩ (some "tree") (-1)
          = Except.ok (st2, some ⟨"tree", loaderkind.obj, 1, 0, 0, none⟩) ∧
      st2.models.find? (fun m2 => m2.name == "tree")
        = some ⟨"tree", loaderkind.obj, 1, 0, 0, none⟩ ∧
      st2.loadingmodel = none :=
  (loadmodel_md5_then_obj objonly ⟨none, [], [], [], []⟩ "tree" (-1) (by decide) rfl
    (by simp) rfl
    (by
      intro k m h
      unfold objonly at h
      split at h
      · injection h with h
        rw [← h]
      · exact absurd h (by simp))).2 rfl ⟨"tree", loaderkind.obj, 1, 0, 0, none⟩ rfl

/-- C15 fails as stated: `percent = 1e-44f`, the subnormal `float`
`7 * 2^-149`, is greater than 0, and the quotient `percent/100.0f` underflows to
0: after `mdlscale` the scale of the model being loaded is 0, which is not
strictly positive. -/
theorem mdlscale_underflow_counterexample :
    f32.isfloat (f32.fin (7 * (2 : ℚ) ^ (-149 : ℤ))) ∧
    f32.lt (f32.fin 0) (f32.fin (7 * (2 : ℚ) ^ (-149 : ℤ))) = true ∧
    mdlscale ⟨some ⟨"tree", loaderkind.obj, 1, 0, 0, none⟩, [], [], [], []⟩
        (f32.fin (7 * (2 : ℚ) ^ (-149 : ℤ)))
      = Except.ok ⟨some ⟨"tree", loaderkind.obj, f32.fin 0, 0, 0, none⟩, [], [], [], []⟩ ∧
    f32.lt (f32.fin 0) (f32.fin 0) = false := by
  have hlt : f32.lt (f32.fin 0) (f32.fin (7 * (2 : ℚ) ^ (-149 : ℤ))) = true := by
    rw [f32.lt_zero_fin, decide_eq_true_eq]
    positivity
  have hd : f32.div (f32.fin (7 * (2 : ℚ) ^ (-149 : ℤ))) (f32.fin 100) = f32.fin 0 := by
    rw [f32.div_fin _ _ (by positivity) (by norm_num)]
    exact f32.round_underflow _ (by positivity) (by norm_num)
  refine ⟨?_, hlt, ?_, ?_⟩
  · have ha : |7 * (2 : ℚ) ^ (-149 : ℤ)| = 7 * (2 : ℚ) ^ (-149 : ℤ) :=
      abs_of_pos (by positivity)
    exact f32.round_eq_small (7 * (2 : ℚ) ^ (-149 : ℤ)) (7 * (2 : ℚ) ^ (-149 : ℤ)) 7
      (by positivity) (by rw [ha]; norm_num) (by norm_num [f32.rne]) (by norm_num)
      (by rw [ha]; norm_num) (by positivity)
  · unfold mdlscale checkmdl
    simp only [hlt, hd, if_true]
  · rw [f32.lt_zero_fin, decide_eq_false_iff_not]
    exact lt_irrefl _

/-- C15 amended: while a model is being loaded, `mdlscale` assigns it the
`float` quotient `percent/100.0f` for every `percent > 0` and the scale 1 for
every other `percent` (`percent <= 0` or a NaN), and changes nothing else. For
`percent > 0` the scale is afterwards neither a NaN nor negative; it is
strictly positive when `percent` is infinite or `percent/100` is above `2^-150`
(half the least positive `float`), and it is 0 when `percent/100` is at most
`2^-150`. -/
theorem mdlscale_assigns (st : rmstate) (m : model) (percent : f32)
    (hl : st.loadingmodel = some m) :
    ∃ s : f32, mdlscale st percent
        = Except.ok { st with loadingmodel := some { m with scale := s } } ∧
      (f32.lt (f32.fin 0) percent = true →
        s = f32.div percent (f32.fin 100) ∧ s ≠ f32.nan ∧ f32.isneg s = false ∧
        (percent = f32.inf false ∨ (2 : ℚ) ^ (-150 : ℤ) < percent.toRat / 100 →
          f32.lt (f32.fin 0) s = true) ∧
        (percent ≠ f32.inf false → percent.toRat / 100 ≤ (2 : ℚ) ^ (-150 : ℤ) →
          s = f32.fin 0)) ∧
      (f32.lt (f32.fin 0) percent = false → s = f32.fin 1) := by
  refine ⟨if f32.lt (f32.fin 0) percent = true then f32.div percent (f32.fin 100)
    else f32.fin 1, ?_, ?_, ?_⟩
  · unfold mdlscale checkmdl
    simp only [hl]
  · intro h
    rw [if_pos h]
    refine ⟨rfl, ?_⟩
    rcases f32.div_hundred percent h with ⟨hp, hd⟩ | ⟨v, hv, hp, hd⟩
    · rw [hd]
      exact ⟨by simp, rfl, fun _ => rfl, fun hne => absurd hp hne⟩
    · rw [hd, hp]
      have hq : 0 < v / 100 := div_pos hv (by norm_num)
      refine ⟨?_, ?_, ?_, ?_⟩
      · rcases f32.round_nonneg _ hq with e | ⟨r, _, e⟩ <;> rw [e] <;> simp
      · rcases f32.round_nonneg _ hq with e | ⟨r, hr, e⟩ <;> rw [e]
        · rfl
        · exact decide_eq_false (not_lt.2 hr)
      · intro hc
        rcases hc with hc | hc
        · exact absurd hc (by simp)
        · have hc2 : (2 : ℚ) ^ (-150 : ℤ) < v / 100 := hc
          rcases f32.round_pos _ hc2 with e | ⟨r, hr, e⟩ <;> rw [e]
          · rfl
          · exact decide_eq_true hr
      · intro _ hc
        have hc2 : v / 100 ≤ (2 : ℚ) ^ (-150 : ℤ) := hc
        exact f32.round_underflow _ hq hc2
  · intro h
    rw [if_neg (by simp [h])]

theorem mdlscale_assigns_witness :
    ∃ s : f32, mdlscale ⟨some ⟨"tree", loaderkind.obj, 1, 0, 0, none⟩, [], [], [], []⟩
          (f32.fin 250)
        = Except.ok ⟨some ⟨"tree", loaderkind.obj, s, 0, 0, none⟩, [], [], [], []⟩ ∧
      (f32.lt (f32.fin 0) (f32.fin 250) = true →
        s = f32.div (f32.fin 250) (f32.fin 100) ∧ s ≠ f32.nan ∧ f32.isneg s = false ∧
        (f32.fin 250 = f32.inf false ∨
            (2 : ℚ) ^ (-150 : ℤ) < (f32.fin 250).toRat / 100 →
          f32.lt (f32.fin 0) s = true) ∧
        (f32.fin 250 ≠ f32.inf false → (f32.fin 250).toRat / 100 ≤ (2 : ℚ) ^ (-150 : ℤ) →
          s = f32.fin 0)) ∧
      (f32.lt (f32.fin 0) (f32.fin 250) = false → s = f32.fin 1) :=
  mdlscale_assigns ⟨some ⟨"tree", loaderkind.obj, 1, 0, 0, none⟩, [], [], [], []⟩
    ⟨"tree", loaderkind.obj, 1, 0, 0, none⟩ (f32.fin 250) rfl

/-! ## The distance test of `cullmodel`: sample quotients -/

theorem ofInt_200 : f32.ofInt 200 = f32.fin 200 := by
  show f32.round ((200 : ℤ) : ℚ) = _
  apply f32.round_eq _ 200 7 13107200 <;> norm_num [f32.rne]

/-- `1000 / 4` is `250`, above `200`. -/
theorem quotient_250 :
    f32.lt (f32.ofInt 200) (f32.div (f32.fin 1000) (f32.fin 4)) = true := by
  have h : f32.round (1000 / 4) = f32.fin 250 := by
    apply f32.round_eq _ 250 7 16384000 <;> norm_num [f32.rne]
  rw [ofInt_200, f32.div_fin _ _ (by norm_num) (by norm_num), h, f32.lt_fin,
    decide_eq_true_eq]
  norm_num

/-- `1000 / 5` is `200`, not above `200`. -/
theorem quotient_200 :
    f32.lt (f32.ofInt 200) (f32.div (f32.fin 1000) (f32.fin 5)) = false := by
  have h : f32.round (1000 / 5) = f32.fin 200 := by
    apply f32.round_eq _ 200 7 13107200 <;> norm_num [f32.rne]
  rw [ofInt_200, f32.div_fin _ _ (by norm_num) (by norm_num), h, f32.lt_fin,
    decide_eq_false_iff_not]
  norm_num

/-- A positive distance over the radius 0 is the positive infinity, above
`200`. -/
theorem quotient_inf :
    f32.lt (f32.ofInt 200) (f32.div (f32.fin 5) (f32.fin 0)) = true := by
  rw [ofInt_200, f32.div_fin_zero 5 (by norm_num)]
  rfl

/-- The distance `200 + 2^-15` and the radius `1 + 2^-23` are values of the
format whose exact quotient is above `200` and rounds to `200`. -/
theorem quotient_rounds :
    f32.isfloat (f32.fin (6553601 / 32768)) ∧ f32.isfloat (f32.fin (8388609 / 8388608)) ∧
    (200 : ℚ) < (6553601 / 32768) / (8388609 / 8388608) ∧
    f32.lt (f32.ofInt 200)
      (f32.div (f32.fin (6553601 / 32768)) (f32.fin (8388609 / 8388608))) = false := by
  have h : f32.round ((6553601 / 32768) / (8388609 / 8388608)) = f32.fin 200 := by
    apply f32.round_eq_pos _ 200 7 13107200 <;> norm_num [f32.rne]
  refine ⟨?_, ?_, by norm_num, ?_⟩
  · apply f32.round_eq_pos _ _ 7 13107202 <;> norm_num [f32.rne]
  · apply f32.round_eq_pos _ _ 0 8388609 <;> norm_num [f32.rne]
  · rw [ofInt_200, f32.div_fin _ _ (by norm_num) (by norm_num), h, f32.lt_fin,
      decide_eq_false_iff_not]
    norm_num

/-- C16: with `Model_CullDist` a non-zero value distinct from the other three
cull results, `cullmodel` returns `Model_CullDist` exactly when `flags` contains
`Model_CullDist` and the `float` quotient of the distance of the center to the
camera by the radius is greater than `maxmodelradiusdistance`; when that holds
the result is `Model_CullDist` whatever the view-frustum, occlusion and query
tests say. -/
theorem cullmodel_dist (K : modelconsts)
    (hK : K.Model_CullDist ≠ 0 ∧ K.Model_CullDist ≠ K.Model_CullVFC ∧
      K.Model_CullDist ≠ K.Model_CullOccluded ∧ K.Model_CullDist ≠ K.Model_CullQuery)
    (maxmodelradiusdistance : Int) (dist radius : f32) (flags : Nat)
    (fogged occluded : Bool) (d : Option Bool) :
    (cullmodel K maxmodelradiusdistance dist radius flags fogged occluded d
        = Except.ok K.Model_CullDist ↔
      (flags &&& K.Model_CullDist ≠ 0 ∧
        f32.lt (f32.ofInt maxmodelradiusdistance) (f32.div dist radius) = true)) ∧
    ((flags &&& K.Model_CullDist ≠ 0 ∧
        f32.lt (f32.ofInt maxmodelradiusdistance) (f32.div dist radius) = true) →
      ∀ (fogged2 occluded2 : Bool) (d2 : Option Bool),
        cullmodel K maxmodelradiusdistance dist radius flags fogged2 occluded2 d2
          = Except.ok K.Model_CullDist) := by
  obtain ⟨h0, h1, h2, h3⟩ := hK
  constructor
  · constructor
    · intro h
      by_contra hc
      unfold cullmodel at h
      rw [if_neg hc] at h
      split at h
      · injection h with h
        exact h1 h.symm
      · split at h
        · injection h with h
          exact h2 h.symm
        · split at h
          · split at h
            · exact absurd h (by simp)
            · split at h
              · injection h with h
                exact h3 h.symm
              · injection h with h
                exact h0 h.symm
          · injection h with h
            exact h0 h.symm
    · intro hc
      unfold cullmodel
      rw [if_pos hc]
  · intro hc fogged2 occluded2 d2
    unfold cullmodel
    rw [if_pos hc]

theorem cullmodel_dist_witness :
    cullmodel bitconsts 200 (f32.fin 1000) (f32.fin 4) 2 true true none
      = Except.ok bitconsts.Model_CullDist ∧
    cullmodel bitconsts 200 (f32.fin 1000) (f32.fin 5) 2 true true none
      ≠ Except.ok bitconsts.Model_CullDist ∧
    cullmodel bitconsts 200 (f32.fin 5) (f32.fin 0) 2 true true none
      = Except.ok bitconsts.Model_CullDist ∧
    cullmodel bitconsts 200 (f32.fin (6553601 / 32768)) (f32.fin (8388609 / 8388608)) 2
        true true none
      ≠ Except.ok bitconsts.Model_CullDist :=
  ⟨(cullmodel_dist bitconsts (by decide) 200 (f32.fin 1000) (f32.fin 4) 2 true true none).1.2
      ⟨by decide, quotient_250⟩,
   fun h =>
    absurd
      ((cullmodel_dist bitconsts (by decide) 200 (f32.fin 1000) (f32.fin 5) 2 true true
        none).1.1 h).2
      (by rw [quotient_200]; decide),
   (cullmodel_dist bitconsts (by decide) 200 (f32.fin 5) (f32.fin 0) 2 true true none).1.2
      ⟨by decide, quotient_inf⟩,
   fun h =>
    absurd
      ((cullmodel_dist bitconsts (by decide) 200 (f32.fin (6553601 / 32768))
        (f32.fin (8388609 / 8388608)) 2 true true none).1.1 h).2
      (by rw [quotient_rounds.2.2.2]; decide)⟩

/-! ## Shadow masks, preloading, registry lookups and command guards -/

theorem usedmapmodels_nil (EngineEnt_Mapmodel : Int) (ents : List extentity) :
    usedmapmodels EngineEnt_Mapmodel ents = [] := by
  unfold usedmapmodels
  induction ents with
  | nil => rfl
  | cons e ents ih =>
    rw [List.foldl_cons]
    have hc : ¬ (e.type = EngineEnt_Mapmodel ∧ e.attr1 ≥ 0 ∧ e.attr1 ∈ ([] : List Int)) := by
      simp
    rw [if_neg hc]
    exact ih

/-- Whatever the entities are, `preloadusedmapmodels` calls `loadmodel` for no
map-model index and returns the state as it was. -/
theorem preloadusedmapmodels_nothing (load : loaderkind → String → Option model)
    (EngineEnt_Mapmodel : Int) (ents : List extentity) (st : rmstate) :
    preloadusedmapmodels load EngineEnt_Mapmodel ents st = Except.ok (st, []) := by
  unfold preloadusedmapmodels
  rw [usedmapmodels_nil]
  rfl

/-- For every negative index the lookups read `mapmodels` out of bounds. -/
theorem lookups_negative (load : loaderkind → String → Option model) (st : rmstate)
    (n : Int) (hn : n < 0) :
    mapmodelname st n = Except.error fault.outofbounds ∧
    loadmapmodel load st n = Except.error fault.outofbounds ∧
    loadmodel load st none n = Except.error fault.outofbounds := by
  have hlen : (st.mapmodels.length : Int) > n :=
    lt_of_lt_of_le hn (Int.ofNat_nonneg _)
  have hv : vecat st.mapmodels n = none := by
    unfold vecat
    rw [if_neg (not_le.2 hn)]
  refine ⟨?_, ?_, ?_⟩
  · unfold mapmodelname
    rw [if_pos hlen, hv]
  · unfold loadmapmodel
    rw [if_pos hlen, hv]
  · unfold loadmodel
    simp only [hlen, not_true_eq_false, if_false, hv]

/-- With no model being loaded each command writes the error line and then
reads through the null `loadingmodel`. -/
theorem mdl_null (cn co : Int) (st : rmstate) (hl : st.loadingmodel = none) (p : f32)
    (g c : Int) :
    (checkmdl st).console = st.console ++ ["not loading a model"] ∧
    (checkmdl st).loadingmodel = none ∧
    mdlscale st p = Except.error fault.nullderef ∧
    mdlgloss st g = Except.error fault.nullderef ∧
    mdlcollide cn co st c = Except.error fault.nullderef := by
  have hc : checkmdl st = { st with console := st.console ++ ["not loading a model"] } := by
    unfold checkmdl
    rw [hl]
  refine ⟨by rw [hc], by rw [hc]; exact hl, ?_, ?_, ?_⟩
  · unfold mdlscale
    simp only [hc, hl]
  · unfold mdlgloss
    simp only [hc, hl]
  · unfold mdlcollide
    simp only [hc, hl]

/-- C17, the code at the failing input: with a first batched model flagged
`Model_NoShadow` and a second, opaque dynamic model without flags, the pass with
`dynshadow` set leaves the loop at the first entry and the `visible` mask of
the second model stays 0 although `shadowmaskmodel` gives 5 for it. -/
theorem shadowmask_stops_at_noshadow :
    shadowmaskbatchedmodels bitconsts (fun _ _ => 5) true
        [⟨⟨0, 0, 0⟩, 1, 1, bitconsts.Model_NoShadow, 0, -1⟩, ⟨⟨9, 0, 0⟩, 1, 1, 0, 0, -1⟩]
      = [⟨⟨0, 0, 0⟩, 1, 1, bitconsts.Model_NoShadow, 0, -1⟩, ⟨⟨9, 0, 0⟩, 1, 1, 0, 0, -1⟩] ∧
    shadowmaskbatchedmodels bitconsts (fun _ _ => 5) true [⟨⟨9, 0, 0⟩, 1, 1, 0, 0, -1⟩]
      = [⟨⟨9, 0, 0⟩, 1, 1, 0, 5, -1⟩] := by
  constructor
  · rfl
  · simp [shadowmaskbatchedmodels, bitconsts]

/-- C18, the code at the failing input: for one map-model entity with
`attr1 = 0` and a registry whose entry 0 is named, the collection of used
indices is empty and `loadmodel` is called for no index. -/
theorem preload_loads_nothing :
    usedmapmodels 2 [⟨2, 0⟩] = [] ∧
    preloadusedmapmodels objonly 2 [⟨2, 0⟩] ⟨none, [⟨"mapmodel/tree", none, none⟩], [], [], []⟩
      = Except.ok (⟨none, [⟨"mapmodel/tree", none, none⟩], [], [], []⟩, []) :=
  ⟨usedmapmodels_nil 2 _, preloadusedmapmodels_nothing objonly 2 _ _⟩

/-- C19, the code at the failing input: with one registered map model, the
lookups at index -1 pass the size test and read `mapmodels[-1]`. -/
theorem lookups_read_out_of_bounds :
    mapmodelname ⟨none, [⟨"mapmodel/tree", none, none⟩], [], [], []⟩ (-1)
      = Except.error fault.outofbounds ∧
    loadmapmodel objonly ⟨none, [⟨"mapmodel/tree", none, none⟩], [], [], []⟩ (-1)
      = Except.error fault.outofbounds ∧
    loadmodel objonly ⟨none, [⟨"mapmodel/tree", none, none⟩], [], [], []⟩ none (-1)
      = Except.error fault.outofbounds :=
  lookups_negative objonly _ (-1) (by decide)

/-- C20, the code at the failing input: with `loadingmodel` null, `checkmdl`
writes "not loading a model" and returns to the command, which then reads
through the null pointer. -/
theorem mdl_commands_null_deref :
    (checkmdl ⟨none, [], [], [], []⟩).console = ["not loading a model"] ∧
    mdlscale ⟨none, [], [], [], []⟩ 50 = Except.error fault.nullderef ∧
    mdlgloss ⟨none, [], [], [], []⟩ 1 = Except.error fault.nullderef ∧
    mdlcollide 0 1 ⟨none, [], [], [], []⟩ 1 = Except.error fault.nullderef :=
  ⟨(mdl_null 0 1 ⟨none, [], [], [], []⟩ rfl 50 1 1).1,
   (mdl_null 0 1 ⟨none, [], [], [], []⟩ rfl 50 1 1).2.2.1,
   (mdl_null 0 1 ⟨none, [], [], [], []⟩ rfl 50 1 1).2.2.2.1,
   (mdl_null 0 1 ⟨none, [], [], [], []⟩ rfl 50 1 1).2.2.2.2⟩

/-! ## Model batches: lemmas -/

theorem get?_append_last {α : Type} (l : List α) (x : α) : (l ++ [x]).get? l.length = some x := by
  simp

theorem set_append_last {α : Type} (l : List α) (x y : α) :
    (l ++ [x]).set l.length y = l ++ [y] := by
  induction l with
  | nil => rfl
  | cons a l ih => simp [ih]

theorem vecat_append {α : Type} (l ext : List α) (j : Int) (x : α) (h : vecat l j = some x) :
    vecat (l ++ ext) j = some x := by
  unfold vecat at h ⊢
  split at h
  · rename_i hj
    rw [if_pos hj]
    have hlt : j.toNat < l.length := by
      rw [List.get?_eq_some] at h
      exact h.1
    rw [List.get?_eq_getElem?] at h ⊢
    rw [List.getElem?_append_left hlt]
    exact h
  · exact absurd h (by simp)

theorem vecat_lt {α : Type} (l : List α) (j : Int) (x : α) (h : vecat l j = some x) :
    0 ≤ j ∧ j < l.length ∧ l.get? j.toNat = some x := by
  unfold vecat at h
  split at h
  · rename_i hj
    have hlt : j.toNat < l.length := by
      rw [List.get?_eq_some] at h
      exact h.1
    refine ⟨hj, ?_, h⟩
    omega
  · exact absurd h (by simp)

theorem chainwalk_neg (bms : List batchedmodel) (fuel : Nat) (j : Int) (hj : j < 0) :
    chainwalk bms fuel j = some [] := by
  cases fuel with
  | zero => rw [chainwalk, if_pos hj]
  | succ f => rw [chainwalk, if_pos hj]

theorem chainwalk_succ (bms : List batchedmodel) (fuel : Nat) (j : Int) (bm : batchedmodel)
    (hj : ¬ j < 0) (hv : vecat bms j = some bm) :
    chainwalk bms (fuel + 1) j
      = (chainwalk bms fuel bm.next).map (fun l => j.toNat :: l) := by
  rw [chainwalk, if_neg hj, hv]

theorem chainwalk_inv (bms : List batchedmodel) (fuel : Nat) (j : Int) (l : List Nat)
    (hj : ¬ j < 0) (h : chainwalk bms fuel j = some l) :
    ∃ f bm l2, fuel = f + 1 ∧ vecat bms j = some bm ∧ chainwalk bms f bm.next = some l2 ∧
      l = j.toNat :: l2 := by
  cases fuel with
  | zero =>
    rw [chainwalk, if_neg hj] at h
    exact absurd h (by simp)
  | succ f =>
    cases hv : vecat bms j with
    | none =>
      rw [chainwalk, if_neg hj, hv] at h
      exact absurd h (by simp)
    | some bm =>
      rw [chainwalk_succ bms f j bm hj hv] at h
      cases hc : chainwalk bms f bm.next with
      | none =>
        rw [hc] at h
        exact absurd h (by simp)
      | some l2 =>
        rw [hc] at h
        injection h with h
        exact ⟨f, bm, l2, rfl, rfl, hc, h.symm⟩

theorem chainwalk_append (bms ext : List batchedmodel) :
    ∀ (fuel : Nat) (j : Int) (l : List Nat), chainwalk bms fuel j = some l →
      chainwalk (bms ++ ext) fuel j = some l := by
  intro fuel
  induction fuel with
  | zero => intro j l h; exact h
  | succ f ih =>
    intro j l h
    by_cases hj : j < 0
    · rw [chainwalk_neg _ _ _ hj] at h ⊢
      exact h
    · obtain ⟨f2, bm, l2, hf, hv, hc, hl⟩ := chainwalk_inv bms (f + 1) j l hj h
      have hf2 : f2 = f := by omega
      subst hf2
      rw [chainwalk_succ _ _ _ bm hj (vecat_append bms ext j bm hv), ih _ _ hc, hl]
      rfl

theorem chainwalk_fuel (bms : List batchedmodel) :
    ∀ (fuel : Nat) (j : Int) (l : List Nat), chainwalk bms fuel j = some l →
      chainwalk bms (fuel + 1) j = some l := by
  intro fuel
  induction fuel with
  | zero =>
    intro j l h
    by_cases hj : j < 0
    · rw [chainwalk_neg _ _ _ hj] at h ⊢
      exact h
    · rw [chainwalk, if_neg hj] at h
      exact absurd h (by simp)
  | succ f ih =>
    intro j l h
    by_cases hj : j < 0
    · rw [chainwalk_neg _ _ _ hj] at h ⊢
      exact h
    · obtain ⟨f2, bm, l2, hf, hv, hc, hl⟩ := chainwalk_inv bms (f + 1) j l hj h
      have hf2 : f2 = f := by omega
      subst hf2
      rw [chainwalk_succ _ _ _ bm hj hv, ih _ _ hc, hl]
      rfl

theorem findbatch_some (K : modelconsts) (st : batchstate) (m f k : Nat)
    (h : findbatch K st m f = some k) : ∃ b, st.batches.get? k = some b := by
  unfold findbatch at h
  split at h
  · split at h
    · rename_i b hb
      split at h
      · injection h with h
        rw [← h]
        exact ⟨b, hb⟩
      · exact absurd h (by simp)
    · exact absurd h (by simp)
  · exact absurd h (by simp)

theorem batchmodel_cases (K : modelconsts) (st st2 : batchstate) (m : Nat) (bm : batchedmodel)
    (h : batchmodel K st m bm = Except.ok st2) :
    (∃ k b, st.batches.get? k = some b ∧
      st2.batches = st.batches.set k
        { b with flags := b.flags ||| bm.flags, batched := (st.batchedmodels.length : Int) } ∧
      st2.batchedmodels = st.batchedmodels ++ [{ bm with next := b.batched }]) ∨
    (st2.batches = st.batches ++
        [{ m := m, flags := 0 ||| bm.flags, batched := (st.batchedmodels.length : Int) }] ∧
      st2.batchedmodels = st.batchedmodels ++ [{ bm with next := -1 }]) := by
  unfold batchmodel addbatchedmodel at h
  have hlen : (((st.batchedmodels ++ [bm]).length - 1 : Nat) : Int)
      = (st.batchedmodels.length : Int) := by
    simp
  simp only [get?_append_last, hlen] at h
  cases hf : findbatch K { st with batchedmodels := st.batchedmodels ++ [bm] } m bm.flags with
  | none =>
    rw [hf] at h
    injection h with h
    right
    rw [← h]
    exact ⟨rfl, set_append_last _ _ _⟩
  | some k =>
    rw [hf] at h
    obtain ⟨b, hb⟩ := findbatch_some K _ m bm.flags k hf
    have hb2 : st.batches.get? k = some b := hb
    simp only [hb2] at h
    injection h with h
    left
    refine ⟨k, b, hb2, ?_, ?_⟩
    · rw [← h]
    · rw [← h]
      exact set_append_last _ _ _

theorem batchmodel_ok (K : modelconsts) (st : batchstate) (m : Nat) (bm : batchedmodel) :
    ∃ st2, batchmodel K st m bm = Except.ok st2 := by
  unfold batchmodel addbatchedmodel
  simp only [get?_append_last]
  cases hf : findbatch K { st with batchedmodels := st.batchedmodels ++ [bm] } m bm.flags with
  | none => exact ⟨_, rfl⟩
  | some k =>
    obtain ⟨b, hb⟩ := findbatch_some K _ m bm.flags k hf
    have hb2 : st.batches.get? k = some b := hb
    simp only [hb2]
    exact ⟨_, rfl⟩

theorem chainof_succ (owner : Nat → Nat) (n k0 k : Nat) :
    chainof (fun i => if i = n then k0 else owner i) (n + 1) k
      = if k0 = k then n :: chainof owner n k else chainof owner n k := by
  unfold chainof
  rw [List.range_succ, List.reverse_append, List.reverse_singleton, List.singleton_append,
    List.filter_cons]
  have htail : List.filter (fun i => decide ((if i = n then k0 else owner i) = k))
      (List.range n).reverse
      = List.filter (fun i => decide (owner i = k)) (List.range n).reverse := by
    apply List.filter_congr
    intro i hi
    have hin : i < n := List.mem_range.1 (List.mem_reverse.1 hi)
    have hne : i ≠ n := Nat.ne_of_lt hin
    simp only [if_neg hne]
  rw [htail]
  simp only [if_true]
  by_cases hk : k0 = k
  · simp [hk]
  · simp [hk]

theorem chainof_mem (owner : Nat → Nat) (n k i : Nat) :
    i ∈ chainof owner n k ↔ i < n ∧ owner i = k := by
  unfold chainof
  rw [List.mem_filter, List.mem_reverse, List.mem_range, decide_eq_true_eq]

theorem chainof_none (owner : Nat → Nat) (n k : Nat) (h : ∀ i, i < n → owner i ≠ k) :
    chainof owner n k = [] := by
  rw [List.eq_nil_iff_forall_not_mem]
  intro i hi
  rw [chainof_mem] at hi
  exact h i hi.1 hi.2

theorem chainof_pairwise (owner : Nat → Nat) (n k : Nat) :
    (chainof owner n k).Pairwise (fun a b => a > b) := by
  unfold chainof
  apply List.Pairwise.filter
  rw [List.pairwise_reverse]
  exact List.pairwise_lt_range n

/-- The links of the batched models after one more model is batched. -/
theorem links_append (bms : List batchedmodel) (x : batchedmodel)
    (hA : ∀ i bm, bms.get? i = some bm → -1 ≤ bm.next ∧ bm.next < (i : Int))
    (hx : -1 ≤ x.next ∧ x.next < (bms.length : Int)) :
    ∀ i bm, (bms ++ [x]).get? i = some bm → -1 ≤ bm.next ∧ bm.next < (i : Int) := by
  intro i bm h
  rw [List.get?_eq_getElem?] at h
  by_cases hi : i < bms.length
  · rw [List.getElem?_append_left hi] at h
    exact hA i bm (by rw [List.get?_eq_getElem?]; exact h)
  · have hlen : i < (bms ++ [x]).length := (List.getElem?_eq_some.1 h).1
    rw [List.length_append, List.length_singleton] at hlen
    have hi2 : i = bms.length := by omega
    rw [hi2, List.getElem?_concat_length] at h
    injection h with h
    rw [← h, hi2]
    exact hx

theorem chainwalk_new (bms : List batchedmodel) (x : batchedmodel) (l : List Nat)
    (h : chainwalk bms bms.length x.next = some l) :
    chainwalk (bms ++ [x]) (bms ++ [x]).length (bms.length : Int)
      = some (bms.length :: l) := by
  have hv : vecat (bms ++ [x]) (bms.length : Int) = some x := by
    unfold vecat
    rw [if_pos (Int.ofNat_nonneg _), Int.toNat_ofNat]
    exact get?_append_last bms x
  have hj : ¬ ((bms.length : Int) < 0) := not_lt.2 (Int.ofNat_nonneg _)
  rw [List.length_append, List.length_singleton, chainwalk_succ _ _ _ x hj hv,
    chainwalk_append bms [x] _ _ l h, Int.toNat_ofNat]
  rfl

theorem chainwalk_old (bms : List batchedmodel) (x : batchedmodel) (j : Int) (l : List Nat)
    (h : chainwalk bms bms.length j = some l) :
    chainwalk (bms ++ [x]) (bms ++ [x]).length j = some l := by
  rw [List.length_append, List.length_singleton]
  exact chainwalk_fuel _ _ _ _ (chainwalk_append bms [x] _ _ l h)

theorem batchinv_step (K : modelconsts) (st st2 : batchstate) (m : Nat) (bm : batchedmodel)
    (owner : Nat → Nat) (hinv : batchinv st owner)
    (h : batchmodel K st m bm = Except.ok st2) : ∃ owner2, batchinv st2 owner2 := by
  obtain ⟨hA, hB, hC⟩ := hinv
  rcases batchmodel_cases K st st2 m bm h with ⟨k0, b0, hb0, hbat, hbms⟩ | ⟨hbat, hbms⟩
  · obtain ⟨h0, h1, h2⟩ := hC k0 b0 hb0
    have hk0 : k0 < st.batches.length := by
      rw [List.get?_eq_getElem?] at hb0
      exact (List.getElem?_eq_some.1 hb0).1
    refine ⟨fun i => if i = st.batchedmodels.length then k0 else owner i, ?_, ?_, ?_⟩
    · rw [hbms]
      exact links_append _ _ hA ⟨by show (-1 : Int) ≤ b0.batched; omega, h1⟩
    · intro i hi
      rw [hbms, List.length_append, List.length_singleton] at hi
      rw [hbat, List.length_set]
      beta_reduce
      by_cases hin : i = st.batchedmodels.length
      · rw [if_pos hin]
        exact hk0
      · rw [if_neg hin]
        exact hB i (by omega)
    · intro k b hb
      rw [hbms, List.length_append, List.length_singleton, chainof_succ]
      rw [hbat, List.get?_eq_getElem?, List.getElem?_set] at hb
      by_cases hk : k0 = k
      · rw [if_pos hk, if_pos (hk ▸ hk0)] at hb
        injection hb with hb
        rw [if_pos hk, ← hb]
        refine ⟨Int.ofNat_nonneg _, by show (st.batchedmodels.length : Int) < _; omega, ?_⟩
        have := chainwalk_new st.batchedmodels { bm with next := b0.batched }
          (chainof owner st.batchedmodels.length k0) h2
        rw [List.length_append, List.length_singleton] at this
        rw [← hk]
        exact this
      · rw [if_neg hk] at hb
        rw [if_neg hk]
        obtain ⟨g0, g1, g2⟩ := hC k b (by rw [List.get?_eq_getElem?]; exact hb)
        refine ⟨g0, by omega, ?_⟩
        have := chainwalk_old st.batchedmodels { bm with next := b0.batched } b.batched _ g2
        rw [List.length_append, List.length_singleton] at this
        exact this
  · refine ⟨fun i => if i = st.batchedmodels.length then st.batches.length else owner i,
      ?_, ?_, ?_⟩
    · rw [hbms]
      exact links_append _ _ hA ⟨Int.le_refl _, by
        show (-1 : Int) < (st.batchedmodels.length : Int)
        omega⟩
    · intro i hi
      rw [hbms, List.length_append, List.length_singleton] at hi
      rw [hbat, List.length_append, List.length_singleton]
      beta_reduce
      by_cases hin : i = st.batchedmodels.length
      · rw [if_pos hin]
        omega
      · rw [if_neg hin]
        have := hB i (by omega)
        omega
    · intro k b hb
      rw [hbms, List.length_append, List.length_singleton, chainof_succ]
      rw [hbat, List.get?_eq_getElem?] at hb
      by_cases hk : st.batches.length = k
      · rw [← hk, List.getElem?_concat_length] at hb
        injection hb with hb
        rw [if_pos hk, ← hb]
        refine ⟨Int.ofNat_nonneg _, by show (st.batchedmodels.length : Int) < _; omega, ?_⟩
        have hnone : chainof owner st.batchedmodels.length k = [] := by
          apply chainof_none
          intro i hi
          have := hB i hi
          omega
        rw [hnone]
        have := chainwalk_new st.batchedmodels { bm with next := -1 } []
          (chainwalk_neg _ _ _ (show ((-1 : Int) < 0) by decide))
        rw [List.length_append, List.length_singleton] at this
        exact this
      · rw [if_neg hk]
        have hlt : k < st.batches.length := by
          have := (List.getElem?_eq_some.1 hb).1
          rw [List.length_append, List.length_singleton] at this
          omega
        rw [List.getElem?_append_left hlt] at hb
        obtain ⟨g0, g1, g2⟩ := hC k b (by rw [List.get?_eq_getElem?]; exact hb)
        refine ⟨g0, by omega, ?_⟩
        have := chainwalk_old st.batchedmodels { bm with next := -1 } b.batched _ g2
        rw [List.length_append, List.length_singleton] at this
        exact this

theorem batchinv_reachable (K : modelconsts) (st : batchstate) (h : batchreachable K st) :
    ∃ owner, batchinv st owner := by
  induction h with
  | reset st0 =>
    refine ⟨fun _ => 0, ?_, ?_, ?_⟩
    · intro i bm hi
      exact absurd hi (by simp [resetmodelbatches])
    · intro i hi
      exact absurd hi (by simp [resetmodelbatches])
    · intro k b hb
      exact absurd hb (by simp [resetmodelbatches])
  | step st1 st2 m bm _ hstep ih =>
    obtain ⟨owner, hinv⟩ := ih
    exact batchinv_step K st1 st2 m bm owner hinv hstep

theorem batchmodel_length (K : modelconsts) (st st2 : batchstate) (m : Nat) (bm : batchedmodel)
    (h : batchmodel K st m bm = Except.ok st2) :
    st2.batchedmodels.length = st.batchedmodels.length + 1 := by
  rcases batchmodel_cases K st st2 m bm h with ⟨_, _, _, _, hbms⟩ | ⟨_, hbms⟩
  · rw [hbms, List.length_append, List.length_singleton]
  · rw [hbms, List.length_append, List.length_singleton]

/-- C21: in every state reached from `resetmodelbatches` by appending a batched
model and calling `addbatchedmodel` with the index of the new element, every
link `next` is -1 or a valid lower index; for every batch `b` the loop
`for(j = b.batched; j >= 0; j = batchedmodels[j].next)` ends within
`batchedmodels.size()` rounds, starts at a valid index and visits valid indices
in strictly decreasing order; every index of `batchedmodels` is visited by the
loop of exactly one batch; and the next model can always be batched. -/
theorem batch_chain_invariant (K : modelconsts) (st : batchstate)
    (h : batchreachable K st) :
    (∀ i bm, st.batchedmodels.get? i = some bm → -1 ≤ bm.next ∧ bm.next < (i : Int)) ∧
    (∀ b ∈ st.batches, 0 ≤ b.batched ∧ ∃ l,
      chainwalk st.batchedmodels st.batchedmodels.length b.batched = some l ∧ l ≠ [] ∧
      (∀ i ∈ l, i < st.batchedmodels.length) ∧ l.Pairwise (fun a c => a > c)) ∧
    (∀ i, i < st.batchedmodels.length →
      ∃ k b l, st.batches.get? k = some b ∧
        chainwalk st.batchedmodels st.batchedmodels.length b.batched = some l ∧ i ∈ l ∧
        ∀ k2 b2 l2, st.batches.get? k2 = some b2 →
          chainwalk st.batchedmodels st.batchedmodels.length b2.batched = some l2 →
          i ∈ l2 → k2 = k) ∧
    (∀ (m : Nat) (bm : batchedmodel), ∃ st2, batchmodel K st m bm = Except.ok st2) := by
  obtain ⟨owner, hA, hB, hC⟩ := batchinv_reachable K st h
  refine ⟨hA, ?_, ?_, fun m bm => batchmodel_ok K st m bm⟩
  · intro b hb
    obtain ⟨k, hk⟩ := List.mem_iff_get?.1 hb
    obtain ⟨h0, _, h2⟩ := hC k b hk
    refine ⟨h0, _, h2, ?_, ?_, chainof_pairwise _ _ _⟩
    · obtain ⟨_, _, l2, _, _, _, hl⟩ := chainwalk_inv _ _ _ _ (not_lt.2 h0) h2
      rw [hl]
      exact List.cons_ne_nil _ _
    · intro i hi
      exact ((chainof_mem _ _ _ _).1 hi).1
  · intro i hi
    have hlt := hB i hi
    obtain ⟨b, hb⟩ : ∃ b, st.batches.get? (owner i) = some b := by
      rw [List.get?_eq_getElem?]
      exact ⟨_, List.getElem?_eq_getElem hlt⟩
    obtain ⟨_, _, h2⟩ := hC (owner i) b hb
    refine ⟨owner i, b, _, hb, h2, (chainof_mem _ _ _ _).2 ⟨hi, rfl⟩, ?_⟩
    intro k2 b2 l2 hb2 hw2 hi2
    obtain ⟨_, _, g2⟩ := hC k2 b2 hb2
    rw [g2] at hw2
    injection hw2 with hw2
    rw [← hw2] at hi2
    exact ((chainof_mem _ _ _ _).1 hi2).2.symm

theorem batch_chain_invariant_witness :
    ∃ st : batchstate, batchreachable bitconsts st ∧ st.batchedmodels.length = 2 ∧
      (∀ i bm, st.batchedmodels.get? i = some bm → -1 ≤ bm.next ∧ bm.next < (i : Int)) ∧
      (∀ b ∈ st.batches, 0 ≤ b.batched ∧ ∃ l,
        chainwalk st.batchedmodels st.batchedmodels.length b.batched = some l ∧ l ≠ [] ∧
        (∀ i ∈ l, i < st.batchedmodels.length) ∧ l.Pairwise (fun a c => a > c)) := by
  obtain ⟨st1, h1⟩ := batchmodel_ok bitconsts (resetmodelbatches ⟨[], [], fun _ => -1⟩) 7
    ⟨⟨0, 0, 0⟩, 1, 1, 0, 0, 0⟩
  obtain ⟨st2, h2⟩ := batchmodel_ok bitconsts st1 7 ⟨⟨1, 0, 0⟩, 1, 1, 0, 0, 0⟩
  have hr : batchreachable bitconsts st2 :=
    batchreachable.step st1 st2 7 _
      (batchreachable.step _ st1 7 _ (batchreachable.reset _) h1) h2
  have hlen : st2.batchedmodels.length = 2 := by
    rw [batchmodel_length _ _ _ _ _ h2, batchmodel_length _ _ _ _ _ h1]
    rfl
  exact ⟨st2, hr, hlen, (batch_chain_invariant bitconsts st2 hr).1,
    (batch_chain_invariant bitconsts st2 hr).2.1⟩

/-! ## Map-model names: lemmas -/

theorem formatstring_fits (maxstrlen : Nat) (a b : String)
    (h : (a ++ b).length < maxstrlen) : formatstring maxstrlen a b = a ++ b := by
  unfold formatstring
  apply String.ext
  rw [String.data_append]
  apply List.take_of_length_le
  have : (a ++ b).length = (a.data ++ b.data).length := by
    rw [String.length, String.data_append]
  omega

theorem drop_mmprefix (name : String) :
    (⟨( mmprefix ++ name).data.drop mmprefixlen⟩ : String) = name := by
  apply String.ext
  rw [String.data_append]
  exact List.drop_left _ _

theorem mmprefix_append_ne (name : String) : mmprefix ++ name ≠ "" := by
  intro h
  have hl := congrArg String.length h
  rw [String.length_append] at hl
  have h9 : String.length mmprefix = 9 := by decide
  rw [h9] at hl
  have h0 : String.length "" = 0 := rfl
  omega

theorem vecat_last {α : Type} (l : List α) (x : α) :
    vecat (l ++ [x]) (l.length : Int) = some x := by
  unfold vecat
  rw [if_pos (Int.ofNat_nonneg _), Int.toNat_ofNat]
  exact get?_append_last l x

/-- The lookups at the index of the entry that `mapmodel` pushed. -/
theorem mapmodel_lookups (maxstrlen : Nat) (st : rmstate) (name : String) (pfx : Int) :
    mapmodelname (mapmodel maxstrlen st name) (st.mapmodels.length : Int)
      = Except.ok (some (if name ≠ "" then formatstring maxstrlen mmprefix name else "")) ∧
    mapmodelnamecmd (mapmodel maxstrlen st name) (st.mapmodels.length : Int) pfx
      = Except.ok (some
          (if (if name ≠ "" then formatstring maxstrlen mmprefix name else "") ≠ "" then
            (if pfx ≠ 0 then (if name ≠ "" then formatstring maxstrlen mmprefix name else "")
              else ⟨(if name ≠ "" then formatstring maxstrlen mmprefix name
                else "").data.drop mmprefixlen⟩)
          else "")) := by
  have hlen : ((mapmodel maxstrlen st name).mapmodels.length : Int)
      > (st.mapmodels.length : Int) := by
    simp [mapmodel]
  constructor
  · unfold mapmodelname
    rw [if_pos hlen]
    simp only [mapmodel, vecat_last]
  · unfold mapmodelnamecmd
    rw [if_pos hlen]
    simp only [mapmodel, vecat_last]

/-- C22: `mapmodel` always grows `mapmodels` by exactly one entry whose `m` and
`collide` are null. For a non-empty name that fits the name buffer together with
the prefix, at the index `i` of the new entry `mapmodelname(i)` is
`"mapmodel/" + name`, `mapmodelnamecmd(i, prefix != 0)` yields
`"mapmodel/" + name` and `mapmodelnamecmd(i, 0)` yields `name`; for the empty
name all three yield the empty string. -/
theorem mapmodel_name_roundtrip (maxstrlen : Nat) (st : rmstate) (name : String) :
    (∃ nm, (mapmodel maxstrlen st name).mapmodels
      = st.mapmodels ++ [{ name := nm, m := none, collide := none }]) ∧
    (mapmodel maxstrlen st name).mapmodels.length = st.mapmodels.length + 1 ∧
    (name ≠ "" → ( mmprefix ++ name).length < maxstrlen →
      mapmodelname (mapmodel maxstrlen st name) (st.mapmodels.length : Int)
        = Except.ok (some ( mmprefix ++ name)) ∧
      (∀ pfx : Int, pfx ≠ 0 →
        mapmodelnamecmd (mapmodel maxstrlen st name) (st.mapmodels.length : Int) pfx
          = Except.ok (some ( mmprefix ++ name))) ∧
      mapmodelnamecmd (mapmodel maxstrlen st name) (st.mapmodels.length : Int) 0
        = Except.ok (some name)) ∧
    (name = "" →
      mapmodelname (mapmodel maxstrlen st name) (st.mapmodels.length : Int)
        = Except.ok (some "") ∧
      ∀ pfx : Int,
        mapmodelnamecmd (mapmodel maxstrlen st name) (st.mapmodels.length : Int) pfx
          = Except.ok (some "")) := by
  refine ⟨⟨_, rfl⟩, by simp [mapmodel], ?_, ?_⟩
  · intro hne hfit
    have hf := formatstring_fits maxstrlen mmprefix name hfit
    refine ⟨?_, ?_, ?_⟩
    · rw [(mapmodel_lookups maxstrlen st name 0).1, if_pos hne, hf]
    · intro pfx hp
      rw [(mapmodel_lookups maxstrlen st name pfx).2, if_pos hne, hf,
        if_pos (mmprefix_append_ne name), if_pos hp]
    · rw [(mapmodel_lookups maxstrlen st name 0).2, if_pos hne, hf,
        if_pos (mmprefix_append_ne name), if_neg (by simp), drop_mmprefix]
  · intro he
    have hn : ¬ (name ≠ "") := not_not.2 he
    refine ⟨?_, ?_⟩
    · rw [(mapmodel_lookups maxstrlen st name 0).1, if_neg hn]
    · intro pfx
      rw [(mapmodel_lookups maxstrlen st name pfx).2, if_neg hn, if_neg (by simp)]

theorem mapmodel_name_roundtrip_witness :
    mapmodelname (mapmodel 260 ⟨none, [], [], [], []⟩ "tree") 0
      = Except.ok (some "mapmodel/tree") ∧
    mapmodelnamecmd (mapmodel 260 ⟨none, [], [], [], []⟩ "tree") 0 1
      = Except.ok (some "mapmodel/tree") ∧
    mapmodelnamecmd (mapmodel 260 ⟨none, [], [], [], []⟩ "tree") 0 0
      = Except.ok (some "tree") :=
  ⟨((mapmodel_name_roundtrip 260 ⟨none, [], [], [], []⟩ "tree").2.2.1 (by decide)
      (by decide)).1,
   ((mapmodel_name_roundtrip 260 ⟨none, [], [], [], []⟩ "tree").2.2.1 (by decide)
      (by decide)).2.1 1 (by decide),
   ((mapmodel_name_roundtrip 260 ⟨none, [], [], [], []⟩ "tree").2.2.1 (by decide)
      (by decide)).2.2⟩
